import Mathlib

/-!
Hash map over bucket vectors: embedding of `vector.c` and `hashmap.c`.

The C sources are embedded as pure state-passing functions.

* A pointer that may be `NULL` is an `Option`; the map argument of the mutating
  operations is a live map (the `hash_map == NULL` guard returns before touching
  anything and there is no state to report for it).
* Elements are modelled by value: `elem_copy_func` returns an element equal to its
  argument and `elem_free_func` has no observable effect, so copying is the identity
  and freeing is dropped.  The one place where the code reads an element after freeing
  it, the rollback of `hashmap_erase`, has no defined result: `hashmap_erase` returns
  an `Option`, `none` there.
* `size_t` quantities are natural numbers.  Decrementing zero wraps to `SIZE_MAX` as in
  C (`size_t_pred`); growth never wraps, because an array of 2^61 pointers cannot be
  allocated.
* `(double) size / (double) capacity` is the exact fraction in `ℚ` (the quotient is
  exact in binary floating point for every capacity reached here).
* Allocation succeeds, except for the bucket array requested by a rehash, whose
  failure is the flag `oom` of `assign_all_pairs`.
-/

namespace HashmapImpl

/-! ## Constants -/

/-- Largest value of `size_t`. -/
def SIZE_MAX : Nat := 2 ^ 64 - 1

/-- The C expression `n - 1` on a `size_t`: zero wraps around to `SIZE_MAX`. -/
def size_t_pred (n : Nat) : Nat := if n = 0 then SIZE_MAX else n - 1

/-- Modelled from the spec: `vector.h` is not among the sources; the vector starts at a
fixed initial capacity, the same value as the table's initial capacity. -/
def VECTOR_INITIAL_CAP : Nat := 16

/-- Modelled from the spec: `vector.h` is not among the sources; growth factor 2. -/
def VECTOR_GROWTH_FACTOR : Nat := 2

/-- Modelled from the spec: `vector.h` is not among the sources; upper threshold 0.75. -/
def VECTOR_MAX_LOAD_FACTOR : ℚ := 3 / 4

/-- Modelled from the spec: `vector.h` is not among the sources; lower threshold 0.25. -/
def VECTOR_MIN_LOAD_FACTOR : ℚ := 1 / 4

/-- Modelled from the spec: `hashmap.h` is not among the sources; initial capacity 16. -/
def HASH_MAP_INITIAL_CAP : Nat := 16

/-- Modelled from the spec: `hashmap.h` is not among the sources; growth factor 2. -/
def HASH_MAP_GROWTH_FACTOR : Nat := 2

/-- Modelled from the spec: `hashmap.h` is not among the sources; upper threshold 0.75. -/
def HASH_MAP_MAX_LOAD_FACTOR : ℚ := 3 / 4

/-- Modelled from the spec: `hashmap.h` is not among the sources; lower threshold 0.25. -/
def HASH_MAP_MIN_LOAD_FACTOR : ℚ := 1 / 4

/-- The macro `LOAD_FACTOR_ERR` of `hashmap.c`: -1. -/
def LOAD_FACTOR_ERR : ℚ := -1

/-- The macro `VEC_ERR` of `vector.c`: -1. -/
def VEC_ERR : ℚ := -1

/-- The macro `VACANT` of `hashmap.c`: -1. -/
def VACANT : Int := -1

/-- The macro `INSERT` of `hashmap.c`: 5. -/
def INSERT : Nat := 5

/-- The macro `DELETE` of `hashmap.c`: 4. -/
def DELETE : Nat := 4

/-! ## vector.c -/

/-- The struct `vector`: `data` is the backing array of element pointers, one entry per
slot, `none` for a `NULL` slot. -/
structure vector (α : Type) where
  capacity : Nat
  size : Nat
  data : List (Option α)

/-- The pointer read `data[i]`. -/
def slot {α : Type} (data : List (Option α)) (i : Nat) : Option α :=
  data.getD i none

/-- The call `realloc(data, sizeof(void *) * n)`: the first `n` slots are kept, slots
gained are indeterminate in C and taken as `NULL`. -/
def realloc {α : Type} (data : List (Option α)) (n : Nat) : List (Option α) :=
  data.take n ++ List.replicate (n - data.length) none

/-- The function `vector_alloc`: size 0, `VECTOR_INITIAL_CAP` zeroed slots. -/
def vector_alloc {α : Type} : vector α :=
  { capacity := VECTOR_INITIAL_CAP, size := 0,
    data := List.replicate VECTOR_INITIAL_CAP none }

/-- The function `vector_get_load_factor`. -/
def vector_get_load_factor {α : Type} (v : Option (vector α)) : ℚ :=
  match v with
  | none => VEC_ERR
  | some v => (v.size : ℚ) / (v.capacity : ℚ)

/-- The function `vector_at`: the guard is `ind > size - 1 || data[ind] == NULL`, with
`size - 1` computed on `size_t`. -/
def vector_at {α : Type} (v : vector α) (ind : Nat) : Option α :=
  if ind > size_t_pred v.size ∨ (slot v.data ind).isNone = true then none
  else slot v.data ind

/-- The function `vector_push_back`. -/
def vector_push_back {α : Type} (v : vector α) (value : α) : Bool × vector α :=
  if v.size = v.capacity then (false, v)
  else
    let v1 : vector α := { v with data := v.data.set v.size (some value), size := v.size + 1 }
    if vector_get_load_factor (some v1) > VECTOR_MAX_LOAD_FACTOR then
      let cap := v1.capacity * VECTOR_GROWTH_FACTOR
      (true, { v1 with capacity := cap, data := realloc v1.data cap })
    else (true, v1)

/-- The shifting loop of `vector_erase`:
`for (i = ind + 1; i < size; ++i) data[i-1] = copy(data[i])`, with `n` iterations left
and loop counter `i`. -/
def vector_erase_shift {α : Type} : List (Option α) → Nat → Nat → List (Option α)
  | data, 0, _ => data
  | data, n + 1, i => vector_erase_shift (data.set (i - 1) (slot data i)) n (i + 1)

/-- The function `vector_erase`. -/
def vector_erase {α : Type} (v : vector α) (ind : Nat) : Bool × vector α :=
  if (vector_at v ind).isNone = true then (false, v)
  else
    let d1 := v.data.set ind none
    let d2 := vector_erase_shift d1 (v.size - (ind + 1)) (ind + 1)
    let v1 : vector α := { v with data := d2, size := size_t_pred v.size }
    if vector_get_load_factor (some v1) < VECTOR_MIN_LOAD_FACTOR then
      let cap := v1.capacity / VECTOR_GROWTH_FACTOR
      (true, { v1 with capacity := cap, data := realloc v1.data cap })
    else (true, v1)

/-- The macro `NOT_FOUND` of `vector.c`: -1. -/
def NOT_FOUND : Int := -1

/-- Loop of `vector_find` with `n` iterations left and counter `i`: a `NULL` result of
`vector_at` is skipped, the test is `elem_cmp_func(cur_value, value)`.  The compare
capability returns 1 or 0 by its contract and is a `Bool` here.  The counter is an `int`
in C and a natural number here, which agrees as long as the index fits an `int`. -/
def vector_find_loop {α : Type} (elem_cmp_func : α → α → Bool) (v : vector α) (value : α) :
    Nat → Nat → Int
  | 0, _ => NOT_FOUND
  | n + 1, i =>
    match vector_at v i with
    | none => vector_find_loop elem_cmp_func v value n (i + 1)
    | some cur_value =>
      if elem_cmp_func cur_value value = true then (i : Int)
      else vector_find_loop elem_cmp_func v value n (i + 1)

/-- The function `vector_find`. -/
def vector_find {α : Type} (elem_cmp_func : α → α → Bool) (v : vector α) (value : α) : Int :=
  vector_find_loop elem_cmp_func v value v.size 0

/-- Loop of `vector_clear`, `for (i = 0; i < vector->size; ++i) vector_erase(vector, i)`,
with counter `i` and the bound `vector->size` read again before every iteration; `n` is
the number of iterations the model may still run, and the result is `none` when they
are used up before the loop condition fails. -/
def vector_clear_loop {α : Type} : vector α → Nat → Nat → Option (vector α)
  | v, 0, i => if i < v.size then none else some v
  | v, n + 1, i =>
    if i < v.size then vector_clear_loop (vector_erase v i).2 n (i + 1) else some v

/-- The function `vector_clear`; the loop is given as many iterations as the vector has
elements at the start. -/
def vector_clear {α : Type} (v : vector α) : Option (vector α) :=
  vector_clear_loop v v.size 0

/-! ## hashmap.c -/

/-- Modelled from the spec: `pair.h` is not among the sources; a pair owns one key and
one value.  Its key comparison capability is the argument `key_cmp` of the functions
below, shared by the pairs of one map. -/
structure pair (K V : Type) where
  key : K
  value : V

/-- The struct `hashmap`. -/
structure hashmap (K V : Type) where
  buckets : List (vector (pair K V))
  size : Nat
  capacity : Nat
  hash_func : K → Nat

/-- The pointer read `buckets[i]`; outside the array the model yields a fresh vector. -/
def bucket {K V : Type} (buckets : List (vector (pair K V))) (i : Nat) : vector (pair K V) :=
  buckets.getD i vector_alloc

/-- The function `buckets_alloc`: `capacity` freshly allocated vectors. -/
def buckets_alloc {K V : Type} (hash_map : hashmap K V) : List (vector (pair K V)) :=
  List.replicate hash_map.capacity vector_alloc

/-- The function `hashmap_alloc`. -/
def hashmap_alloc {K V : Type} (func : K → Nat) : hashmap K V :=
  let new_hash_map : hashmap K V :=
    { buckets := [], size := 0, capacity := HASH_MAP_INITIAL_CAP, hash_func := func }
  { new_hash_map with buckets := buckets_alloc new_hash_map }

/-- The function `hashmap_get_load_factor`. -/
def hashmap_get_load_factor {K V : Type} (hash_map : Option (hashmap K V)) : ℚ :=
  match hash_map with
  | none => LOAD_FACTOR_ERR
  | some m => (m.size : ℚ) / (m.capacity : ℚ)

/-- The bucket index `hash_func(key) & (capacity - 1)`. -/
def hash_index {K V : Type} (hash_map : hashmap K V) (key : K) : Nat :=
  hash_map.hash_func key &&& size_t_pred hash_map.capacity

/-- Inner loop of `assign_all_pairs` over `j`, with `n` iterations left: every pair of
`cur_vector` is pushed into its bucket of `temp_buckets`; `none` when a push fails.
A `NULL` slot below `size` would be dereferenced in C; the model stops with failure. -/
def assign_vector {K V : Type} (hash_map : hashmap K V) (cur_vector : vector (pair K V)) :
    Nat → Nat → List (vector (pair K V)) → Option (List (vector (pair K V)))
  | 0, _, temp_buckets => some temp_buckets
  | n + 1, j, temp_buckets =>
    match slot cur_vector.data j with
    | none => none
    | some cur_pair =>
      let hash_key := hash_index hash_map cur_pair.key
      let r := vector_push_back (bucket temp_buckets hash_key) cur_pair
      if r.1 = true then
        assign_vector hash_map cur_vector n (j + 1) (temp_buckets.set hash_key r.2)
      else none

/-- Outer loop of `assign_all_pairs` over `i`, with `n` iterations left. -/
def assign_buckets {K V : Type} (hash_map : hashmap K V) :
    Nat → Nat → List (vector (pair K V)) → Option (List (vector (pair K V)))
  | 0, _, temp_buckets => some temp_buckets
  | n + 1, i, temp_buckets =>
    let cur_vector := bucket hash_map.buckets i
    match assign_vector hash_map cur_vector cur_vector.size 0 temp_buckets with
    | none => none
    | some temp_buckets1 => assign_buckets hash_map n (i + 1) temp_buckets1

/-- The function `assign_all_pairs`: the outer loop runs for `i < hash_map->size`.
`oom` says that `buckets_alloc` returns `NULL`.  `action` only selects how many old
vectors are freed. -/
def assign_all_pairs {K V : Type} (hash_map : hashmap K V) (_action : Nat) (oom : Bool) :
    Bool × hashmap K V :=
  if oom = true then (false, hash_map)
  else
    match assign_buckets hash_map hash_map.size 0 (buckets_alloc hash_map) with
    | none => (false, hash_map)
    | some temp_buckets => (true, { hash_map with buckets := temp_buckets })

/-- Loop of `get_pair_by_key` with `n` iterations left and counter `i`: the test is
`cur_pair->key_cmp(cur_pair->key, key)`.  A `NULL` slot below `size` would be
dereferenced in C; the model steps over it. -/
def get_pair_by_key_loop {K V : Type} (key_cmp : K → K → Bool) (v : vector (pair K V))
    (key : K) : Nat → Nat → Int
  | 0, _ => VACANT
  | n + 1, i =>
    match slot v.data i with
    | some cur_pair =>
      if key_cmp cur_pair.key key = true then (i : Int)
      else get_pair_by_key_loop key_cmp v key n (i + 1)
    | none => get_pair_by_key_loop key_cmp v key n (i + 1)

/-- The function `get_pair_by_key`. -/
def get_pair_by_key {K V : Type} (key_cmp : K → K → Bool) (v : vector (pair K V))
    (key : K) : Int :=
  get_pair_by_key_loop key_cmp v key v.size 0

/-- The function `hashmap_insert`. -/
def hashmap_insert {K V : Type} (key_cmp : K → K → Bool) (oom : Bool)
    (hash_map : hashmap K V) (in_pair : Option (pair K V)) : Bool × hashmap K V :=
  match in_pair with
  | none => (false, hash_map)
  | some p =>
    let hash_key := hash_index hash_map p.key
    let cur_vector := bucket hash_map.buckets hash_key
    if get_pair_by_key key_cmp cur_vector p.key = VACANT then
      let value_addition := vector_push_back cur_vector p
      if value_addition.1 = false then (false, hash_map)
      else
        let m1 : hashmap K V :=
          { hash_map with buckets := hash_map.buckets.set hash_key value_addition.2,
                          size := hash_map.size + 1 }
        if hashmap_get_load_factor (some m1) > HASH_MAP_MAX_LOAD_FACTOR then
          let m2 : hashmap K V := { m1 with capacity := m1.capacity * HASH_MAP_GROWTH_FACTOR }
          let is_success := assign_all_pairs m2 INSERT oom
          if is_success.1 = false then
            let m3 : hashmap K V :=
              { is_success.2 with size := size_t_pred is_success.2.size,
                                  capacity := is_success.2.capacity / HASH_MAP_GROWTH_FACTOR }
            let undo := vector_erase (bucket m3.buckets hash_key) m3.size
            (false, { m3 with buckets := m3.buckets.set hash_key undo.2 })
          else (true, is_success.2)
        else (true, m1)
    else (false, hash_map)

/-- Loop of `hashmap_at` with `n` iterations left and counter `i`: the test is
`cur_Value->key_cmp(key, cur_Value->key)`.  A `NULL` result of `vector_at` would be
dereferenced in C; the model steps over it. -/
def hashmap_at_loop {K V : Type} (key_cmp : K → K → Bool) (cur_vector : vector (pair K V))
    (key : K) : Nat → Nat → Option V
  | 0, _ => none
  | n + 1, i =>
    match vector_at cur_vector i with
    | some cur_Value =>
      if key_cmp key cur_Value.key = true then some cur_Value.value
      else hashmap_at_loop key_cmp cur_vector key n (i + 1)
    | none => hashmap_at_loop key_cmp cur_vector key n (i + 1)

/-- The function `hashmap_at`. -/
def hashmap_at {K V : Type} (key_cmp : K → K → Bool) (hash_map : Option (hashmap K V))
    (key : Option K) : Option V :=
  match hash_map, key with
  | some m, some k =>
    let cur_vector := bucket m.buckets (hash_index m k)
    hashmap_at_loop key_cmp cur_vector k cur_vector.size 0
  | _, _ => none

/-- Result of the search loop of `hashmap_erase`. -/
structure erase_scan (K V : Type) where
  erase_succsses : Bool
  proper_vector : vector (pair K V)
  cur_pair : Option (pair K V)

/-- Search loop of `hashmap_erase` with `n` iterations left and counter `i`: the test
is `cur_pair->key_cmp(cur_pair->key, key)`; on the first match the pair is erased from
the vector and the loop is left.  A `NULL` slot below `size` would be dereferenced in
C; the model steps over it. -/
def hashmap_erase_loop {K V : Type} (key_cmp : K → K → Bool)
    (proper_vector : vector (pair K V)) (key : K) :
    Nat → Nat → Option (pair K V) → erase_scan K V
  | 0, _, cur => { erase_succsses := false, proper_vector := proper_vector, cur_pair := cur }
  | n + 1, i, _ =>
    match slot proper_vector.data i with
    | some cur_pair =>
      if key_cmp cur_pair.key key = true then
        let e := vector_erase proper_vector i
        { erase_succsses := e.1, proper_vector := e.2, cur_pair := some cur_pair }
      else hashmap_erase_loop key_cmp proper_vector key n (i + 1) (some cur_pair)
    | none => hashmap_erase_loop key_cmp proper_vector key n (i + 1) none

/-- The function `hashmap_erase`: the returned value and the map after the call, or
`none` when the call has no defined result.  When the scan erases nothing the vector is
left as it was, and the map is returned unchanged.  When `assign_all_pairs` fails, the
rollback restores `size` and `capacity` and calls
`vector_push_back(proper_vector, cur_pair)` with the pair that `vector_erase` has freed
already (a use after free): that call has no defined result. -/
def hashmap_erase {K V : Type} (key_cmp : K → K → Bool) (oom : Bool)
    (hash_map : hashmap K V) (key : Option K) : Option (Bool × hashmap K V) :=
  match key with
  | none => some (false, hash_map)
  | some k =>
    match hashmap_at key_cmp (some hash_map) (some k) with
    | none => some (false, hash_map)
    | some _ =>
      let hash_value := hash_index hash_map k
      let scan := hashmap_erase_loop key_cmp (bucket hash_map.buckets hash_value) k
        (bucket hash_map.buckets hash_value).size 0 none
      if scan.erase_succsses = false then some (false, hash_map)
      else
        let m1 : hashmap K V :=
          { hash_map with buckets := hash_map.buckets.set hash_value scan.proper_vector,
                          size := size_t_pred hash_map.size }
        if hashmap_get_load_factor (some m1) < HASH_MAP_MIN_LOAD_FACTOR then
          let m2 : hashmap K V := { m1 with capacity := m1.capacity / HASH_MAP_GROWTH_FACTOR }
          let is_success := assign_all_pairs m2 DELETE oom
          if is_success.1 = false then none
          else some (true, is_success.2)
        else some (true, m1)

/-- Inner loop of `hashmap_apply_if` over `j`, with `n` iterations left and the running
count `changed_values`: a pair whose key satisfies `keyT_func` has its value replaced in
place by `valT_func` of it.  `keyT_func` returns 1 or 0 by its contract and is a `Bool`
here.  A `NULL` result of `vector_at` would be dereferenced in C; the model steps over
it. -/
def apply_if_vector {K V : Type} (keyT_func : K → Bool) (valT_func : V → V) :
    vector (pair K V) → Nat → Nat → Nat → vector (pair K V) × Nat
  | cur_vector, 0, _, changed_values => (cur_vector, changed_values)
  | cur_vector, n + 1, j, changed_values =>
    match vector_at cur_vector j with
    | some cur_pair =>
      if keyT_func cur_pair.key = true then
        apply_if_vector keyT_func valT_func
          { cur_vector with
            data := cur_vector.data.set j
              (some { cur_pair with value := valT_func cur_pair.value }) }
          n (j + 1) (changed_values + 1)
      else apply_if_vector keyT_func valT_func cur_vector n (j + 1) changed_values
    | none => apply_if_vector keyT_func valT_func cur_vector n (j + 1) changed_values

/-- Outer loop of `hashmap_apply_if` over `i`, with `n` iterations left. -/
def apply_if_buckets {K V : Type} (keyT_func : K → Bool) (valT_func : V → V) :
    List (vector (pair K V)) → Nat → Nat → Nat → List (vector (pair K V)) × Nat
  | buckets, 0, _, changed_values => (buckets, changed_values)
  | buckets, n + 1, i, changed_values =>
    let cur_vector := bucket buckets i
    let r := apply_if_vector keyT_func valT_func cur_vector cur_vector.size 0 changed_values
    apply_if_buckets keyT_func valT_func (buckets.set i r.1) n (i + 1) r.2

/-- The function `hashmap_apply_if`: the number of changed values and the map with the
values mutated in place. -/
def hashmap_apply_if {K V : Type} (hash_map : hashmap K V) (keyT_func : K → Bool)
    (valT_func : V → V) : Nat × hashmap K V :=
  let r := apply_if_buckets keyT_func valT_func hash_map.buckets hash_map.capacity 0 0
  (r.2, { hash_map with buckets := r.1 })

/-! ## Specification vocabulary -/

/-- The elements a vector holds: the non-`NULL` entries among the first `size` slots. -/
def vector_live {α : Type} (v : vector α) : List α :=
  (v.data.take v.size).reduceOption

/-- Well-formed vector: the backing array has `capacity` slots, the capacity is
positive, the load factor is at most 3/4, and the first `size` slots are exactly the
live elements, none of them `NULL`. -/
def vector_WF {α : Type} (v : vector α) : Prop :=
  v.data.length = v.capacity ∧ 1 ≤ v.capacity ∧ 4 * v.size ≤ 3 * v.capacity ∧
  v.data.take v.size = (vector_live v).map some ∧ v.size ≤ v.data.length

/-- Every pair stored in the map, bucket after bucket. -/
def all_pairs {K V : Type} (m : hashmap K V) : List (pair K V) :=
  (m.buckets.map vector_live).flatten

/-- Well-formed bucket array for the map `hm`: one bucket per unit of capacity, every
bucket a well-formed vector, every stored pair in the bucket its key hashes to. -/
def buckets_inv {K V : Type} (hm : hashmap K V) (bs : List (vector (pair K V))) : Prop :=
  bs.length = hm.capacity ∧ (∀ v ∈ bs, vector_WF v) ∧
  ∀ i, i < bs.length → ∀ p ∈ vector_live (bucket bs i), hash_index hm p.key = i

/-- Structural invariant of the map: well-formed buckets, capacity a power of two, load
factor at most 3/4, and no more stored pairs than `size` says. -/
def hashmap_inv {K V : Type} (m : hashmap K V) : Prop :=
  buckets_inv m m.buckets ∧ (∃ k, m.capacity = 2 ^ k) ∧ 4 * m.size ≤ 3 * m.capacity ∧
  (all_pairs m).length ≤ m.size

/-- No two stored pairs have keys that compare equal. -/
def distinct_keys {K V : Type} (key_cmp : K → K → Bool) (l : List (pair K V)) : Prop :=
  l.Pairwise (fun p q => key_cmp p.key q.key = false)

/-- The key comparison is an equivalence and keys that compare equal have equal
hashes. -/
structure key_cmp_ok {K : Type} (key_cmp : K → K → Bool) (func : K → Nat) : Prop where
  refl : ∀ a, key_cmp a a = true
  symm : ∀ a b, key_cmp a b = true → key_cmp b a = true
  trans : ∀ a b c, key_cmp a b = true → key_cmp b c = true → key_cmp a c = true
  hash : ∀ a b, key_cmp a b = true → func a = func b

/-- The key `k` is stored: some stored pair has a key that compares equal to it, the
stored key being the first argument of the comparison as in `get_pair_by_key`. -/
def key_stored {K V : Type} (key_cmp : K → K → Bool) (m : hashmap K V) (k : K) : Prop :=
  ∃ q ∈ all_pairs m, key_cmp q.key k = true

/-- Maps reachable from `hashmap_alloc func` by calls of `hashmap_insert` and
`hashmap_erase` (successful or not) in which no allocation fails; `r` is the result of
the `hashmap_erase` call. -/
inductive Reachable {K V : Type} (key_cmp : K → K → Bool) (func : K → Nat) :
    hashmap K V → Prop
  | alloc : Reachable key_cmp func (hashmap_alloc func)
  | insert (m : hashmap K V) (in_pair : Option (pair K V)) :
      Reachable key_cmp func m →
      Reachable key_cmp func (hashmap_insert key_cmp false m in_pair).2
  | erase (m : hashmap K V) (key : Option K) (r : Bool × hashmap K V) :
      Reachable key_cmp func m →
      hashmap_erase key_cmp false m key = some r →
      Reachable key_cmp func r.2

/-- Inserting the pairs of a list one after another without allocation failure: the
results of the calls and the final map. -/
def insert_seq {K V : Type} (key_cmp : K → K → Bool) :
    hashmap K V → List (pair K V) → List Bool × hashmap K V
  | m, [] => ([], m)
  | m, p :: ps =>
    let r := hashmap_insert key_cmp false m (some p)
    let rest := insert_seq key_cmp r.2 ps
    (r.1 :: rest.1, rest.2)

/-- Erasing the keys of a list one after another without allocation failure: the
results of the calls and the final map.  The sequence ends at a call without a defined
result, so the list of results is as long as the list of keys exactly when every call
has returned. -/
def erase_seq {K V : Type} (key_cmp : K → K → Bool) :
    hashmap K V → List (Option K) → List Bool × hashmap K V
  | m, [] => ([], m)
  | m, k :: ks =>
    match hashmap_erase key_cmp false m k with
    | none => ([], m)
    | some r =>
      let rest := erase_seq key_cmp r.2 ks
      (r.1 :: rest.1, rest.2)

/-- The comparison `char_key_cmp` of `test_pairs.h`, on keys given by their code. -/
def char_key_cmp (key_1 key_2 : Nat) : Bool := key_1 == key_2

/-- A hash function a caller may pass to `hashmap_alloc`: the key itself. -/
def hash_identity (key : Nat) : Nat := key

/-- The pair `(i, i)` the test suite inserts for the loop counter `i`. -/
def test_pair (i : Nat) : pair Nat Nat := { key := i, value := i }

/-- The map of `test_rehash_on_insert` before its last insert: keys 0..11 in a fresh
map. -/
def map_12 : hashmap Nat Nat :=
  (insert_seq char_key_cmp (hashmap_alloc hash_identity) ((List.range 12).map test_pair)).2

/-- The map of `test_rehash_on_insert` at its end: keys 0..11, then key 13. -/
def map_12_then_13 : hashmap Nat Nat :=
  (hashmap_insert char_key_cmp false map_12 (some (test_pair 13))).2

/-- The map of `test_removal_rehash` after its inserts: keys 0..12 in a fresh map. -/
def map_13 : hashmap Nat Nat :=
  (insert_seq char_key_cmp (hashmap_alloc hash_identity) ((List.range 13).map test_pair)).2

/-- The map of `test_removal_rehash` after erasing keys 8..12 from `map_13`. -/
def map_8 : hashmap Nat Nat :=
  (erase_seq char_key_cmp map_13 [some 8, some 9, some 10, some 11, some 12]).2

/-- The capacity `c` is the least value `16 * 2 ^ j` with `s ≤ 0.75 * c`, written with
integers. -/
def least_capacity (s c : Nat) : Prop :=
  ∃ j, c = 16 * 2 ^ j ∧ 4 * s ≤ 3 * c ∧ ∀ i, i < j → ¬ 4 * s ≤ 3 * (16 * 2 ^ i)

/-- The vector invariant of the data model: the backing array has `capacity` slots,
`size` is at most `capacity`, and no slot below `size` is `NULL`. -/
def vector_ok {α : Type} (v : vector α) : Prop :=
  v.data.length = v.capacity ∧ v.size ≤ v.capacity ∧ ∀ i, i < v.size → slot v.data i ≠ none

/-- What `hashmap_apply_if` does to one pair: the value is replaced by `valT_func` of it
when the key satisfies `keyT_func`, and the pair is kept otherwise. -/
def mutate_if {K V : Type} (keyT_func : K → Bool) (valT_func : V → V) (q : pair K V) :
    pair K V :=
  if keyT_func q.key = true then { q with value := valT_func q.value } else q

/-- The predicate `is_key_even` of `test_suite.c`, on keys given by their code. -/
def is_key_even (key : Nat) : Bool := key % 2 == 0

/-- The mutator `mult_int` of `test_suite.c`. -/
def mult_int (val : Nat) : Nat := val * 2

/-- The map of `test_hash_map_apply_if`: keys and values 0..49 in a fresh map. -/
def map_50 : hashmap Nat Nat :=
  (insert_seq char_key_cmp (hashmap_alloc hash_identity) ((List.range 50).map test_pair)).2

/-- A vector that has held two elements and lost both: 10 and 20 are pushed, then
index 0 is erased twice. -/
def vector_emptied : vector Nat :=
  (vector_erase (vector_erase (vector_push_back (vector_push_back vector_alloc 10).2 20).2
    0).2 0).2

/-- A vector holding the twelve elements 0..11, load factor 12/16. -/
def vector_12 : vector Nat :=
  (List.range 12).foldl (fun v x => (vector_push_back v x).2) vector_alloc

/-- A map brought to one entry at capacity 4: key 0 is inserted and erased twice in a
fresh map (capacity 16, 8, 4) and inserted once more. -/
def map_1_of_4 : hashmap Nat Nat :=
  (hashmap_insert char_key_cmp false
    (erase_seq char_key_cmp
      (hashmap_insert char_key_cmp false
        (erase_seq char_key_cmp
          (hashmap_insert char_key_cmp false (hashmap_alloc hash_identity)
            (some (test_pair 0))).2
          [some 0]).2
        (some (test_pair 0))).2
      [some 0]).2
    (some (test_pair 0))).2

/-- Vectors reachable from `vector_alloc` by `vector_push_back` calls and
`vector_erase` calls on valid indices. -/
inductive vector_reachable {α : Type} : vector α → Prop
  | alloc : vector_reachable vector_alloc
  | push_back (v : vector α) (x : α) :
      vector_reachable v → vector_reachable (vector_push_back v x).2
  | erase (v : vector α) (ind : Nat) :
      vector_reachable v → ind < v.size → vector_reachable (vector_erase v ind).2

/-- A vector holding the two elements 10 and 20. -/
def vector_two : vector Nat :=
  (vector_push_back (vector_push_back vector_alloc 10).2 20).2

/-- The comparison `int_value_cmp` of `test_pairs.h`, on the integers themselves. -/
def int_value_cmp (val_1 val_2 : Nat) : Bool := val_1 == val_2

/-- The state on which `hashmap_insert` runs `assign_all_pairs`: the pair is pushed into
its bucket, `size` is incremented and `capacity` is doubled. -/
def insert_rehash_state {K V : Type} (m : hashmap K V) (p : pair K V) : hashmap K V :=
  { buckets := m.buckets.set (hash_index m p.key)
      (vector_push_back (bucket m.buckets (hash_index m p.key)) p).2,
    size := m.size + 1,
    capacity := m.capacity * HASH_MAP_GROWTH_FACTOR,
    hash_func := m.hash_func }

/-- The state on which `hashmap_erase` runs `assign_all_pairs` after it erased index `j`
of the key's bucket: `size` is decremented and `capacity` is halved. -/
def erase_rehash_state {K V : Type} (m : hashmap K V) (k : K) (j : Nat) : hashmap K V :=
  { buckets := m.buckets.set (hash_index m k)
      (vector_erase (bucket m.buckets (hash_index m k)) j).2,
    size := size_t_pred m.size,
    capacity := m.capacity / HASH_MAP_GROWTH_FACTOR,
    hash_func := m.hash_func }

/-! ## Arithmetic of the thresholds -/

theorem load_gt_iff (s c : Nat) (hc : 0 < c) :
    ((s : ℚ) / (c : ℚ) > 3 / 4) ↔ 3 * c < 4 * s := by
  have hc1 : (0 : ℚ) < (c : ℚ) := by exact_mod_cast hc
  rw [gt_iff_lt, div_lt_div_iff₀ (by norm_num) hc1]
  constructor
  · intro h
    have h2 : ((3 * c : ℕ) : ℚ) < ((4 * s : ℕ) : ℚ) := by push_cast; linarith
    exact_mod_cast h2
  · intro h
    have h2 : ((3 * c : ℕ) : ℚ) < ((4 * s : ℕ) : ℚ) := by exact_mod_cast h
    push_cast at h2
    linarith

theorem load_lt_iff (s c : Nat) (hc : 0 < c) :
    ((s : ℚ) / (c : ℚ) < 1 / 4) ↔ 4 * s < c := by
  have hc1 : (0 : ℚ) < (c : ℚ) := by exact_mod_cast hc
  rw [div_lt_div_iff₀ hc1 (by norm_num)]
  constructor
  · intro h
    have h2 : ((4 * s : ℕ) : ℚ) < ((c : ℕ) : ℚ) := by push_cast; linarith
    exact_mod_cast h2
  · intro h
    have h2 : ((4 * s : ℕ) : ℚ) < ((c : ℕ) : ℚ) := by exact_mod_cast h
    push_cast at h2
    linarith

theorem size_t_pred_pos (n : Nat) (h : 0 < n) : size_t_pred n = n - 1 := by
  unfold size_t_pred
  rw [if_neg (by omega)]

/-! ## The vector operations on well-formed vectors -/

theorem reduceOption_map_some {α : Type} (xs : List α) :
    (xs.map some).reduceOption = xs := by
  induction xs with
  | nil => rfl
  | cons x xs ih => simp [List.reduceOption_cons_of_some, ih]

/-- A vector whose array starts with the slots `xs` and whose size is their number
holds exactly `xs`. -/
theorem vector_live_of_rep {α : Type} (v : vector α) (xs : List α) (rest : List (Option α))
    (hd : v.data = xs.map some ++ rest) (hs : v.size = xs.length) :
    vector_live v = xs ∧ v.data.take v.size = (vector_live v).map some ∧
      v.size ≤ v.data.length := by
  have ht : v.data.take v.size = xs.map some := by
    rw [hd, hs]
    exact List.take_left' (by simp)
  have hl : vector_live v = xs := by
    unfold vector_live
    rw [ht, reduceOption_map_some]
  refine ⟨hl, ?_, ?_⟩
  · rw [ht, hl]
  · rw [hd, hs]; simp

/-- A well-formed vector decomposes into its live elements and the unused slots. -/
theorem vector_WF_rep {α : Type} (v : vector α) (h : vector_WF v) :
    ∃ rest, v.data = (vector_live v).map some ++ rest ∧
      v.size = (vector_live v).length := by
  obtain ⟨_, _, _, ht, hle⟩ := h
  refine ⟨v.data.drop v.size, ?_, ?_⟩
  · rw [← ht, List.take_append_drop]
  · have h1 := congrArg List.length ht
    simp only [List.length_take, List.length_map] at h1
    omega

theorem vector_alloc_WF {α : Type} : vector_WF (vector_alloc : vector α) := by
  refine ⟨by simp [vector_alloc], by simp [vector_alloc, VECTOR_INITIAL_CAP],
    by simp [vector_alloc, VECTOR_INITIAL_CAP], ?_, by simp [vector_alloc]⟩
  simp [vector_alloc, vector_live]

theorem vector_alloc_live {α : Type} : vector_live (vector_alloc : vector α) = [] := by
  simp [vector_alloc, vector_live]

theorem slot_of_rep {α : Type} (xs : List α) (rest : List (Option α)) (i : Nat)
    (hi : i < xs.length) : slot (xs.map some ++ rest) i = some (xs.get ⟨i, hi⟩) := by
  unfold slot
  rw [List.getD_eq_getElem?_getD, List.getElem?_append_left (by simpa using hi)]
  simp [List.getElem?_eq_getElem hi]

/-- On a well-formed vector `vector_push_back` succeeds and appends the value. -/
theorem vector_push_back_WF {α : Type} (v : vector α) (x : α) (h : vector_WF v) :
    (vector_push_back v x).1 = true ∧ vector_WF (vector_push_back v x).2 ∧
      vector_live (vector_push_back v x).2 = vector_live v ++ [x] := by
  obtain ⟨rest, hd, hs⟩ := vector_WF_rep v h
  obtain ⟨hlen, hcap, hload, _, _⟩ := h
  generalize hxs : vector_live v = xs at hd hs
  have hlt : v.size < v.capacity := by omega
  have hrl : rest.length = v.capacity - xs.length := by
    have h1 := congrArg List.length hd
    simp only [List.length_append, List.length_map] at h1
    omega
  obtain ⟨r, rest1, hr⟩ : ∃ r rest1, rest = r :: rest1 := by
    cases rest with
    | nil => simp at hrl; omega
    | cons r rest1 => exact ⟨r, rest1, rfl⟩
  have hset : v.data.set v.size (some x) = (xs ++ [x]).map some ++ rest1 := by
    rw [hd, hs, hr, List.set_append]
    simp
  have hsz : v.size + 1 = (xs ++ [x]).length := by simp [hs]
  unfold vector_push_back
  rw [if_neg (by omega)]
  simp only [vector_get_load_factor, VECTOR_MAX_LOAD_FACTOR, VECTOR_GROWTH_FACTOR]
  have hcast : ((v.size + 1 : ℕ) : ℚ) = (v.size : ℚ) + 1 := by push_cast; rfl
  by_cases hg : 3 * v.capacity < 4 * (v.size + 1)
  · have hq : ((v.size + 1 : ℕ) : ℚ) / (v.capacity : ℚ) > 3 / 4 :=
      (load_gt_iff (v.size + 1) v.capacity (by omega)).2 hg
    rw [if_pos hq]
    have hre : realloc (v.data.set v.size (some x)) (v.capacity * 2) =
        (xs ++ [x]).map some ++ (rest1 ++ List.replicate v.capacity none) := by
      unfold realloc
      rw [List.take_of_length_le (by simp; omega)]
      simp only [List.length_set, hlen]
      rw [hset, List.append_assoc]
      congr 3
      omega
    obtain ⟨hl, ht, hle⟩ := vector_live_of_rep
      { capacity := v.capacity * 2, size := v.size + 1,
        data := realloc (v.data.set v.size (some x)) (v.capacity * 2) }
      (xs ++ [x]) _ hre hsz
    refine ⟨rfl, ⟨?_, ?_, ?_, ht, hle⟩, hl⟩
    · show (realloc (v.data.set v.size (some x)) (v.capacity * 2)).length = v.capacity * 2
      rw [hre]
      simp [hr] at hrl ⊢
      omega
    · show 1 ≤ v.capacity * 2
      omega
    · show 4 * (v.size + 1) ≤ 3 * (v.capacity * 2)
      omega
  · have hq : ¬ ((v.size + 1 : ℕ) : ℚ) / (v.capacity : ℚ) > 3 / 4 := fun hq =>
      hg ((load_gt_iff (v.size + 1) v.capacity (by omega)).1 hq)
    rw [if_neg hq]
    obtain ⟨hl, ht, hle⟩ := vector_live_of_rep
      { capacity := v.capacity, size := v.size + 1, data := v.data.set v.size (some x) }
      (xs ++ [x]) _ hset hsz
    refine ⟨rfl, ⟨?_, hcap, ?_, ht, hle⟩, hl⟩
    · show (v.data.set v.size (some x)).length = v.capacity
      simp [hlen]
    · show 4 * (v.size + 1) ≤ 3 * v.capacity
      omega

/-- The shifting loop moves the block `ys` one slot to the left, over the slot in front
of it, and leaves one stale slot behind. -/
theorem vector_erase_shift_spec {α : Type} (ys : List (Option α)) :
    ∀ (pre : List (Option α)) (a : Option α) (rest : List (Option α)) (j : Nat),
      j = pre.length + 1 →
      ∃ st, vector_erase_shift (pre ++ a :: (ys ++ rest)) ys.length j =
        pre ++ ys ++ (st :: rest) := by
  induction ys with
  | nil =>
    intro pre a rest j _
    exact ⟨a, by simp [vector_erase_shift]⟩
  | cons y ys ih =>
    intro pre a rest j hj
    have hslot : slot (pre ++ a :: (y :: ys ++ rest)) j = y := by
      unfold slot
      rw [List.getD_eq_getElem?_getD, List.getElem?_append_right (by omega)]
      have : j - pre.length = 1 := by omega
      rw [this]
      simp
    have hset : (pre ++ a :: (y :: ys ++ rest)).set (j - 1) y =
        (pre ++ [y]) ++ y :: (ys ++ rest) := by
      rw [List.set_append]
      have : j - 1 - pre.length = 0 := by omega
      rw [if_neg (by omega), this]
      simp
    obtain ⟨st, hst⟩ := ih (pre ++ [y]) y rest (j + 1) (by simp [hj])
    refine ⟨st, ?_⟩
    show vector_erase_shift ((pre ++ a :: (y :: ys ++ rest)).set (j - 1)
      (slot (pre ++ a :: (y :: ys ++ rest)) j)) ys.length (j + 1) = _
    rw [hslot, hset, hst]
    simp

/-- On a well-formed vector `vector_at` below `size` is the element at that index. -/
theorem vector_at_WF {α : Type} (v : vector α) (h : vector_WF v) (i : Nat)
    (hi : i < (vector_live v).length) :
    vector_at v i = some ((vector_live v).get ⟨i, hi⟩) := by
  obtain ⟨rest, hd, hs⟩ := vector_WF_rep v h
  have hsl := slot_of_rep (vector_live v) rest i hi
  rw [← hd] at hsl
  unfold vector_at
  rw [size_t_pred_pos v.size (by omega), hsl]
  simp
  omega

/-- On a well-formed vector `vector_erase` at an index below `size` succeeds and removes
exactly the element at that index, keeping the order of the others. -/
theorem vector_erase_WF {α : Type} (v : vector α) (i : Nat) (h : vector_WF v)
    (hi : i < (vector_live v).length) :
    (vector_erase v i).1 = true ∧ vector_WF (vector_erase v i).2 ∧
      vector_live (vector_erase v i).2 = (vector_live v).eraseIdx i := by
  have hat := vector_at_WF v h i hi
  obtain ⟨rest, hd, hs⟩ := vector_WF_rep v h
  obtain ⟨hlen, hcap, hload, _, _⟩ := h
  generalize hxs : vector_live v = xs at hd hs hi hat
  have hsplit : xs = xs.take i ++ xs.get ⟨i, hi⟩ :: xs.drop (i + 1) := by
    rw [List.get_eq_getElem, ← List.drop_eq_getElem_cons hi, List.take_append_drop]
  have hd1 : v.data.set i none =
      (xs.take i).map some ++ none :: ((xs.drop (i + 1)).map some ++ rest) := by
    rw [hd]
    conv_lhs => rw [hsplit]
    rw [List.map_append, List.map_cons, List.append_assoc, List.set_append]
    have hl : ((xs.take i).map some).length = i := by
      simp only [List.length_map, List.length_take]; omega
    rw [if_neg (by omega), hl]
    simp
  obtain ⟨st, hst⟩ := vector_erase_shift_spec ((xs.drop (i + 1)).map some)
    ((xs.take i).map some) none rest (i + 1)
    (by simp only [List.length_map, List.length_take]; omega)
  have hn : ((xs.drop (i + 1)).map some).length = v.size - (i + 1) := by
    simp only [List.length_map, List.length_drop]; omega
  rw [hn, ← hd1] at hst
  have hd2 : vector_erase_shift (v.data.set i none) (v.size - (i + 1)) (i + 1) =
      (xs.eraseIdx i).map some ++ (st :: rest) := by
    rw [hst, List.eraseIdx_eq_take_drop_succ, List.map_append]
  have hsz : v.size - 1 = (xs.eraseIdx i).length := by
    rw [List.length_eraseIdx, if_pos hi]; omega
  have hl2 : (vector_erase_shift (v.data.set i none) (v.size - (i + 1)) (i + 1)).length =
      v.capacity := by
    rw [hd2]
    have h1 := congrArg List.length hd
    simp only [List.length_append, List.length_map, List.length_cons] at h1 ⊢
    rw [← hsz]
    omega
  unfold vector_erase
  rw [hat]
  simp only [Option.isNone_some, Bool.false_eq_true, if_false,
    vector_get_load_factor, VECTOR_MIN_LOAD_FACTOR, VECTOR_GROWTH_FACTOR]
  rw [size_t_pred_pos v.size (by omega)]
  by_cases hg : 4 * (v.size - 1) < v.capacity
  · rw [if_pos ((load_lt_iff (v.size - 1) v.capacity (by omega)).2 hg)]
    have hre : realloc (vector_erase_shift (v.data.set i none) (v.size - (i + 1)) (i + 1))
        (v.capacity / 2) = (xs.eraseIdx i).map some ++
          (st :: rest).take (v.capacity / 2 - (xs.eraseIdx i).length) := by
      unfold realloc
      rw [hl2, Nat.sub_eq_zero_of_le (Nat.div_le_self _ _), List.replicate_zero,
        List.append_nil, hd2, List.take_append_eq_append_take, List.length_map,
        List.take_of_length_le (by rw [List.length_map, ← hsz]; omega)]
    obtain ⟨hl, ht, hle⟩ := vector_live_of_rep
      { capacity := v.capacity / 2, size := v.size - 1,
        data := realloc (vector_erase_shift (v.data.set i none) (v.size - (i + 1)) (i + 1))
          (v.capacity / 2) }
      (xs.eraseIdx i) _ hre hsz
    refine ⟨rfl, ⟨?_, ?_, ?_, ht, hle⟩, hl⟩
    · show (realloc (vector_erase_shift (v.data.set i none) (v.size - (i + 1)) (i + 1))
        (v.capacity / 2)).length = v.capacity / 2
      unfold realloc
      rw [hl2]
      simp only [List.length_append, List.length_take, List.length_replicate, hl2]
      omega
    · show 1 ≤ v.capacity / 2
      omega
    · show 4 * (v.size - 1) ≤ 3 * (v.capacity / 2)
      omega
  · rw [if_neg (fun hq => hg ((load_lt_iff (v.size - 1) v.capacity (by omega)).1 hq))]
    obtain ⟨hl, ht, hle⟩ := vector_live_of_rep
      { capacity := v.capacity, size := v.size - 1,
        data := vector_erase_shift (v.data.set i none) (v.size - (i + 1)) (i + 1) }
      (xs.eraseIdx i) _ hd2 hsz
    refine ⟨rfl, ⟨hl2, hcap, ?_, ht, hle⟩, hl⟩
    show 4 * (v.size - 1) ≤ 3 * v.capacity
    omega

/-! ## The scanning loops on a well-formed bucket -/

theorem slot_WF {α : Type} (v : vector α) (h : vector_WF v) (i : Nat)
    (hi : i < (vector_live v).length) :
    slot v.data i = some ((vector_live v).get ⟨i, hi⟩) := by
  obtain ⟨rest, hd, _⟩ := vector_WF_rep v h
  have hsl := slot_of_rep (vector_live v) rest i hi
  rwa [← hd] at hsl

theorem size_eq_live_length {α : Type} (v : vector α) (h : vector_WF v) :
    v.size = (vector_live v).length := by
  obtain ⟨_, _, hs⟩ := vector_WF_rep v h
  exact hs

/-- The loop of `get_pair_by_key` reports `VACANT` exactly when no remaining pair has a
key that compares equal. -/
theorem get_pair_by_key_loop_vacant {K V : Type} (key_cmp : K → K → Bool)
    (v : vector (pair K V)) (h : vector_WF v) (k : K) :
    ∀ n i, i + n = v.size →
      (get_pair_by_key_loop key_cmp v k n i = VACANT ↔
        ∀ p ∈ (vector_live v).drop i, key_cmp p.key k = false) := by
  have hs := size_eq_live_length v h
  intro n
  induction n with
  | zero =>
    intro i hi
    have : (vector_live v).drop i = [] := List.drop_eq_nil_of_le (by omega)
    simp [get_pair_by_key_loop, this]
  | succ n ih =>
    intro i hi
    have hlt : i < (vector_live v).length := by omega
    have hdrop := List.drop_eq_getElem_cons hlt
    have hsl := slot_WF v h i hlt
    rw [List.get_eq_getElem] at hsl
    unfold get_pair_by_key_loop
    rw [hsl, hdrop]
    simp only [List.mem_cons, forall_eq_or_imp]
    by_cases hc : key_cmp (vector_live v)[i].key k = true
    · simp [hc, VACANT]
    · rw [if_neg hc, ih (i + 1) (by omega)]
      simp [hc]

theorem get_pair_by_key_vacant {K V : Type} (key_cmp : K → K → Bool)
    (v : vector (pair K V)) (h : vector_WF v) (k : K) :
    get_pair_by_key key_cmp v k = VACANT ↔
      ∀ p ∈ vector_live v, key_cmp p.key k = false := by
  unfold get_pair_by_key
  rw [get_pair_by_key_loop_vacant key_cmp v h k v.size 0 (by omega)]
  simp

/-- The loop of `hashmap_at` returns the value of the first remaining pair whose key
compares equal to the key looked up. -/
theorem hashmap_at_loop_find {K V : Type} (key_cmp : K → K → Bool)
    (v : vector (pair K V)) (h : vector_WF v) (k : K) :
    ∀ n i, i + n = v.size →
      hashmap_at_loop key_cmp v k n i =
        (((vector_live v).drop i).find? (fun p => key_cmp k p.key)).map pair.value := by
  have hs := size_eq_live_length v h
  intro n
  induction n with
  | zero =>
    intro i hi
    have : (vector_live v).drop i = [] := List.drop_eq_nil_of_le (by omega)
    simp [hashmap_at_loop, this]
  | succ n ih =>
    intro i hi
    have hlt : i < (vector_live v).length := by omega
    have hdrop := List.drop_eq_getElem_cons hlt
    have hat := vector_at_WF v h i hlt
    simp only [List.get_eq_getElem] at hat
    unfold hashmap_at_loop
    rw [hat, hdrop]
    simp only [List.find?_cons]
    by_cases hc : key_cmp k (vector_live v)[i].key = true
    · simp only [hc, if_true, Option.map_some']
    · rw [if_neg hc, ih (i + 1) (by omega)]
      simp only [Bool.not_eq_true] at hc
      simp only [hc]

/-- The search loop of `hashmap_erase` finds nothing when no remaining pair has a key
that compares equal. -/
theorem hashmap_erase_loop_miss {K V : Type} (key_cmp : K → K → Bool)
    (v : vector (pair K V)) (h : vector_WF v) (k : K) :
    ∀ n i cur, i + n = v.size →
      (∀ p ∈ (vector_live v).drop i, key_cmp p.key k = false) →
      (hashmap_erase_loop key_cmp v k n i cur).erase_succsses = false := by
  have hs := size_eq_live_length v h
  intro n
  induction n with
  | zero =>
    intro i cur _ _
    rfl
  | succ n ih =>
    intro i cur hi hall
    have hlt : i < (vector_live v).length := by omega
    have hdrop := List.drop_eq_getElem_cons hlt
    have hsl := slot_WF v h i hlt
    rw [List.get_eq_getElem] at hsl
    rw [hdrop] at hall
    have hc : ¬ key_cmp (vector_live v)[i].key k = true := by
      rw [hall _ (List.mem_cons_self _ _)]
      simp
    unfold hashmap_erase_loop
    rw [hsl]
    simp only [if_neg hc]
    exact ih (i + 1) _ (by omega) (fun p hp => hall p (List.mem_cons_of_mem _ hp))

/-- The search loop of `hashmap_erase` erases the first remaining pair whose key compares
equal, when there is one. -/
theorem hashmap_erase_loop_hit {K V : Type} (key_cmp : K → K → Bool)
    (v : vector (pair K V)) (h : vector_WF v) (k : K) :
    ∀ n i cur, i + n = v.size →
      (∃ p ∈ (vector_live v).drop i, key_cmp p.key k = true) →
      ∃ (j : Nat) (hj : j < (vector_live v).length),
        key_cmp ((vector_live v).get ⟨j, hj⟩).key k = true ∧
        hashmap_erase_loop key_cmp v k n i cur =
          { erase_succsses := (vector_erase v j).1, proper_vector := (vector_erase v j).2,
            cur_pair := some ((vector_live v).get ⟨j, hj⟩) } := by
  have hs := size_eq_live_length v h
  intro n
  induction n with
  | zero =>
    intro i cur hi hex
    have : (vector_live v).drop i = [] := List.drop_eq_nil_of_le (by omega)
    rw [this] at hex
    simp at hex
  | succ n ih =>
    intro i cur hi hex
    have hlt : i < (vector_live v).length := by omega
    have hdrop := List.drop_eq_getElem_cons hlt
    have hsl := slot_WF v h i hlt
    rw [List.get_eq_getElem] at hsl
    rw [hdrop] at hex
    by_cases hc : key_cmp (vector_live v)[i].key k = true
    · refine ⟨i, hlt, by rw [List.get_eq_getElem]; exact hc, ?_⟩
      unfold hashmap_erase_loop
      rw [hsl]
      simp only [if_pos hc, List.get_eq_getElem]
    · obtain ⟨p, hp, hpk⟩ := hex
      have hp2 : p ∈ (vector_live v).drop (i + 1) := by
        rcases List.mem_cons.1 hp with rfl | hp
        · exact absurd hpk hc
        · exact hp
      obtain ⟨j, hj, hjk, hres⟩ := ih (i + 1) (some (vector_live v)[i]) (by omega) ⟨p, hp2, hpk⟩
      refine ⟨j, hj, hjk, ?_⟩
      unfold hashmap_erase_loop
      rw [hsl]
      simp only [if_neg hc]
      exact hres

/-! ## Bucket arrays -/

theorem flatten_perm_eraseIdx {β : Type} (L : List (List β)) :
    ∀ (i : Nat) (hi : i < L.length),
      L.flatten.Perm (L.get ⟨i, hi⟩ ++ (L.eraseIdx i).flatten) := by
  induction L with
  | nil => intro i hi; simp at hi
  | cons l L ih =>
    intro i hi
    cases i with
    | zero => simp
    | succ i =>
      have hi2 : i < L.length := by simpa using hi
      have h1 := ih i hi2
      simp only [List.flatten_cons, List.eraseIdx_cons_succ, List.get_eq_getElem,
        List.getElem_cons_succ] at h1 ⊢
      calc l ++ L.flatten
          |>.Perm (l ++ (L[i] ++ (L.eraseIdx i).flatten)) := List.Perm.append_left l h1
        _ |>.Perm ((l ++ L[i]) ++ (L.eraseIdx i).flatten) := by rw [List.append_assoc]
        _ |>.Perm ((L[i] ++ l) ++ (L.eraseIdx i).flatten) :=
            List.Perm.append_right _ List.perm_append_comm
        _ |>.Perm (L[i] ++ (l ++ (L.eraseIdx i).flatten)) := by rw [List.append_assoc]

theorem eraseIdx_set_self {β : Type} (L : List β) :
    ∀ (i : Nat) (x : β), (L.set i x).eraseIdx i = L.eraseIdx i := by
  induction L with
  | nil => intro i x; simp
  | cons l L ih =>
    intro i x
    cases i with
    | zero => simp
    | succ i => simp [ih]

theorem flatten_set_perm {β : Type} (L : List (List β)) (i : Nat) (hi : i < L.length)
    (l1 : List β) : (L.set i l1).flatten.Perm (l1 ++ (L.eraseIdx i).flatten) := by
  have h := flatten_perm_eraseIdx (L.set i l1) i (by simpa using hi)
  rw [eraseIdx_set_self] at h
  simpa using h

theorem bucket_lt {K V : Type} (bs : List (vector (pair K V))) (i : Nat) (hi : i < bs.length) :
    bucket bs i = bs.get ⟨i, hi⟩ := by
  unfold bucket
  rw [List.getD_eq_getElem _ _ hi, List.get_eq_getElem]

theorem bucket_mem {K V : Type} (bs : List (vector (pair K V))) (i : Nat) (hi : i < bs.length) :
    bucket bs i ∈ bs := by
  rw [bucket_lt bs i hi]
  exact List.get_mem _ _ _

theorem bucket_set {K V : Type} (bs : List (vector (pair K V))) (i j : Nat)
    (v : vector (pair K V)) (hi : i < bs.length) :
    bucket (bs.set i v) j = if j = i then v else bucket bs j := by
  unfold bucket
  rw [List.getD_eq_getElem?_getD, List.getD_eq_getElem?_getD, List.getElem?_set]
  by_cases h : i = j
  · subst h; simp [hi]
  · rw [if_neg h, if_neg (fun h2 => h h2.symm)]

/-- Replacing bucket `i` by a vector holding one more element adds that element to the
stored pairs. -/
theorem stored_set_push {K V : Type} (bs : List (vector (pair K V))) (i : Nat)
    (hi : i < bs.length) (v : vector (pair K V)) (x : pair K V)
    (hl : vector_live v = vector_live (bucket bs i) ++ [x]) :
    ((bs.set i v).map vector_live).flatten.Perm (x :: (bs.map vector_live).flatten) := by
  have hi2 : i < (bs.map vector_live).length := by simpa using hi
  have h1 := flatten_set_perm (bs.map vector_live) i hi2 (vector_live v)
  have h2 := flatten_perm_eraseIdx (bs.map vector_live) i hi2
  have hget : (bs.map vector_live).get ⟨i, hi2⟩ = vector_live (bucket bs i) := by
    rw [bucket_lt bs i hi]; simp
  rw [hget] at h2
  rw [List.map_set, ]
  refine h1.trans ?_
  rw [hl, List.append_assoc]
  refine List.Perm.trans ?_ (List.Perm.cons x h2.symm)
  exact (List.perm_middle).trans (by simp)

/-- Replacing bucket `i` by a vector from which the element at index `j` was erased
removes that element from the stored pairs. -/
theorem stored_set_erase {K V : Type} (bs : List (vector (pair K V))) (i : Nat)
    (hi : i < bs.length) (v : vector (pair K V)) (j : Nat)
    (hj : j < (vector_live (bucket bs i)).length)
    (hl : vector_live v = (vector_live (bucket bs i)).eraseIdx j) :
    (bs.map vector_live).flatten.Perm
      ((vector_live (bucket bs i)).get ⟨j, hj⟩ :: ((bs.set i v).map vector_live).flatten) := by
  have hi2 : i < (bs.map vector_live).length := by simpa using hi
  have h1 := flatten_set_perm (bs.map vector_live) i hi2 (vector_live v)
  have h2 := flatten_perm_eraseIdx (bs.map vector_live) i hi2
  have hget : (bs.map vector_live).get ⟨i, hi2⟩ = vector_live (bucket bs i) := by
    rw [bucket_lt bs i hi]; simp
  rw [hget] at h2
  rw [List.map_set]
  refine h2.trans ?_
  refine List.Perm.trans ?_ (List.Perm.cons _ h1.symm)
  rw [hl, ← List.cons_append]
  refine List.Perm.append_right _ ?_
  rw [List.eraseIdx_eq_take_drop_succ]
  conv_lhs => rw [← List.take_append_drop j (vector_live (bucket bs i))]
  rw [List.drop_eq_getElem_cons hj, List.get_eq_getElem]
  exact List.perm_middle

theorem hash_index_lt {K V : Type} (hm : hashmap K V) (hpow : ∃ k, hm.capacity = 2 ^ k)
    (key : K) : hash_index hm key < hm.capacity := by
  obtain ⟨k, hk⟩ := hpow
  have hpos : 0 < hm.capacity := by rw [hk]; exact Nat.pos_pow_of_pos k (by norm_num)
  unfold hash_index
  rw [size_t_pred_pos _ hpos, hk, Nat.and_pow_two_sub_one_eq_mod]
  exact Nat.mod_lt _ (by rw [← hk]; exact hpos)

/-- Pushing a pair into the bucket its key hashes to succeeds, keeps the bucket array
well formed and adds the pair to the stored pairs. -/
theorem buckets_push_step {K V : Type} (hm : hashmap K V) (hpow : ∃ k, hm.capacity = 2 ^ k)
    (bs : List (vector (pair K V))) (hinv : buckets_inv hm bs) (p : pair K V) :
    (vector_push_back (bucket bs (hash_index hm p.key)) p).1 = true ∧
    buckets_inv hm (bs.set (hash_index hm p.key)
      (vector_push_back (bucket bs (hash_index hm p.key)) p).2) ∧
    ((bs.set (hash_index hm p.key)
      (vector_push_back (bucket bs (hash_index hm p.key)) p).2).map vector_live).flatten.Perm
      (p :: (bs.map vector_live).flatten) := by
  obtain ⟨hlen, hwf, hroute⟩ := hinv
  have hlt : hash_index hm p.key < bs.length := by
    rw [hlen]; exact hash_index_lt hm hpow p.key
  generalize hkdef : hash_index hm p.key = hk at hlt ⊢
  obtain ⟨h1, h2, h3⟩ := vector_push_back_WF (bucket bs hk) p (hwf _ (bucket_mem bs hk hlt))
  refine ⟨h1, ⟨by simpa using hlen, ?_, ?_⟩, stored_set_push bs hk hlt _ p h3⟩
  · intro v hv
    rcases List.mem_or_eq_of_mem_set hv with hv | hv
    · exact hwf v hv
    · rw [hv]; exact h2
  · intro i hi q hq
    rw [bucket_set bs hk i _ hlt] at hq
    by_cases hik : i = hk
    · rw [if_pos hik, h3] at hq
      rcases List.mem_append.1 hq with hq | hq
      · rw [hik]; rw [← hik]; exact hroute i (by simpa using hi) q (by rw [hik]; exact hq)
      · simp at hq
        rw [hq, hik]
        exact hkdef
    · rw [if_neg hik] at hq
      exact hroute i (by simpa using hi) q hq

/-! ## Rehash -/

/-- The inner loop of `assign_all_pairs` never fails on a well-formed vector and moves
every remaining pair of it into the new bucket array. -/
theorem assign_vector_spec {K V : Type} (hm : hashmap K V) (hpow : ∃ k, hm.capacity = 2 ^ k)
    (cur : vector (pair K V)) (hcur : vector_WF cur) :
    ∀ n j temp, j + n = cur.size → buckets_inv hm temp →
      ∃ temp1, assign_vector hm cur n j temp = some temp1 ∧ buckets_inv hm temp1 ∧
        (temp1.map vector_live).flatten.Perm
          ((temp.map vector_live).flatten ++ (vector_live cur).drop j) := by
  have hs := size_eq_live_length cur hcur
  intro n
  induction n with
  | zero =>
    intro j temp hj hinv
    have : (vector_live cur).drop j = [] := List.drop_eq_nil_of_le (by omega)
    exact ⟨temp, rfl, hinv, by rw [this, List.append_nil]⟩
  | succ n ih =>
    intro j temp hj hinv
    have hlt : j < (vector_live cur).length := by omega
    have hdrop := List.drop_eq_getElem_cons hlt
    have hsl := slot_WF cur hcur j hlt
    rw [List.get_eq_getElem] at hsl
    obtain ⟨h1, h2, h3⟩ := buckets_push_step hm hpow temp hinv (vector_live cur)[j]
    obtain ⟨temp1, ht1, hinv1, hperm1⟩ := ih (j + 1) _ (by omega) h2
    refine ⟨temp1, ?_, hinv1, ?_⟩
    · unfold assign_vector
      rw [hsl]
      simp only [h1, if_true]
      exact ht1
    · rw [hdrop]
      refine hperm1.trans ?_
      refine (List.Perm.append_right _ h3).trans ?_
      exact (List.perm_middle).symm

/-- The outer loop of `assign_all_pairs` never fails on well-formed buckets and moves the
pairs of the buckets it visits into the new bucket array. -/
theorem assign_buckets_spec {K V : Type} (hm : hashmap K V) (hpow : ∃ k, hm.capacity = 2 ^ k)
    (hwf : ∀ v ∈ hm.buckets, vector_WF v) :
    ∀ n i temp, buckets_inv hm temp →
      ∃ temp1, assign_buckets hm n i temp = some temp1 ∧ buckets_inv hm temp1 ∧
        (temp1.map vector_live).flatten.Perm
          ((temp.map vector_live).flatten ++
            (((hm.buckets.drop i).take n).map vector_live).flatten) := by
  intro n
  induction n with
  | zero =>
    intro i temp hinv
    exact ⟨temp, rfl, hinv, by simp⟩
  | succ n ih =>
    intro i temp hinv
    have hcur : vector_WF (bucket hm.buckets i) ∧
        (((hm.buckets.drop i).take (n + 1)).map vector_live).flatten =
          vector_live (bucket hm.buckets i) ++
            (((hm.buckets.drop (i + 1)).take n).map vector_live).flatten := by
      by_cases hi : i < hm.buckets.length
      · refine ⟨hwf _ (bucket_mem _ i hi), ?_⟩
        rw [List.drop_eq_getElem_cons hi, bucket_lt _ i hi, List.get_eq_getElem]
        simp only [List.take_succ_cons, List.map_cons, List.flatten_cons]
      · have hb : bucket hm.buckets i = vector_alloc := by
          unfold bucket
          exact List.getD_eq_default _ _ (by omega)
        rw [hb, List.drop_eq_nil_of_le (by omega), List.drop_eq_nil_of_le (by omega)]
        exact ⟨vector_alloc_WF, by simp [vector_alloc_live]⟩
    obtain ⟨hcwf, hflat⟩ := hcur
    obtain ⟨temp1, ht1, hinv1, hperm1⟩ :=
      assign_vector_spec hm hpow (bucket hm.buckets i) hcwf (bucket hm.buckets i).size 0 temp
        (by omega) hinv
    obtain ⟨temp2, ht2, hinv2, hperm2⟩ := ih (i + 1) temp1 hinv1
    refine ⟨temp2, ?_, hinv2, ?_⟩
    · unfold assign_buckets
      simp only [ht1]
      exact ht2
    · rw [hflat, ← List.append_assoc]
      refine hperm2.trans (List.Perm.append_right _ ?_)
      simpa using hperm1

theorem buckets_alloc_inv {K V : Type} (hm : hashmap K V) :
    buckets_inv hm (buckets_alloc hm) ∧
      ((buckets_alloc hm).map vector_live).flatten = [] := by
  refine ⟨⟨by simp [buckets_alloc], ?_, ?_⟩, ?_⟩
  · intro v hv
    rw [List.eq_of_mem_replicate hv]
    exact vector_alloc_WF
  · intro i hi p hp
    have : bucket (buckets_alloc hm) i = vector_alloc := by
      have hm1 := bucket_mem (buckets_alloc hm) i hi
      exact List.eq_of_mem_replicate hm1
    rw [this, vector_alloc_live] at hp
    simp at hp
  · simp [buckets_alloc, vector_alloc_live]

/-- Absent allocation failure `assign_all_pairs` succeeds on well-formed buckets; the new
bucket array is well formed for the new capacity and holds exactly the pairs of the
first `size` old buckets. -/
theorem assign_all_pairs_spec {K V : Type} (hm : hashmap K V) (action : Nat)
    (hpow : ∃ k, hm.capacity = 2 ^ k) (hwf : ∀ v ∈ hm.buckets, vector_WF v) :
    ∃ temp, assign_all_pairs hm action false = (true, { hm with buckets := temp }) ∧
      buckets_inv hm temp ∧
      (temp.map vector_live).flatten.Perm
        (((hm.buckets.take hm.size).map vector_live).flatten) := by
  obtain ⟨hinv0, hflat0⟩ := buckets_alloc_inv hm
  obtain ⟨temp, ht, hinv, hperm⟩ :=
    assign_buckets_spec hm hpow hwf hm.size 0 (buckets_alloc hm) hinv0
  refine ⟨temp, ?_, hinv, ?_⟩
  · unfold assign_all_pairs
    simp only [Bool.false_eq_true, if_false, ht]
  · rw [hflat0] at hperm
    simpa using hperm

theorem flatten_take_sublist {β : Type} (L : List (List β)) (n : Nat) :
    ((L.take n).flatten).Sublist L.flatten := by
  conv_rhs => rw [← List.take_append_drop n L]
  rw [List.flatten_append]
  exact List.sublist_append_left _ _

/-! ## One call of `hashmap_insert` -/

theorem hashmap_load_gt_iff {K V : Type} (m : hashmap K V) (hc : 0 < m.capacity) :
    hashmap_get_load_factor (some m) > HASH_MAP_MAX_LOAD_FACTOR ↔
      3 * m.capacity < 4 * m.size := by
  unfold hashmap_get_load_factor HASH_MAP_MAX_LOAD_FACTOR
  exact load_gt_iff m.size m.capacity hc

theorem hashmap_load_lt_iff {K V : Type} (m : hashmap K V) (hc : 0 < m.capacity) :
    hashmap_get_load_factor (some m) < HASH_MAP_MIN_LOAD_FACTOR ↔
      4 * m.size < m.capacity := by
  unfold hashmap_get_load_factor HASH_MAP_MIN_LOAD_FACTOR
  exact load_lt_iff m.size m.capacity hc

theorem hashmap_inv_cap_pos {K V : Type} (m : hashmap K V) (h : hashmap_inv m) :
    0 < m.capacity := by
  obtain ⟨_, ⟨k, hk⟩, _, _⟩ := h
  rw [hk]
  exact Nat.pos_pow_of_pos k (by norm_num)

theorem hashmap_inv_bucket_WF {K V : Type} (m : hashmap K V) (h : hashmap_inv m) (key : K) :
    hash_index m key < m.buckets.length ∧ vector_WF (bucket m.buckets (hash_index m key)) := by
  obtain ⟨⟨hlen, hwf, _⟩, hpow, _, _⟩ := h
  have hlt : hash_index m key < m.buckets.length := by
    rw [hlen]; exact hash_index_lt m hpow key
  exact ⟨hlt, hwf _ (bucket_mem _ _ hlt)⟩

/-- A pair of a bucket is a stored pair. -/
theorem bucket_live_subset {K V : Type} (m : hashmap K V) (i : Nat)
    (hi : i < m.buckets.length) (q : pair K V)
    (hq : q ∈ vector_live (bucket m.buckets i)) : q ∈ all_pairs m := by
  unfold all_pairs
  rw [List.mem_flatten]
  exact ⟨vector_live (bucket m.buckets i), List.mem_map_of_mem _ (bucket_mem _ i hi), hq⟩

/-- Under the routing invariant a stored pair sits in the bucket its key hashes to. -/
theorem stored_in_bucket {K V : Type} (m : hashmap K V) (h : hashmap_inv m) (q : pair K V)
    (hq : q ∈ all_pairs m) : q ∈ vector_live (bucket m.buckets (hash_index m q.key)) := by
  obtain ⟨⟨_, _, hroute⟩, _, _, _⟩ := h
  unfold all_pairs at hq
  rw [List.mem_flatten] at hq
  obtain ⟨l, hl, hql⟩ := hq
  obtain ⟨v, hv, rfl⟩ := List.mem_map.1 hl
  obtain ⟨i, hi, hvi⟩ := List.mem_iff_getElem.1 hv
  have hb : bucket m.buckets i = v := by
    rw [bucket_lt _ i hi, List.get_eq_getElem]; exact hvi
  have := hroute i hi q (by rw [hb]; exact hql)
  rw [this, hb]
  exact hql

/-- Inserting a pair whose key compares equal to a key of its bucket fails and changes
nothing. -/
theorem hashmap_insert_dup {K V : Type} (key_cmp : K → K → Bool) (oom : Bool)
    (m : hashmap K V) (h : hashmap_inv m) (p : pair K V)
    (hdup : ∃ q ∈ vector_live (bucket m.buckets (hash_index m p.key)),
      key_cmp q.key p.key = true) :
    hashmap_insert key_cmp oom m (some p) = (false, m) := by
  obtain ⟨_, hwf⟩ := hashmap_inv_bucket_WF m h p.key
  have hnv : ¬ get_pair_by_key key_cmp (bucket m.buckets (hash_index m p.key)) p.key = VACANT := by
    rw [get_pair_by_key_vacant key_cmp _ hwf]
    intro hall
    obtain ⟨q, hq, hqk⟩ := hdup
    rw [hall q hq] at hqk
    exact Bool.false_ne_true hqk
  unfold hashmap_insert
  simp only [if_neg hnv]

/-- Inserting a pair whose key compares equal to no key of its bucket succeeds, absent
allocation failure: size grows by one, capacity doubles exactly when the new load factor
exceeds 3/4, the invariant is kept and the stored pairs afterwards are among the old
ones and the new pair. -/
theorem hashmap_insert_fresh {K V : Type} (key_cmp : K → K → Bool)
    (m : hashmap K V) (h : hashmap_inv m) (p : pair K V)
    (hvac : ∀ q ∈ vector_live (bucket m.buckets (hash_index m p.key)),
      key_cmp q.key p.key = false) :
    ∃ m1, hashmap_insert key_cmp false m (some p) = (true, m1) ∧
      m1.size = m.size + 1 ∧
      m1.capacity = (if 3 * m.capacity < 4 * (m.size + 1) then m.capacity * 2
        else m.capacity) ∧
      m1.hash_func = m.hash_func ∧ hashmap_inv m1 ∧
      (all_pairs m1).Subperm (p :: all_pairs m) ∧
      (¬ 3 * m.capacity < 4 * (m.size + 1) →
        (all_pairs m1).Perm (p :: all_pairs m) ∧
        m1.buckets = m.buckets.set (hash_index m p.key)
          (vector_push_back (bucket m.buckets (hash_index m p.key)) p).2) := by
  have hcpos := hashmap_inv_cap_pos m h
  obtain ⟨_, hwf⟩ := hashmap_inv_bucket_WF m h p.key
  obtain ⟨hbinv, hpow, hload, hcount⟩ := h
  have hv : get_pair_by_key key_cmp (bucket m.buckets (hash_index m p.key)) p.key = VACANT :=
    (get_pair_by_key_vacant key_cmp _ hwf p.key).2 hvac
  obtain ⟨hp1, hp2, hp3⟩ := buckets_push_step m hpow m.buckets hbinv p
  have hne : ¬ (vector_push_back (bucket m.buckets (hash_index m p.key)) p).1 = false := by
    rw [hp1]; simp
  have hlf : ∀ bs : List (vector (pair K V)),
      hashmap_get_load_factor (some
        ({ buckets := bs, size := m.size + 1, capacity := m.capacity,
           hash_func := m.hash_func } : hashmap K V)) > HASH_MAP_MAX_LOAD_FACTOR ↔
        3 * m.capacity < 4 * (m.size + 1) :=
    fun bs => hashmap_load_gt_iff _ hcpos
  unfold hashmap_insert
  simp only [if_pos hv, if_neg hne, hlf]
  by_cases hg : 3 * m.capacity < 4 * (m.size + 1)
  · rw [if_pos hg]
    obtain ⟨k, hk⟩ := hpow
    obtain ⟨temp, hta, htinv, htperm⟩ := assign_all_pairs_spec
      ({ buckets := m.buckets.set (hash_index m p.key)
            (vector_push_back (bucket m.buckets (hash_index m p.key)) p).2,
          size := m.size + 1, capacity := m.capacity * HASH_MAP_GROWTH_FACTOR,
          hash_func := m.hash_func } : hashmap K V) INSERT
      ⟨k + 1, by show m.capacity * 2 = 2 ^ (k + 1); rw [hk, pow_succ]⟩ hp2.2.1
    rw [hta]
    have hsub : (temp.map vector_live).flatten.Subperm (p :: all_pairs m) := by
      refine (htperm.subperm).trans ?_
      refine List.Subperm.trans (List.Sublist.subperm ?_) hp3.subperm
      rw [List.map_take]
      exact flatten_take_sublist _ _
    refine ⟨{ buckets := temp, size := m.size + 1,
              capacity := m.capacity * HASH_MAP_GROWTH_FACTOR, hash_func := m.hash_func },
      by simp only [Bool.true_eq_false, if_false], rfl, by simp only [if_pos hg]; rfl, rfl,
      ⟨htinv, ⟨k + 1, by show m.capacity * 2 = 2 ^ (k + 1); rw [hk, pow_succ]⟩, ?_, ?_⟩,
      hsub, fun hng => absurd hg hng⟩
    · show 4 * (m.size + 1) ≤ 3 * (m.capacity * 2)
      omega
    · show (temp.map vector_live).flatten.length ≤ m.size + 1
      have := hsub.length_le
      simp only [List.length_cons] at this
      omega
  · rw [if_neg hg]
    refine ⟨{ buckets := m.buckets.set (hash_index m p.key)
                (vector_push_back (bucket m.buckets (hash_index m p.key)) p).2,
              size := m.size + 1, capacity := m.capacity, hash_func := m.hash_func },
      rfl, rfl, by simp only [if_neg hg], rfl, ⟨hp2, hpow, ?_, ?_⟩,
      hp3.subperm, fun _ => ⟨hp3, rfl⟩⟩
    · show 4 * (m.size + 1) ≤ 3 * m.capacity
      omega
    · show ((m.buckets.set _ _).map vector_live).flatten.length ≤ m.size + 1
      have := hp3.length_eq
      simp only [List.length_cons] at this
      unfold all_pairs at hcount
      omega

/-! ## One call of `hashmap_erase` -/

/-- Erasing the element at a valid index of a bucket keeps the bucket array well formed
and removes that element from the stored pairs. -/
theorem buckets_erase_step {K V : Type} (hm : hashmap K V)
    (bs : List (vector (pair K V))) (hinv : buckets_inv hm bs) (hk : Nat)
    (hlt : hk < bs.length) (j : Nat) (hj : j < (vector_live (bucket bs hk)).length) :
    (vector_erase (bucket bs hk) j).1 = true ∧
    buckets_inv hm (bs.set hk (vector_erase (bucket bs hk) j).2) ∧
    (bs.map vector_live).flatten.Perm
      ((vector_live (bucket bs hk)).get ⟨j, hj⟩ ::
        ((bs.set hk (vector_erase (bucket bs hk) j).2).map vector_live).flatten) := by
  obtain ⟨hlen, hwf, hroute⟩ := hinv
  obtain ⟨h1, h2, h3⟩ := vector_erase_WF (bucket bs hk) j (hwf _ (bucket_mem bs hk hlt)) hj
  refine ⟨h1, ⟨by simpa using hlen, ?_, ?_⟩, stored_set_erase bs hk hlt _ j hj h3⟩
  · intro v hv
    rcases List.mem_or_eq_of_mem_set hv with hv | hv
    · exact hwf v hv
    · rw [hv]; exact h2
  · intro i hi q hq
    rw [bucket_set bs hk i _ hlt] at hq
    by_cases hik : i = hk
    · rw [if_pos hik, h3] at hq
      have hq2 := (List.eraseIdx_sublist _ _).subset hq
      rw [hik]
      exact hroute hk hlt q hq2
    · rw [if_neg hik] at hq
      exact hroute i (by simpa using hi) q hq

/-- On a map satisfying the invariant `hashmap_at` is the value of the first pair of the
key's bucket whose key compares equal. -/
theorem hashmap_at_eq_find {K V : Type} (key_cmp : K → K → Bool) (m : hashmap K V)
    (h : hashmap_inv m) (k : K) :
    hashmap_at key_cmp (some m) (some k) =
      ((vector_live (bucket m.buckets (hash_index m k))).find?
        (fun p => key_cmp k p.key)).map pair.value := by
  obtain ⟨_, hwf⟩ := hashmap_inv_bucket_WF m h k
  unfold hashmap_at
  simp only
  rw [hashmap_at_loop_find key_cmp _ hwf k _ 0 (by omega)]
  simp

theorem hashmap_at_none_iff {K V : Type} (key_cmp : K → K → Bool) (m : hashmap K V)
    (h : hashmap_inv m) (k : K) :
    hashmap_at key_cmp (some m) (some k) = none ↔
      ∀ q ∈ vector_live (bucket m.buckets (hash_index m k)), key_cmp k q.key = false := by
  rw [hashmap_at_eq_find key_cmp m h k]
  simp

/-- When `hashmap_at` does not find the key, `hashmap_erase` fails and changes nothing. -/
theorem hashmap_erase_absent {K V : Type} (key_cmp : K → K → Bool) (oom : Bool)
    (m : hashmap K V) (k : K) (hat : hashmap_at key_cmp (some m) (some k) = none) :
    hashmap_erase key_cmp oom m (some k) = some (false, m) := by
  unfold hashmap_erase
  simp only [hat]

/-- When no key of the bucket compares equal to the key, `hashmap_erase` fails and
changes nothing. -/
theorem hashmap_erase_miss {K V : Type} (key_cmp : K → K → Bool) (oom : Bool)
    (m : hashmap K V) (h : hashmap_inv m) (k : K)
    (hmiss : ∀ q ∈ vector_live (bucket m.buckets (hash_index m k)),
      key_cmp q.key k = false) :
    hashmap_erase key_cmp oom m (some k) = some (false, m) := by
  obtain ⟨_, hwf⟩ := hashmap_inv_bucket_WF m h k
  cases hat : hashmap_at key_cmp (some m) (some k) with
  | none => exact hashmap_erase_absent key_cmp oom m k hat
  | some val =>
    have hscan := hashmap_erase_loop_miss key_cmp _ hwf k
      (bucket m.buckets (hash_index m k)).size 0 none (by omega) (by simpa using hmiss)
    unfold hashmap_erase
    simp only [hat, hscan, if_true]

/-- When `hashmap_at` finds the key and a key of the bucket compares equal to it,
`hashmap_erase` succeeds, absent allocation failure: one pair `x` with such a key is
removed, size drops by one, capacity is halved exactly when the new load factor is below
1/4, the invariant is kept and the stored pairs afterwards are among the remaining
ones. -/
theorem hashmap_erase_hit {K V : Type} (key_cmp : K → K → Bool)
    (m : hashmap K V) (h : hashmap_inv m) (k : K)
    (hat : hashmap_at key_cmp (some m) (some k) ≠ none)
    (hhit : ∃ q ∈ vector_live (bucket m.buckets (hash_index m k)), key_cmp q.key k = true) :
    ∃ m1 x L1, hashmap_erase key_cmp false m (some k) = some (true, m1) ∧
      1 ≤ m.size ∧ m1.size = m.size - 1 ∧
      m1.capacity = (if 4 * (m.size - 1) < m.capacity then m.capacity / 2
        else m.capacity) ∧
      m1.hash_func = m.hash_func ∧ hashmap_inv m1 ∧
      key_cmp x.key k = true ∧ (all_pairs m).Perm (x :: L1) ∧
      (all_pairs m1).Subperm L1 ∧
      (¬ 4 * (m.size - 1) < m.capacity → all_pairs m1 = L1) := by
  have hcpos := hashmap_inv_cap_pos m h
  obtain ⟨hlt, hwf⟩ := hashmap_inv_bucket_WF m h k
  obtain ⟨hbinv, hpow, hload, hcount⟩ := h
  obtain ⟨val, hval⟩ : ∃ val, hashmap_at key_cmp (some m) (some k) = some val := by
    cases hc : hashmap_at key_cmp (some m) (some k) with
    | none => exact absurd hc hat
    | some val => exact ⟨val, rfl⟩
  obtain ⟨j, hj, hjk, hscan⟩ := hashmap_erase_loop_hit key_cmp _ hwf k
    (bucket m.buckets (hash_index m k)).size 0 none (by omega) (by simpa using hhit)
  obtain ⟨he1, he2, he3⟩ := buckets_erase_step m m.buckets hbinv _ hlt j hj
  have hx : (vector_live (bucket m.buckets (hash_index m k))).get ⟨j, hj⟩ ∈ all_pairs m :=
    bucket_live_subset m _ hlt _ (List.get_mem _ _ _)
  have hsz : 1 ≤ m.size := by
    have := List.length_pos_of_mem hx
    omega
  have hlen1 : ((m.buckets.set (hash_index m k)
      (vector_erase (bucket m.buckets (hash_index m k)) j).2).map vector_live).flatten.length
        + 1 = (all_pairs m).length := by
    have := he3.length_eq
    simp only [List.length_cons] at this
    unfold all_pairs
    omega
  have hlf : ∀ bs : List (vector (pair K V)),
      hashmap_get_load_factor (some
        ({ buckets := bs, size := size_t_pred m.size, capacity := m.capacity,
           hash_func := m.hash_func } : hashmap K V)) < HASH_MAP_MIN_LOAD_FACTOR ↔
        4 * (m.size - 1) < m.capacity := by
    intro bs
    have h1 := hashmap_load_lt_iff
      ({ buckets := bs, size := size_t_pred m.size, capacity := m.capacity,
         hash_func := m.hash_func } : hashmap K V) hcpos
    rw [h1]
    show 4 * size_t_pred m.size < m.capacity ↔ _
    rw [size_t_pred_pos _ hsz]
  have hne : ¬ (vector_erase (bucket m.buckets (hash_index m k)) j).1 = false := by
    rw [he1]; simp
  unfold hashmap_erase
  simp only [hval, hscan, if_neg hne, hlf]
  by_cases hg : 4 * (m.size - 1) < m.capacity
  · rw [if_pos hg]
    obtain ⟨e, hk⟩ := hpow
    have he : 1 ≤ e := by
      rcases Nat.eq_zero_or_pos e with h0 | h0
      · rw [h0] at hk; simp at hk; omega
      · exact h0
    have hhalf : m.capacity / 2 = 2 ^ (e - 1) := by
      obtain ⟨e1, rfl⟩ : ∃ e1, e = e1 + 1 := ⟨e - 1, by omega⟩
      rw [hk, pow_succ]
      simp
    obtain ⟨temp, hta, htinv, htperm⟩ := assign_all_pairs_spec
      ({ buckets := m.buckets.set (hash_index m k)
            (vector_erase (bucket m.buckets (hash_index m k)) j).2,
          size := size_t_pred m.size, capacity := m.capacity / HASH_MAP_GROWTH_FACTOR,
          hash_func := m.hash_func } : hashmap K V) DELETE
      ⟨e - 1, hhalf⟩ he2.2.1
    rw [hta]
    have hsub : (temp.map vector_live).flatten.Subperm
        ((m.buckets.set (hash_index m k)
          (vector_erase (bucket m.buckets (hash_index m k)) j).2).map vector_live).flatten := by
      refine (htperm.subperm).trans (List.Sublist.subperm ?_)
      rw [List.map_take]
      exact flatten_take_sublist _ _
    refine ⟨{ buckets := temp, size := size_t_pred m.size,
              capacity := m.capacity / HASH_MAP_GROWTH_FACTOR, hash_func := m.hash_func },
      _, _, by simp only [Bool.true_eq_false, if_false], hsz, size_t_pred_pos _ hsz,
      by simp only [if_pos hg]; rfl, rfl,
      ⟨htinv, ⟨e - 1, hhalf⟩, ?_, ?_⟩, hjk, he3, hsub, fun hng => absurd hg hng⟩
    · show 4 * size_t_pred m.size ≤ 3 * (m.capacity / 2)
      rw [size_t_pred_pos _ hsz]
      omega
    · show (temp.map vector_live).flatten.length ≤ size_t_pred m.size
      rw [size_t_pred_pos _ hsz]
      have := hsub.length_le
      omega
  · rw [if_neg hg]
    refine ⟨{ buckets := m.buckets.set (hash_index m k)
                (vector_erase (bucket m.buckets (hash_index m k)) j).2,
              size := size_t_pred m.size, capacity := m.capacity, hash_func := m.hash_func },
      _, _, rfl, hsz, size_t_pred_pos _ hsz, by simp only [if_neg hg], rfl,
      ⟨he2, hpow, ?_, ?_⟩, hjk, he3, List.Subperm.refl _, fun _ => rfl⟩
    · show 4 * size_t_pred m.size ≤ 3 * m.capacity
      rw [size_t_pred_pos _ hsz]
      omega
    · show ((m.buckets.set _ _).map vector_live).flatten.length ≤ size_t_pred m.size
      rw [size_t_pred_pos _ hsz]
      omega

/-! ## Invariants of reachable maps -/

theorem hashmap_alloc_inv {K V : Type} (func : K → Nat) :
    hashmap_inv (hashmap_alloc func : hashmap K V) ∧
      all_pairs (hashmap_alloc func : hashmap K V) = [] := by
  obtain ⟨h1, h2⟩ := buckets_alloc_inv
    ({ buckets := [], size := 0, capacity := HASH_MAP_INITIAL_CAP, hash_func := func } :
      hashmap K V)
  refine ⟨⟨h1, ⟨4, rfl⟩, by show 4 * 0 ≤ 3 * HASH_MAP_INITIAL_CAP; omega, ?_⟩, h2⟩
  show (List.map vector_live (buckets_alloc _)).flatten.length ≤ 0
  rw [h2]
  simp

/-- A pair whose key is not stored finds no equal key in its bucket. -/
theorem not_stored_vacant {K V : Type} (key_cmp : K → K → Bool) (m : hashmap K V)
    (h : hashmap_inv m) (k : K) (hns : ¬ key_stored key_cmp m k) :
    ∀ q ∈ vector_live (bucket m.buckets (hash_index m k)), key_cmp q.key k = false := by
  intro q hq
  obtain ⟨hlt, _⟩ := hashmap_inv_bucket_WF m h k
  have hqa := bucket_live_subset m _ hlt q hq
  cases hc : key_cmp q.key k with
  | false => rfl
  | true => exact absurd ⟨q, hqa, hc⟩ hns

/-- One call of `hashmap_insert` without allocation failure: the hash function stays,
the invariant is kept, and the stored pairs afterwards are among the old ones and the
offered pair. -/
theorem hashmap_insert_step {K V : Type} (key_cmp : K → K → Bool) (m : hashmap K V)
    (h : hashmap_inv m) (in_pair : Option (pair K V)) :
    (hashmap_insert key_cmp false m in_pair).2.hash_func = m.hash_func ∧
    hashmap_inv (hashmap_insert key_cmp false m in_pair).2 ∧
    ((hashmap_insert key_cmp false m in_pair).2 = m ∨
      ∃ p, in_pair = some p ∧
        (∀ q ∈ vector_live (bucket m.buckets (hash_index m p.key)),
          key_cmp q.key p.key = false) ∧
        (all_pairs (hashmap_insert key_cmp false m in_pair).2).Subperm
          (p :: all_pairs m)) := by
  cases in_pair with
  | none => exact ⟨rfl, h, Or.inl rfl⟩
  | some p =>
    by_cases hdup : ∃ q ∈ vector_live (bucket m.buckets (hash_index m p.key)),
        key_cmp q.key p.key = true
    · rw [hashmap_insert_dup key_cmp false m h p hdup]
      exact ⟨rfl, h, Or.inl rfl⟩
    · have hvac : ∀ q ∈ vector_live (bucket m.buckets (hash_index m p.key)),
          key_cmp q.key p.key = false := by
        intro q hq
        cases hc : key_cmp q.key p.key with
        | false => rfl
        | true => exact absurd ⟨q, hq, hc⟩ hdup
      obtain ⟨m1, hm1, _, _, hf, hinv, hsub, _⟩ := hashmap_insert_fresh key_cmp m h p hvac
      rw [hm1]
      exact ⟨hf, hinv, Or.inr ⟨p, rfl, hvac, hsub⟩⟩

/-- One call of `hashmap_erase` without allocation failure returns: the hash function
stays, the invariant is kept, and the stored pairs afterwards are among the old ones. -/
theorem hashmap_erase_step {K V : Type} (key_cmp : K → K → Bool) (m : hashmap K V)
    (h : hashmap_inv m) (key : Option K) :
    ∃ r, hashmap_erase key_cmp false m key = some r ∧
      r.2.hash_func = m.hash_func ∧ hashmap_inv r.2 ∧
      (all_pairs r.2).Subperm (all_pairs m) := by
  cases key with
  | none => exact ⟨(false, m), rfl, rfl, h, List.Subperm.refl _⟩
  | some k =>
    by_cases hat : hashmap_at key_cmp (some m) (some k) = none
    · exact ⟨(false, m), hashmap_erase_absent key_cmp false m k hat, rfl, h,
        List.Subperm.refl _⟩
    · by_cases hhit : ∃ q ∈ vector_live (bucket m.buckets (hash_index m k)),
          key_cmp q.key k = true
      · obtain ⟨m1, x, L1, hm1, _, _, _, hf, hinv, _, hperm, hsub, _⟩ :=
          hashmap_erase_hit key_cmp m h k hat hhit
        refine ⟨(true, m1), hm1, hf, hinv, hsub.trans ?_⟩
        exact (List.Sublist.subperm (List.sublist_cons_self x L1)).trans hperm.symm.subperm
      · have hmiss : ∀ q ∈ vector_live (bucket m.buckets (hash_index m k)),
            key_cmp q.key k = false := by
          intro q hq
          cases hc : key_cmp q.key k with
          | false => rfl
          | true => exact absurd ⟨q, hq, hc⟩ hhit
        exact ⟨(false, m), hashmap_erase_miss key_cmp false m h k hmiss, rfl, h,
          List.Subperm.refl _⟩

/-- On a map satisfying the invariant every call of `hashmap_erase` without allocation
failure has a defined result. -/
theorem hashmap_erase_defined {K V : Type} (key_cmp : K → K → Bool) (m : hashmap K V)
    (h : hashmap_inv m) (key : Option K) :
    ∃ r, hashmap_erase key_cmp false m key = some r := by
  obtain ⟨r, hr, _⟩ := hashmap_erase_step key_cmp m h key
  exact ⟨r, hr⟩

/-- Every reachable map satisfies the structural invariant and carries the hash function
it was allocated with. -/
theorem reachable_inv {K V : Type} (key_cmp : K → K → Bool) (func : K → Nat)
    (m : hashmap K V) (hr : Reachable key_cmp func m) :
    hashmap_inv m ∧ m.hash_func = func := by
  induction hr with
  | alloc => exact ⟨(hashmap_alloc_inv func).1, rfl⟩
  | insert m in_pair _ ih =>
    obtain ⟨hf, hinv, _⟩ := hashmap_insert_step key_cmp m ih.1 in_pair
    exact ⟨hinv, hf.trans ih.2⟩
  | erase m key r _ hres ih =>
    obtain ⟨r1, hr1, hf, hinv, _⟩ := hashmap_erase_step key_cmp m ih.1 key
    rw [hres] at hr1
    cases hr1
    exact ⟨hinv, hf.trans ih.2⟩

theorem distinct_keys_subperm {K V : Type} (key_cmp : K → K → Bool) (func : K → Nat)
    (hok : key_cmp_ok key_cmp func) (a b : List (pair K V)) (hsub : a.Subperm b)
    (hb : distinct_keys key_cmp b) : distinct_keys key_cmp a := by
  obtain ⟨l, hperm, hsl⟩ := hsub
  have hsymm : ∀ {x y : pair K V}, key_cmp x.key y.key = false → key_cmp y.key x.key = false := by
    intro x y hxy
    cases hc : key_cmp y.key x.key with
    | false => rfl
    | true => rw [hok.symm _ _ hc] at hxy; exact absurd hxy (by simp)
  unfold distinct_keys at hb ⊢
  exact (List.Perm.pairwise_iff hsymm hperm).1 (List.Pairwise.sublist hsl hb)

/-- With a lawful key comparison no two pairs stored in a reachable map have keys that
compare equal. -/
theorem reachable_distinct {K V : Type} (key_cmp : K → K → Bool) (func : K → Nat)
    (hok : key_cmp_ok key_cmp func) (m : hashmap K V) (hr : Reachable key_cmp func m) :
    distinct_keys key_cmp (all_pairs m) := by
  induction hr with
  | alloc =>
    rw [(hashmap_alloc_inv func).2]
    exact List.Pairwise.nil
  | insert m in_pair hr ih =>
    obtain ⟨hinv, hfunc⟩ := reachable_inv key_cmp func m hr
    obtain ⟨_, _, hcase⟩ := hashmap_insert_step key_cmp m hinv in_pair
    rcases hcase with heq | ⟨p, _, hvac, hsub⟩
    · rw [heq]; exact ih
    · refine distinct_keys_subperm key_cmp func hok _ _ hsub ?_
      refine List.Pairwise.cons ?_ ih
      intro q hq
      cases hc : key_cmp p.key q.key with
      | false => rfl
      | true =>
        have hqp := hok.symm _ _ hc
        have hh : hash_index m q.key = hash_index m p.key := by
          unfold hash_index
          rw [hfunc, hok.hash _ _ hqp]
        have hqb := stored_in_bucket m hinv q hq
        rw [hh] at hqb
        rw [hvac q hqb] at hqp
        exact absurd hqp (by simp)
  | erase m key r hr hres ih =>
    obtain ⟨hinv, _⟩ := reachable_inv key_cmp func m hr
    obtain ⟨r1, hr1, _, _, hsub⟩ := hashmap_erase_step key_cmp m hinv key
    rw [hres] at hr1
    cases hr1
    exact distinct_keys_subperm key_cmp func hok _ _ hsub ih

/-! ## Reachability of the test maps -/

theorem reachable_insert_seq {K V : Type} (key_cmp : K → K → Bool) (func : K → Nat)
    (ps : List (pair K V)) :
    ∀ m : hashmap K V, Reachable key_cmp func m →
      Reachable key_cmp func (insert_seq key_cmp m ps).2 := by
  induction ps with
  | nil => intro m hr; exact hr
  | cons p ps ih => intro m hr; exact ih _ (Reachable.insert m (some p) hr)

theorem reachable_erase_seq {K V : Type} (key_cmp : K → K → Bool) (func : K → Nat)
    (ks : List (Option K)) :
    ∀ m : hashmap K V, Reachable key_cmp func m →
      Reachable key_cmp func (erase_seq key_cmp m ks).2 := by
  induction ks with
  | nil => intro m hr; exact hr
  | cons k ks ih =>
    intro m hr
    unfold erase_seq
    cases hres : hashmap_erase key_cmp false m k with
    | none => exact hr
    | some r => exact ih _ (Reachable.erase m k r hr hres)

theorem char_key_cmp_ok : key_cmp_ok char_key_cmp hash_identity := by
  refine ⟨?_, ?_, ?_, ?_⟩
  · intro a; simp [char_key_cmp]
  · intro a b h; simp [char_key_cmp] at h ⊢; exact h.symm
  · intro a b c h1 h2; simp [char_key_cmp] at h1 h2 ⊢; exact h1.trans h2
  · intro a b h; simp [char_key_cmp] at h; rw [h]

theorem map_12_reachable : Reachable char_key_cmp hash_identity map_12 :=
  reachable_insert_seq _ _ _ _ Reachable.alloc

theorem map_12_then_13_reachable : Reachable char_key_cmp hash_identity map_12_then_13 :=
  Reachable.insert _ _ map_12_reachable

theorem map_13_reachable : Reachable char_key_cmp hash_identity map_13 :=
  reachable_insert_seq _ _ _ _ Reachable.alloc

theorem map_8_reachable : Reachable char_key_cmp hash_identity map_8 :=
  reachable_erase_seq _ _ _ _ map_13_reachable

/-! ## The claims -/

/-- C1, as the code behaves: keys 0..11 and then 13 are inserted into a fresh map under
the identity hash; every insert reports success, the last one triggers the rehash, and
right after it `hashmap_at` does not find key 13, while the claim says it yields the
inserted value. -/
theorem insert_lost_by_rehash :
    (insert_seq char_key_cmp (hashmap_alloc hash_identity)
      ((List.range 12).map test_pair)).1 = List.replicate 12 true ∧
    (hashmap_insert char_key_cmp false map_12 (some (test_pair 13))).1 = true ∧
    hashmap_at char_key_cmp (some map_12_then_13) (some 13) = none ∧
    map_12_then_13.capacity = 32 := by
  decide!

theorem filter_length_le_one {β : Type} (R : β → β → Prop) (P : β → Bool) (l : List β)
    (hR : l.Pairwise R) (hP : ∀ a b, P a = true → P b = true → ¬ R a b) :
    (l.filter P).length ≤ 1 := by
  induction l with
  | nil => simp
  | cons a l ih =>
    rw [List.pairwise_cons] at hR
    cases ha : P a with
    | false =>
      rw [List.filter_cons_of_neg (by simp [ha])]
      exact ih hR.2
    | true =>
      rw [List.filter_cons_of_pos ha]
      have : l.filter P = [] := by
        rw [List.filter_eq_nil_iff]
        intro b hb hpb
        exact hP a b ha hpb (hR.1 b hb)
      rw [this]
      simp

/-- C2 (uniqueness): with a key comparison that is an equivalence and agrees with the
hash function, in every map reachable from `hashmap_alloc` by insert and erase calls
and for every key `k`, at most one stored pair over all buckets has a key that compares
equal to `k`. -/
theorem stored_keys_unique {K V : Type} (key_cmp : K → K → Bool) (func : K → Nat)
    (hok : key_cmp_ok key_cmp func) (m : hashmap K V) (hr : Reachable key_cmp func m)
    (k : K) : ((all_pairs m).filter (fun p => key_cmp p.key k)).length ≤ 1 := by
  have hd := reachable_distinct key_cmp func hok m hr
  refine filter_length_le_one _ _ _ hd ?_
  intro a b ha hb hab
  have h1 := hok.trans _ _ _ ha (hok.symm _ _ hb)
  rw [hab] at h1
  exact absurd h1 (by simp)

/-- Witness of C2 on the map of `test_rehash_on_insert` and key 3. -/
theorem stored_keys_unique_witness :
    key_cmp_ok char_key_cmp hash_identity ∧
    Reachable char_key_cmp hash_identity map_12_then_13 ∧
    ((all_pairs map_12_then_13).filter (fun p => char_key_cmp p.key 3)).length ≤ 1 :=
  ⟨char_key_cmp_ok, map_12_then_13_reachable,
    stored_keys_unique char_key_cmp hash_identity char_key_cmp_ok map_12_then_13
      map_12_then_13_reachable 3⟩

/-- C3: when keys that compare equal have equal hashes, on every reachable map
`hashmap_insert` returns 0 and leaves the map (size, capacity and every bucket) as it
was whenever the pair argument is `NULL` or a pair with an equal key is stored, whatever
value is offered and whatever the load of the map; allocation plays no role. -/
theorem insert_rejected_unchanged {K V : Type} (key_cmp : K → K → Bool) (func : K → Nat)
    (hhash : ∀ a b, key_cmp a b = true → func a = func b)
    (m : hashmap K V) (hr : Reachable key_cmp func m) (oom : Bool) :
    hashmap_insert key_cmp oom m none = (false, m) ∧
    ∀ p : pair K V, key_stored key_cmp m p.key →
      hashmap_insert key_cmp oom m (some p) = (false, m) := by
  refine ⟨rfl, ?_⟩
  intro p hst
  obtain ⟨hinv, hfunc⟩ := reachable_inv key_cmp func m hr
  obtain ⟨q, hq, hqk⟩ := hst
  refine hashmap_insert_dup key_cmp oom m hinv p ⟨q, ?_, hqk⟩
  have hh : hash_index m q.key = hash_index m p.key := by
    unfold hash_index
    rw [hfunc, hhash _ _ hqk]
  rw [← hh]
  exact stored_in_bucket m hinv q hq

/-- Witness of C3 on the map holding keys 0..11 at 12/16, one insert before a rehash:
the `NULL` pair and the stored key 11 with a different value are both rejected. -/
theorem insert_rejected_unchanged_witness :
    (∀ a b, char_key_cmp a b = true → hash_identity a = hash_identity b) ∧
    Reachable char_key_cmp hash_identity map_12 ∧
    map_12.size = 12 ∧ map_12.capacity = 16 ∧
    key_stored char_key_cmp map_12 11 ∧
    hashmap_insert char_key_cmp false map_12 none = (false, map_12) ∧
    hashmap_insert char_key_cmp false map_12 (some { key := 11, value := 99 }) =
      (false, map_12) :=
  have hst : key_stored char_key_cmp map_12 11 := by unfold key_stored; decide!
  ⟨char_key_cmp_ok.hash, map_12_reachable, by decide!, by decide!, hst,
    (insert_rejected_unchanged char_key_cmp hash_identity char_key_cmp_ok.hash map_12
      map_12_reachable false).1,
    (insert_rejected_unchanged char_key_cmp hash_identity char_key_cmp_ok.hash map_12
      map_12_reachable false).2 { key := 11, value := 99 } hst⟩

/-- C4: on every reachable map with fields `(size, capacity)` and for every non-`NULL`
pair whose key is not stored, `hashmap_insert` without allocation failure returns
success; the target bucket is not full; the new size is `size + 1`; the new capacity is
`2 * capacity` if `(size + 1) / capacity > 0.75` and `capacity` otherwise. -/
theorem insert_fresh_key {K V : Type} (key_cmp : K → K → Bool) (func : K → Nat)
    (m : hashmap K V) (hr : Reachable key_cmp func m) (p : pair K V)
    (hns : ¬ key_stored key_cmp m p.key) :
    (hashmap_insert key_cmp false m (some p)).1 = true ∧
    (bucket m.buckets (hash_index m p.key)).size <
      (bucket m.buckets (hash_index m p.key)).capacity ∧
    (vector_push_back (bucket m.buckets (hash_index m p.key)) p).1 = true ∧
    (hashmap_insert key_cmp false m (some p)).2.size = m.size + 1 ∧
    (hashmap_insert key_cmp false m (some p)).2.capacity =
      (if ((m.size : ℚ) + 1) / (m.capacity : ℚ) > 3 / 4 then 2 * m.capacity
        else m.capacity) := by
  obtain ⟨hinv, _⟩ := reachable_inv key_cmp func m hr
  have hcpos := hashmap_inv_cap_pos m hinv
  obtain ⟨_, hwf⟩ := hashmap_inv_bucket_WF m hinv p.key
  obtain ⟨m1, hm1, hs, hc, _, _, _, _⟩ :=
    hashmap_insert_fresh key_cmp m hinv p (not_stored_vacant key_cmp m hinv p.key hns)
  have hpush := (vector_push_back_WF _ p hwf).1
  obtain ⟨_, hcap, hload, _, _⟩ := hwf
  have hq : (((m.size : ℚ) + 1) / (m.capacity : ℚ) > 3 / 4) ↔
      3 * m.capacity < 4 * (m.size + 1) := by
    have := load_gt_iff (m.size + 1) m.capacity hcpos
    push_cast at this
    exact this
  rw [hm1]
  refine ⟨rfl, by omega, hpush, hs, ?_⟩
  show m1.capacity = _
  rw [hc]
  by_cases hg : 3 * m.capacity < 4 * (m.size + 1)
  · rw [if_pos hg, if_pos (hq.2 hg)]; omega
  · rw [if_neg hg, if_neg (fun h => hg (hq.1 h))]

/-- Witness of C4: key 13 is not stored in the map holding keys 0..11 at 12/16; its
insert succeeds with size 13 and capacity 32. -/
theorem insert_fresh_key_witness :
    Reachable char_key_cmp hash_identity map_12 ∧
    ¬ key_stored char_key_cmp map_12 (test_pair 13).key ∧
    (hashmap_insert char_key_cmp false map_12 (some (test_pair 13))).1 = true ∧
    (hashmap_insert char_key_cmp false map_12 (some (test_pair 13))).2.size =
      map_12.size + 1 :=
  have hns : ¬ key_stored char_key_cmp map_12 (test_pair 13).key := by
    unfold key_stored; decide!
  have h := insert_fresh_key char_key_cmp hash_identity map_12 map_12_reachable
    (test_pair 13) hns
  ⟨map_12_reachable, hns, h.1, h.2.2.2.1⟩

theorem least_capacity_step (s c : Nat) (h : least_capacity s c) :
    least_capacity (s + 1) (if 3 * c < 4 * (s + 1) then c * 2 else c) := by
  obtain ⟨j, hc, hle, hmin⟩ := h
  have hpos : 1 ≤ 2 ^ j := Nat.one_le_two_pow
  by_cases hg : 3 * c < 4 * (s + 1)
  · rw [if_pos hg]
    refine ⟨j + 1, by rw [hc, pow_succ]; ring, by omega, ?_⟩
    intro i hi
    rcases Nat.lt_succ_iff_lt_or_eq.1 hi with hlt | heq
    · have := hmin i hlt
      omega
    · rw [heq, ← hc]
      omega
  · rw [if_neg hg]
    refine ⟨j, hc, by omega, ?_⟩
    intro i hi
    have := hmin i hi
    omega

/-- Inserting pairs with pairwise non-equal keys, none of them stored, into a map that
satisfies the invariant: every insert succeeds, size grows by their number and the
capacity stays the least sufficient one. -/
theorem insert_seq_spec {K V : Type} (key_cmp : K → K → Bool) (ps : List (pair K V)) :
    ∀ m : hashmap K V, hashmap_inv m → least_capacity m.size m.capacity →
      (∀ q ∈ all_pairs m, ∀ p ∈ ps, key_cmp q.key p.key = false) →
      ps.Pairwise (fun p q => key_cmp p.key q.key = false ∧ key_cmp q.key p.key = false) →
      (insert_seq key_cmp m ps).1 = List.replicate ps.length true ∧
      (insert_seq key_cmp m ps).2.size = m.size + ps.length ∧
      least_capacity (insert_seq key_cmp m ps).2.size (insert_seq key_cmp m ps).2.capacity := by
  induction ps with
  | nil =>
    intro m _ hcap _ _
    exact ⟨rfl, rfl, hcap⟩
  | cons p ps ih =>
    intro m hinv hcap hfresh hd
    rw [List.pairwise_cons] at hd
    obtain ⟨hlt, _⟩ := hashmap_inv_bucket_WF m hinv p.key
    have hvac : ∀ q ∈ vector_live (bucket m.buckets (hash_index m p.key)),
        key_cmp q.key p.key = false :=
      fun q hq => hfresh q (bucket_live_subset m _ hlt q hq) p (List.mem_cons_self _ _)
    obtain ⟨m1, hm1, hs, hc, _, hinv1, hsub, _⟩ := hashmap_insert_fresh key_cmp m hinv p hvac
    have hcap1 : least_capacity m1.size m1.capacity := by
      rw [hs, hc]
      exact least_capacity_step _ _ hcap
    have hfresh1 : ∀ q ∈ all_pairs m1, ∀ p1 ∈ ps, key_cmp q.key p1.key = false := by
      intro q hq p1 hp1
      rcases List.mem_cons.1 (hsub.subset hq) with rfl | hq
      · exact (hd.1 p1 hp1).1
      · exact hfresh q hq p1 (List.mem_cons_of_mem _ hp1)
    obtain ⟨h1, h2, h3⟩ := ih m1 hinv1 hcap1 hfresh1 hd.2
    have hstep : insert_seq key_cmp m (p :: ps) =
        (true :: (insert_seq key_cmp m1 ps).1, (insert_seq key_cmp m1 ps).2) := by
      show ((hashmap_insert key_cmp false m (some p)).1 ::
        (insert_seq key_cmp (hashmap_insert key_cmp false m (some p)).2 ps).1,
        (insert_seq key_cmp (hashmap_insert key_cmp false m (some p)).2 ps).2) = _
      rw [hm1]
    rw [hstep]
    refine ⟨by simp [h1, List.replicate_succ], ?_, h3⟩
    show (insert_seq key_cmp m1 ps).2.size = m.size + (ps.length + 1)
    rw [h2, hs]
    omega

/-- C5: for every sequence of `n` pairs with pairwise non-equal keys inserted into a
freshly allocated map, every insert succeeds, the final size is `n`, and the final
capacity is the least `16 * 2 ^ j` with `n ≤ 0.75 * 16 * 2 ^ j`; after 12 inserts the
capacity is 16 and the load factor 0.75, after 13 the size is 13 and the capacity 32. -/
theorem insert_distinct_sequence {K V : Type} (key_cmp : K → K → Bool) (func : K → Nat)
    (ps : List (pair K V))
    (hd : ps.Pairwise
      (fun p q => key_cmp p.key q.key = false ∧ key_cmp q.key p.key = false)) :
    (insert_seq key_cmp (hashmap_alloc func) ps).1 = List.replicate ps.length true ∧
    (insert_seq key_cmp (hashmap_alloc func) ps).2.size = ps.length ∧
    (∃ j, (insert_seq key_cmp (hashmap_alloc func) ps).2.capacity = 16 * 2 ^ j ∧
      (ps.length : ℚ) ≤ 3 / 4 * (16 * 2 ^ j) ∧
      ∀ i, i < j → ¬ (ps.length : ℚ) ≤ 3 / 4 * (16 * 2 ^ i)) ∧
    (ps.length = 12 →
      (insert_seq key_cmp (hashmap_alloc func) ps).2.capacity = 16 ∧
      hashmap_get_load_factor (some (insert_seq key_cmp (hashmap_alloc func) ps).2) =
        3 / 4) ∧
    (ps.length = 13 →
      (insert_seq key_cmp (hashmap_alloc func) ps).2.size = 13 ∧
      (insert_seq key_cmp (hashmap_alloc func) ps).2.capacity = 32) := by
  obtain ⟨hinv0, hall0⟩ := hashmap_alloc_inv (V := V) func
  have hcap0 : least_capacity (hashmap_alloc func : hashmap K V).size
      (hashmap_alloc func : hashmap K V).capacity :=
    ⟨0, rfl, by show 4 * 0 ≤ 3 * HASH_MAP_INITIAL_CAP; omega, fun i hi => absurd hi (by omega)⟩
  obtain ⟨h1, h2, h3⟩ := insert_seq_spec key_cmp ps (hashmap_alloc func) hinv0 hcap0
    (by rw [hall0]; intro q hq; simp at hq) hd
  have hsz : (insert_seq key_cmp (hashmap_alloc func) ps).2.size = ps.length := by
    rw [h2]
    show 0 + ps.length = ps.length
    omega
  rw [hsz] at h3
  obtain ⟨j, hc, hle, hmin⟩ := h3
  have hqle : ∀ i : ℕ, ((ps.length : ℚ) ≤ 3 / 4 * (16 * 2 ^ i)) ↔
      4 * ps.length ≤ 3 * (16 * 2 ^ i) := by
    intro i
    constructor
    · intro h
      have h4 : ((4 * ps.length : ℕ) : ℚ) ≤ ((3 * (16 * 2 ^ i) : ℕ) : ℚ) := by
        push_cast; linarith
      exact_mod_cast h4
    · intro h
      have h4 : ((4 * ps.length : ℕ) : ℚ) ≤ ((3 * (16 * 2 ^ i) : ℕ) : ℚ) := by
        exact_mod_cast h
      push_cast at h4
      linarith
  refine ⟨h1, hsz, ⟨j, hc, (hqle j).2 (by rw [← hc]; exact hle),
    fun i hi h => hmin i hi ((hqle i).1 h)⟩, ?_, ?_⟩
  · intro h12
    have hj : j = 0 := by
      rcases Nat.eq_zero_or_pos j with h0 | h0
      · exact h0
      · have := hmin 0 h0
        rw [h12] at this
        simp at this
    rw [hj] at hc
    refine ⟨by simpa using hc, ?_⟩
    unfold hashmap_get_load_factor
    simp only [hsz, hc, h12]
    norm_num
  · intro h13
    have hj : j = 1 := by
      rw [h13, hc] at hle
      have h0 : j ≠ 0 := by
        intro h0; rw [h0] at hle; simp at hle
      have h2 : ¬ 2 ≤ j := by
        intro h2
        have := hmin 1 (by omega)
        rw [h13] at this
        simp at this
      omega
    rw [hj] at hc
    exact ⟨by rw [hsz, h13], by simpa using hc⟩

/-- Witness of C5 on the 13 pairs of `test_insert_after_removal`, keys 0..12. -/
theorem insert_distinct_sequence_witness :
    ((List.range 13).map test_pair).Pairwise
      (fun p q => char_key_cmp p.key q.key = false ∧ char_key_cmp q.key p.key = false) ∧
    (insert_seq char_key_cmp (hashmap_alloc hash_identity)
      ((List.range 13).map test_pair)).1 = List.replicate 13 true ∧
    map_13.size = 13 ∧ map_13.capacity = 32 :=
  have hd : ((List.range 13).map test_pair).Pairwise
      (fun p q => char_key_cmp p.key q.key = false ∧ char_key_cmp q.key p.key = false) := by
    decide
  have h := insert_distinct_sequence char_key_cmp hash_identity
    ((List.range 13).map test_pair) hd
  ⟨hd, h.1, (h.2.2.2.2 rfl).1, (h.2.2.2.2 rfl).2⟩

/-- C6: with a key comparison that is an equivalence and agrees with the hash function,
on every reachable map and for every non-`NULL` key `k`, `hashmap_erase(k)` without
allocation failure returns a result `r` (returned value and map); it reports success
exactly when `hashmap_at(k)` is present before the call, and after a successful erase
`hashmap_at(k)` is absent. -/
theorem erase_succeeds_iff_present {K V : Type} (key_cmp : K → K → Bool) (func : K → Nat)
    (hok : key_cmp_ok key_cmp func) (m : hashmap K V) (hr : Reachable key_cmp func m)
    (k : K) :
    ∃ r, hashmap_erase key_cmp false m (some k) = some r ∧
      (r.1 = true ↔ (hashmap_at key_cmp (some m) (some k)).isSome = true) ∧
      (r.1 = true → hashmap_at key_cmp (some r.2) (some k) = none) := by
  obtain ⟨hinv, hfunc⟩ := reachable_inv key_cmp func m hr
  have hdist := reachable_distinct key_cmp func hok m hr
  by_cases hat : hashmap_at key_cmp (some m) (some k) = none
  · refine ⟨(false, m), hashmap_erase_absent key_cmp false m k hat, ?_, ?_⟩
    · rw [hat]
      simp
    · intro hf
      exact absurd hf (by simp)
  · have hhit : ∃ q ∈ vector_live (bucket m.buckets (hash_index m k)),
        key_cmp q.key k = true := by
      rw [hashmap_at_none_iff key_cmp m hinv k] at hat
      push_neg at hat
      obtain ⟨q, hq, hqk⟩ := hat
      refine ⟨q, hq, hok.symm _ _ ?_⟩
      cases hc : key_cmp k q.key with
      | false => exact absurd hc hqk
      | true => rfl
    obtain ⟨m1, x, L1, hm1, _, _, _, _, hinv1, hxk, hperm, hsub, _⟩ :=
      hashmap_erase_hit key_cmp m hinv k hat hhit
    refine ⟨(true, m1), hm1, ⟨fun _ => ?_, fun _ => rfl⟩, fun _ => ?_⟩
    · cases hc : hashmap_at key_cmp (some m) (some k) with
      | none => exact absurd hc hat
      | some v => rfl
    · show hashmap_at key_cmp (some m1) (some k) = none
      rw [hashmap_at_none_iff key_cmp m1 hinv1 k]
      intro q hq
      obtain ⟨hlt1, _⟩ := hashmap_inv_bucket_WF m1 hinv1 k
      have hqL : q ∈ L1 := hsub.subset (bucket_live_subset m1 _ hlt1 q hq)
      have hd1 : distinct_keys key_cmp (x :: L1) :=
        distinct_keys_subperm key_cmp func hok _ _ hperm.symm.subperm hdist
      have hxq : key_cmp x.key q.key = false := (List.pairwise_cons.1 hd1).1 q hqL
      cases hc : key_cmp k q.key with
      | false => rfl
      | true =>
        rw [hok.trans _ _ _ hxk hc] at hxq
        exact absurd hxq (by simp)

/-- Witness of C6 on the map holding keys 0..12 and key 8. -/
theorem erase_succeeds_iff_present_witness :
    key_cmp_ok char_key_cmp hash_identity ∧
    Reachable char_key_cmp hash_identity map_13 ∧
    (hashmap_at char_key_cmp (some map_13) (some 8)).isSome = true ∧
    ∃ r, hashmap_erase char_key_cmp false map_13 (some 8) = some r ∧ r.1 = true ∧
      hashmap_at char_key_cmp (some r.2) (some 8) = none := by
  obtain ⟨r, hres, hiff, hnone⟩ := erase_succeeds_iff_present char_key_cmp hash_identity
    char_key_cmp_ok map_13 map_13_reachable 8
  have hat : (hashmap_at char_key_cmp (some map_13) (some 8)).isSome = true := by decide!
  exact ⟨char_key_cmp_ok, map_13_reachable, hat, r, hres, hiff.2 hat, hnone (hiff.2 hat)⟩

/-- C7: on every reachable map with fields `(size, capacity)`, a successful
`hashmap_erase` (no allocation failure; `r` is the returned value and the map after the
call) yields size `size - 1`, and capacity `capacity / 2` if
`(size - 1) / capacity < 0.25` and `capacity` otherwise; at capacity 32 an erase that
leaves 8 or more entries keeps capacity 32, with load factor exactly 0.25 at 8 entries,
and the erase from 8 entries gives size 7 and capacity 16. -/
theorem erase_success_fields {K V : Type} (key_cmp : K → K → Bool) (func : K → Nat)
    (m : hashmap K V) (hr : Reachable key_cmp func m) (key : Option K)
    (r : Bool × hashmap K V) (hres : hashmap_erase key_cmp false m key = some r)
    (hsucc : r.1 = true) :
    1 ≤ m.size ∧
    r.2.size = m.size - 1 ∧
    r.2.capacity =
      (if ((m.size : ℚ) - 1) / (m.capacity : ℚ) < 1 / 4 then m.capacity / 2
        else m.capacity) ∧
    (m.capacity = 32 → 9 ≤ m.size → r.2.capacity = 32) ∧
    (m.capacity = 32 → m.size = 9 →
      hashmap_get_load_factor (some r.2) = 1 / 4) ∧
    (m.capacity = 32 → m.size = 8 → r.2.size = 7 ∧ r.2.capacity = 16) := by
  obtain ⟨hinv, _⟩ := reachable_inv key_cmp func m hr
  have hcpos := hashmap_inv_cap_pos m hinv
  have hmain : 1 ≤ m.size ∧ r.2.size = m.size - 1 ∧
      r.2.capacity =
        (if 4 * (m.size - 1) < m.capacity then m.capacity / 2 else m.capacity) := by
    cases key with
    | none =>
      have hnone : hashmap_erase key_cmp false m none = some (false, m) := rfl
      rw [hnone] at hres
      cases hres
      exact absurd hsucc (by simp)
    | some k =>
      by_cases hat : hashmap_at key_cmp (some m) (some k) = none
      · rw [hashmap_erase_absent key_cmp false m k hat] at hres
        cases hres
        exact absurd hsucc (by simp)
      · by_cases hhit : ∃ q ∈ vector_live (bucket m.buckets (hash_index m k)),
            key_cmp q.key k = true
        · obtain ⟨m1, x, L1, hm1, h1, hs, hc, _⟩ := hashmap_erase_hit key_cmp m hinv k hat hhit
          rw [hm1] at hres
          cases hres
          exact ⟨h1, hs, hc⟩
        · have hmiss : ∀ q ∈ vector_live (bucket m.buckets (hash_index m k)),
              key_cmp q.key k = false := by
            intro q hq
            cases hc : key_cmp q.key k with
            | false => rfl
            | true => exact absurd ⟨q, hq, hc⟩ hhit
          rw [hashmap_erase_miss key_cmp false m hinv k hmiss] at hres
          cases hres
          exact absurd hsucc (by simp)
  obtain ⟨h1, hs, hc⟩ := hmain
  have hq : (((m.size : ℚ) - 1) / (m.capacity : ℚ) < 1 / 4) ↔
      4 * (m.size - 1) < m.capacity := by
    have := load_lt_iff (m.size - 1) m.capacity hcpos
    rw [Nat.cast_sub h1] at this
    push_cast at this
    exact this
  refine ⟨h1, hs, ?_, ?_, ?_, ?_⟩
  · rw [hc]
    by_cases hg : 4 * (m.size - 1) < m.capacity
    · rw [if_pos hg, if_pos (hq.2 hg)]
    · rw [if_neg hg, if_neg (fun h => hg (hq.1 h))]
  · intro h32 h9
    rw [hc, if_neg (by omega), h32]
  · intro h32 h9
    unfold hashmap_get_load_factor
    simp only [hs, hc]
    rw [if_neg (by omega), h32, h9]
    norm_num
  · intro h32 h8
    rw [hs, hc, if_pos (by omega), h32, h8]
    exact ⟨rfl, rfl⟩

/-- Witness of C7 on the scenario of `test_removal_rehash`: keys 0..12 are inserted
(13/32), keys 8..12 erased (8/32, load factor 0.25), and erasing key 7 succeeds, giving
size 7 and capacity 16. -/
theorem erase_success_fields_witness :
    Reachable char_key_cmp hash_identity map_8 ∧
    map_13.size = 13 ∧ map_13.capacity = 32 ∧
    (erase_seq char_key_cmp map_13 [some 8, some 9, some 10, some 11, some 12]).1 =
      List.replicate 5 true ∧
    map_8.size = 8 ∧ map_8.capacity = 32 ∧
    hashmap_get_load_factor (some map_8) = 1 / 4 ∧
    ∃ r, hashmap_erase char_key_cmp false map_8 (some 7) = some r ∧ r.1 = true ∧
      r.2.size = 7 ∧ r.2.capacity = 16 := by
  have hdef : (hashmap_erase char_key_cmp false map_8 (some 7)).isSome = true := by decide!
  obtain ⟨r, hres⟩ := Option.isSome_iff_exists.1 hdef
  have hsucc : r.1 = true := by
    have e : (hashmap_erase char_key_cmp false map_8 (some 7)).map Prod.fst = some true := by
      decide!
    rw [hres] at e
    simpa using e
  have h8 : map_8.size = 8 := by decide!
  have h32 : map_8.capacity = 32 := by decide!
  have h := erase_success_fields char_key_cmp hash_identity map_8 map_8_reachable
    (some 7) r hres hsucc
  exact ⟨map_8_reachable, by decide!, by decide!, by decide!, h8, h32, by decide!, r, hres,
    hsucc, (h.2.2.2.2.2 h32 h8).1, (h.2.2.2.2.2 h32 h8).2⟩

/-- C8 (idempotent erase-miss): on every reachable map and for every key that is `NULL`
or not stored, `hashmap_erase` returns, with value 0, and leaves the map (size, capacity
and every bucket) as it was, however often the call is repeated and whatever the load
of the map; allocation plays no role. -/
theorem erase_miss_unchanged {K V : Type} (key_cmp : K → K → Bool) (func : K → Nat)
    (m : hashmap K V) (hr : Reachable key_cmp func m) (key : Option K)
    (hmiss : ∀ k, key = some k → ¬ key_stored key_cmp m k) :
    (∀ oom, hashmap_erase key_cmp oom m key = some (false, m)) ∧
    ∀ n, erase_seq key_cmp m (List.replicate n key) = (List.replicate n false, m) := by
  obtain ⟨hinv, _⟩ := reachable_inv key_cmp func m hr
  have hone : ∀ oom, hashmap_erase key_cmp oom m key = some (false, m) := by
    intro oom
    cases key with
    | none => rfl
    | some k =>
      exact hashmap_erase_miss key_cmp oom m hinv k
        (not_stored_vacant key_cmp m hinv k (hmiss k rfl))
  refine ⟨hone, ?_⟩
  intro n
  induction n with
  | zero => rfl
  | succ n ih =>
    rw [List.replicate_succ, erase_seq, hone false]
    show (false :: (erase_seq key_cmp m (List.replicate n key)).1,
      (erase_seq key_cmp m (List.replicate n key)).2) = _
    rw [ih]
    rfl

/-- Witness of C8 on the map at the lower threshold 8/32 of `test_invalid_removal_rehash`
and the erased key 8. -/
theorem erase_miss_unchanged_witness :
    Reachable char_key_cmp hash_identity map_8 ∧
    map_8.size = 8 ∧ map_8.capacity = 32 ∧
    (∀ k, some 8 = some k → ¬ key_stored char_key_cmp map_8 k) ∧
    hashmap_erase char_key_cmp false map_8 (some 8) = some (false, map_8) ∧
    erase_seq char_key_cmp map_8 (List.replicate 3 (some 8)) =
      (List.replicate 3 false, map_8) :=
  have hmiss : ∀ k, some 8 = some k → ¬ key_stored char_key_cmp map_8 k := by
    intro k hk
    cases hk
    unfold key_stored
    decide!
  have h := erase_miss_unchanged char_key_cmp hash_identity map_8 map_8_reachable
    (some 8) hmiss
  ⟨map_8_reachable, by decide!, by decide!, hmiss, h.1 false, h.2 3⟩

/-- C9, as the code behaves: keys 0..11 and then 13 are inserted into a fresh map under
the identity hash; every insert reports success and the `size` field is 13, but the
bucket vectors hold 12 pairs in all, while the claim says the two numbers agree. -/
theorem size_exceeds_stored :
    (hashmap_insert char_key_cmp false map_12 (some (test_pair 13))).1 = true ∧
    map_12_then_13.size = 13 ∧
    (map_12_then_13.buckets.map vector.size).sum = 12 ∧
    (all_pairs map_12_then_13).length = 12 := by
  decide!

/-- C10: in every map reachable from `hashmap_alloc` by insert and erase calls the
capacity is a power of two and at least 1, so that `capacity - 1` is a bit mask: the
bucket index `hash_func(key) & (capacity - 1)` is `hash_func(key) mod capacity` and lies
below the capacity. -/
theorem capacity_power_of_two {K V : Type} (key_cmp : K → K → Bool) (func : K → Nat)
    (m : hashmap K V) (hr : Reachable key_cmp func m) :
    (∃ e, m.capacity = 2 ^ e) ∧ 1 ≤ m.capacity ∧
    ∀ key, hash_index m key = m.hash_func key % m.capacity ∧
      hash_index m key < m.capacity := by
  obtain ⟨hinv, _⟩ := reachable_inv key_cmp func m hr
  have hcpos := hashmap_inv_cap_pos m hinv
  obtain ⟨_, hpow, _, _⟩ := hinv
  refine ⟨hpow, hcpos, fun key => ⟨?_, hash_index_lt m hpow key⟩⟩
  obtain ⟨e, he⟩ := hpow
  unfold hash_index
  rw [size_t_pred_pos _ hcpos, he, Nat.and_pow_two_sub_one_eq_mod]

/-- Witness of C10 on the map of `test_removal_rehash` after its rehash down. -/
theorem capacity_power_of_two_witness :
    Reachable char_key_cmp hash_identity map_8 ∧
    (∃ e, map_8.capacity = 2 ^ e) ∧ 1 ≤ map_8.capacity :=
  have h := capacity_power_of_two char_key_cmp hash_identity map_8 map_8_reachable
  ⟨map_8_reachable, h.1, h.2.1⟩

/-! ## The vector operations on any vector that satisfies the vector invariant -/

theorem all_some_eq_map {α : Type} (l : List (Option α))
    (h : ∀ i, i < l.length → slot l i ≠ none) : l = l.reduceOption.map some := by
  induction l with
  | nil => rfl
  | cons a l ih =>
    have ha := h 0 (by simp)
    cases a with
    | none => exact absurd rfl ha
    | some x =>
      rw [List.reduceOption_cons_of_some, List.map_cons]
      congr 1
      refine ih (fun i hi => ?_)
      have := h (i + 1) (by simpa using hi)
      simpa [slot] using this

theorem slot_take {α : Type} (l : List (Option α)) (n i : Nat) (hi : i < n) :
    slot (l.take n) i = slot l i := by
  unfold slot
  rw [List.getD_eq_getElem?_getD, List.getD_eq_getElem?_getD, List.getElem?_take_of_lt hi]

/-- A vector satisfying the vector invariant decomposes into its live elements and the
unused slots. -/
theorem vector_ok_rep {α : Type} (v : vector α) (h : vector_ok v) :
    ∃ rest, v.data = (vector_live v).map some ++ rest ∧
      v.size = (vector_live v).length := by
  obtain ⟨hlen, hsz, hslot⟩ := h
  have hl : (v.data.take v.size).length = v.size := by
    rw [List.length_take]; omega
  have ht : v.data.take v.size = (vector_live v).map some := by
    unfold vector_live
    refine all_some_eq_map _ (fun i hi => ?_)
    rw [hl] at hi
    rw [slot_take _ _ _ hi]
    exact hslot i hi
  refine ⟨v.data.drop v.size, ?_, ?_⟩
  · rw [← ht, List.take_append_drop]
  · have h1 := congrArg List.length ht
    rw [hl, List.length_map] at h1
    exact h1

theorem vector_WF_ok {α : Type} (v : vector α) (h : vector_WF v) : vector_ok v := by
  obtain ⟨rest, hd, hs⟩ := vector_WF_rep v h
  obtain ⟨hlen, _, _, _, hle⟩ := h
  refine ⟨hlen, by omega, fun i hi => ?_⟩
  rw [hd, slot_of_rep _ rest i (by omega)]
  simp

theorem slot_set {α : Type} (l : List (Option α)) (n i : Nat) (y : Option α)
    (hn : n < l.length) : slot (l.set n y) i = if i = n then y else slot l i := by
  unfold slot
  rw [List.getD_eq_getElem?_getD, List.getD_eq_getElem?_getD, List.getElem?_set]
  by_cases h : n = i
  · subst h; simp [hn]
  · rw [if_neg h, if_neg (fun h2 => h h2.symm)]

theorem slot_append_left {α : Type} (l r : List (Option α)) (i : Nat) (hi : i < l.length) :
    slot (l ++ r) i = slot l i := by
  unfold slot
  exact List.getD_append _ _ _ _ hi

/-- C18: for every vector whose backing array has `capacity` slots and whose size is
below the capacity, and every value `x`, `vector_push_back` succeeds (no allocation
failure); the new size is `size + 1`, the element at index `size` is `x`, the elements
at the indices below `size` are unchanged, and the capacity becomes `2 * capacity` if
`(size + 1) / capacity > 0.75` and stays otherwise; for a vector with
`size == capacity` it returns 0 and changes nothing. -/
theorem vector_push_back_spec {α : Type} (v : vector α) (x : α)
    (hlen : v.data.length = v.capacity) :
    (v.size < v.capacity →
      (vector_push_back v x).1 = true ∧
      (vector_push_back v x).2.size = v.size + 1 ∧
      vector_at (vector_push_back v x).2 v.size = some x ∧
      (∀ i, i < v.size →
        slot (vector_push_back v x).2.data i = slot v.data i ∧
        vector_at (vector_push_back v x).2 i = vector_at v i) ∧
      (vector_push_back v x).2.capacity =
        (if ((v.size : ℚ) + 1) / (v.capacity : ℚ) > 3 / 4 then 2 * v.capacity
          else v.capacity)) ∧
    (v.size = v.capacity → vector_push_back v x = (false, v)) := by
  refine ⟨fun hlt => ?_, fun heq => ?_⟩
  · have hq : (((v.size : ℚ) + 1) / (v.capacity : ℚ) > 3 / 4) ↔
        3 * v.capacity < 4 * (v.size + 1) := by
      have := load_gt_iff (v.size + 1) v.capacity (by omega)
      push_cast at this
      exact this
    have hslots : ∀ (d : List (Option α)) (r : List (Option α)),
        d = v.data.set v.size (some x) ++ r →
        slot d v.size = some x ∧ ∀ i, i < v.size → slot d i = slot v.data i := by
      intro d r hd
      subst hd
      refine ⟨?_, fun i hi => ?_⟩
      · rw [slot_append_left _ _ _ (by simp; omega), slot_set _ _ _ _ (by omega), if_pos rfl]
      · rw [slot_append_left _ _ _ (by simp; omega), slot_set _ _ _ _ (by omega),
          if_neg (by omega)]
    have hat : ∀ (w : vector α), w.size = v.size + 1 →
        slot w.data v.size = some x → (∀ i, i < v.size → slot w.data i = slot v.data i) →
        vector_at w v.size = some x ∧
        ∀ i, i < v.size → slot w.data i = slot v.data i ∧ vector_at w i = vector_at v i := by
      intro w hws hwx hwi
      refine ⟨?_, fun i hi => ⟨hwi i hi, ?_⟩⟩
      · unfold vector_at
        rw [hws, size_t_pred_pos _ (by omega), hwx]
        simp
      · unfold vector_at
        rw [hws, size_t_pred_pos _ (by omega), size_t_pred_pos _ (by omega), hwi i hi]
        have h1 : ¬ i > v.size + 1 - 1 := by omega
        have h2 : ¬ i > v.size - 1 := by omega
        simp only [h1, h2, false_or]
    unfold vector_push_back
    rw [if_neg (by omega)]
    simp only [vector_get_load_factor, VECTOR_MAX_LOAD_FACTOR, VECTOR_GROWTH_FACTOR]
    by_cases hg : 3 * v.capacity < 4 * (v.size + 1)
    · have hq2 : ((v.size + 1 : ℕ) : ℚ) / (v.capacity : ℚ) > 3 / 4 :=
        (load_gt_iff (v.size + 1) v.capacity (by omega)).2 hg
      rw [if_pos hq2, if_pos (hq.2 hg)]
      have hre : realloc (v.data.set v.size (some x)) (v.capacity * 2) =
          v.data.set v.size (some x) ++ List.replicate v.capacity none := by
        unfold realloc
        rw [List.take_of_length_le (by simp; omega)]
        simp only [List.length_set, hlen]
        congr 2
        omega
      obtain ⟨h1, h2⟩ := hslots _ _ hre
      obtain ⟨h3, h4⟩ := hat
        { capacity := v.capacity * 2, size := v.size + 1,
          data := realloc (v.data.set v.size (some x)) (v.capacity * 2) } rfl h1 h2
      exact ⟨rfl, rfl, h3, h4, by show v.capacity * 2 = 2 * v.capacity; omega⟩
    · have hq2 : ¬ ((v.size + 1 : ℕ) : ℚ) / (v.capacity : ℚ) > 3 / 4 := fun h =>
        hg ((load_gt_iff (v.size + 1) v.capacity (by omega)).1 h)
      rw [if_neg hq2, if_neg (fun h => hg (hq.1 h))]
      obtain ⟨h1, h2⟩ := hslots (v.data.set v.size (some x)) [] (by simp)
      obtain ⟨h3, h4⟩ := hat
        { capacity := v.capacity, size := v.size + 1,
          data := v.data.set v.size (some x) } rfl h1 h2
      exact ⟨rfl, rfl, h3, h4, rfl⟩
  · unfold vector_push_back
    rw [if_pos heq]

/-- Witness of C18: the thirteenth push into a vector holding 0..11 at 12/16 succeeds
and doubles the capacity; a push into a vector whose size equals its capacity is
refused. -/
theorem vector_push_back_spec_witness :
    vector_12.data.length = vector_12.capacity ∧ vector_12.size < vector_12.capacity ∧
    (vector_push_back vector_12 12).1 = true ∧
    (vector_push_back vector_12 12).2.size = vector_12.size + 1 ∧
    vector_at (vector_push_back vector_12 12).2 vector_12.size = some 12 ∧
    (vector_push_back vector_12 12).2.capacity = 32 ∧
    vector_push_back ({ capacity := 1, size := 1, data := [some 5] } : vector Nat) 6 =
      (false, { capacity := 1, size := 1, data := [some 5] }) :=
  have hlen : vector_12.data.length = vector_12.capacity := by decide!
  have hlt : vector_12.size < vector_12.capacity := by decide!
  have h := (vector_push_back_spec vector_12 12 hlen).1 hlt
  ⟨hlen, hlt, h.1, h.2.1, h.2.2.1, by decide!,
    (vector_push_back_spec ({ capacity := 1, size := 1, data := [some 5] } : vector Nat) 6
      rfl).2 rfl⟩

/-- C19, as the code behaves: 10 and 20 are pushed into a fresh vector and index 0 is
erased twice; the vector is then empty, yet `vector_at` at index 1 returns the stale
element 20, because the guard `ind > size - 1` wraps around at size 0, while the claim
says it returns `NULL` for every index at or above `size`. -/
theorem vector_at_stale_on_empty :
    (vector_push_back vector_alloc 10).1 = true ∧
    (vector_push_back (vector_push_back vector_alloc 10).2 20).1 = true ∧
    (vector_erase (vector_push_back (vector_push_back vector_alloc 10).2 20).2 0).1 = true ∧
    (vector_erase (vector_erase
      (vector_push_back (vector_push_back vector_alloc 10).2 20).2 0).2 0).1 = true ∧
    vector_emptied.size = 0 ∧
    vector_at vector_emptied 1 = some 20 := by
  decide!

theorem vector_ok_of_rep {α : Type} (v : vector α) (xs : List α) (rest : List (Option α))
    (hd : v.data = xs.map some ++ rest) (hs : v.size = xs.length)
    (hlen : v.data.length = v.capacity) : vector_ok v ∧ vector_live v = xs := by
  obtain ⟨hl, _, hle⟩ := vector_live_of_rep v xs rest hd hs
  refine ⟨⟨hlen, by omega, fun i hi => ?_⟩, hl⟩
  rw [hd, slot_of_rep xs rest i (by omega)]
  simp

/-- C20: for every vector satisfying the vector invariant and every index
`ind < size`, `vector_erase` succeeds (no allocation failure); the resulting element
sequence is the original one with the element at `ind` removed and the order of the
others kept, the size is `size - 1`, and the capacity becomes `capacity / 2` if
`(size - 1) / capacity < 0.25` and stays otherwise. -/
theorem vector_erase_spec {α : Type} (v : vector α) (ind : Nat) (hok : vector_ok v)
    (hind : ind < v.size) :
    (vector_erase v ind).1 = true ∧
    (vector_live v).length = v.size ∧
    vector_live (vector_erase v ind).2 = (vector_live v).eraseIdx ind ∧
    vector_ok (vector_erase v ind).2 ∧
    (vector_erase v ind).2.size = v.size - 1 ∧
    (vector_erase v ind).2.capacity =
      (if ((v.size : ℚ) - 1) / (v.capacity : ℚ) < 1 / 4 then v.capacity / 2
        else v.capacity) := by
  obtain ⟨rest, hd, hs⟩ := vector_ok_rep v hok
  obtain ⟨hlen, hsz, _⟩ := hok
  have hi : ind < (vector_live v).length := by omega
  have hat : vector_at v ind = some ((vector_live v).get ⟨ind, hi⟩) := by
    have hsl := slot_of_rep (vector_live v) rest ind hi
    rw [← hd] at hsl
    unfold vector_at
    rw [size_t_pred_pos v.size (by omega), hsl]
    simp
    omega
  have hq : (((v.size : ℚ) - 1) / (v.capacity : ℚ) < 1 / 4) ↔
      4 * (v.size - 1) < v.capacity := by
    have := load_lt_iff (v.size - 1) v.capacity (by omega)
    rw [Nat.cast_sub (by omega)] at this
    push_cast at this
    exact this
  refine ⟨?_, hs.symm, ?_⟩
  · unfold vector_erase
    rw [hat]
    simp only [Option.isNone_some, Bool.false_eq_true, if_false]
    split <;> rfl
  generalize hxs : vector_live v = xs at hd hs hi hat
  have hsplit : xs = xs.take ind ++ xs.get ⟨ind, hi⟩ :: xs.drop (ind + 1) := by
    rw [List.get_eq_getElem, ← List.drop_eq_getElem_cons hi, List.take_append_drop]
  have hd1 : v.data.set ind none =
      (xs.take ind).map some ++ none :: ((xs.drop (ind + 1)).map some ++ rest) := by
    rw [hd]
    conv_lhs => rw [hsplit]
    rw [List.map_append, List.map_cons, List.append_assoc, List.set_append]
    have hl : ((xs.take ind).map some).length = ind := by
      simp only [List.length_map, List.length_take]; omega
    rw [if_neg (by omega), hl]
    simp
  obtain ⟨st, hst⟩ := vector_erase_shift_spec ((xs.drop (ind + 1)).map some)
    ((xs.take ind).map some) none rest (ind + 1)
    (by simp only [List.length_map, List.length_take]; omega)
  have hn : ((xs.drop (ind + 1)).map some).length = v.size - (ind + 1) := by
    simp only [List.length_map, List.length_drop]; omega
  rw [hn, ← hd1] at hst
  have hd2 : vector_erase_shift (v.data.set ind none) (v.size - (ind + 1)) (ind + 1) =
      (xs.eraseIdx ind).map some ++ (st :: rest) := by
    rw [hst, List.eraseIdx_eq_take_drop_succ, List.map_append]
  have hsz1 : v.size - 1 = (xs.eraseIdx ind).length := by
    rw [List.length_eraseIdx, if_pos hi]; omega
  have hl2 : (vector_erase_shift (v.data.set ind none) (v.size - (ind + 1)) (ind + 1)).length =
      v.capacity := by
    rw [hd2]
    have h1 := congrArg List.length hd
    simp only [List.length_append, List.length_map, List.length_cons] at h1 ⊢
    rw [← hsz1]
    omega
  unfold vector_erase
  rw [hat]
  simp only [Option.isNone_some, Bool.false_eq_true, if_false,
    vector_get_load_factor, VECTOR_MIN_LOAD_FACTOR, VECTOR_GROWTH_FACTOR]
  rw [size_t_pred_pos v.size (by omega)]
  by_cases hg : 4 * (v.size - 1) < v.capacity
  · rw [if_pos ((load_lt_iff (v.size - 1) v.capacity (by omega)).2 hg), if_pos (hq.2 hg)]
    have hre : realloc (vector_erase_shift (v.data.set ind none) (v.size - (ind + 1)) (ind + 1))
        (v.capacity / 2) = (xs.eraseIdx ind).map some ++
          (st :: rest).take (v.capacity / 2 - (xs.eraseIdx ind).length) := by
      unfold realloc
      rw [hl2, Nat.sub_eq_zero_of_le (Nat.div_le_self _ _), List.replicate_zero,
        List.append_nil, hd2, List.take_append_eq_append_take, List.length_map,
        List.take_of_length_le (by rw [List.length_map, ← hsz1]; omega)]
    have hlen3 : (realloc (vector_erase_shift (v.data.set ind none) (v.size - (ind + 1))
        (ind + 1)) (v.capacity / 2)).length = v.capacity / 2 := by
      unfold realloc
      simp only [List.length_append, List.length_take, List.length_replicate, hl2]
      omega
    obtain ⟨h1, h2⟩ := vector_ok_of_rep
      { capacity := v.capacity / 2, size := v.size - 1,
        data := realloc (vector_erase_shift (v.data.set ind none) (v.size - (ind + 1))
          (ind + 1)) (v.capacity / 2) }
      (xs.eraseIdx ind) _ hre hsz1 hlen3
    exact ⟨h2, h1, rfl, rfl⟩
  · rw [if_neg (fun h => hg ((load_lt_iff (v.size - 1) v.capacity (by omega)).1 h)),
      if_neg (fun h => hg (hq.1 h))]
    obtain ⟨h1, h2⟩ := vector_ok_of_rep
      { capacity := v.capacity, size := v.size - 1,
        data := vector_erase_shift (v.data.set ind none) (v.size - (ind + 1)) (ind + 1) }
      (xs.eraseIdx ind) _ hd2 hsz1 hl2
    exact ⟨h2, h1, rfl, rfl⟩

theorem vector_12_ok : vector_ok vector_12 := by
  refine ⟨by decide!, by decide!, ?_⟩
  intro i hi
  have h12 : vector_12.size = 12 := by decide!
  rw [h12] at hi
  have hall : ∀ j, j < 12 → slot vector_12.data j ≠ none := by decide!
  exact hall i hi

/-- Witness of C20: erasing index 3 from the vector holding 0..11 gives the other
eleven elements in their order, size 11 and the same capacity 16. -/
theorem vector_erase_spec_witness :
    vector_ok vector_12 ∧ 3 < vector_12.size ∧
    (vector_erase vector_12 3).1 = true ∧
    vector_live (vector_erase vector_12 3).2 = [0, 1, 2, 4, 5, 6, 7, 8, 9, 10, 11] ∧
    (vector_erase vector_12 3).2.size = vector_12.size - 1 ∧
    (vector_erase vector_12 3).2.capacity = 16 :=
  have hlt : 3 < vector_12.size := by decide!
  have h := vector_erase_spec vector_12 3 vector_12_ok hlt
  ⟨vector_12_ok, hlt, h.1, by decide!, h.2.2.2.2.1, by decide!⟩

/-! ## Size and capacity after one call, with or without allocation failure -/

/-- The call `hashmap_insert` of a pair with a fresh key when the bucket array of the
rehash cannot be allocated: either no rehash is due and the insert succeeds, or the
call fails with size and capacity restored. -/
theorem hashmap_insert_oom_fields {K V : Type} (key_cmp : K → K → Bool)
    (m : hashmap K V) (h : hashmap_inv m) (p : pair K V)
    (hvac : ∀ q ∈ vector_live (bucket m.buckets (hash_index m p.key)),
      key_cmp q.key p.key = false) :
    (3 * m.capacity < 4 * (m.size + 1) ∧
      (hashmap_insert key_cmp true m (some p)).1 = false ∧
      (hashmap_insert key_cmp true m (some p)).2.size = m.size ∧
      (hashmap_insert key_cmp true m (some p)).2.capacity = m.capacity) ∨
    (¬ 3 * m.capacity < 4 * (m.size + 1) ∧
      (hashmap_insert key_cmp true m (some p)).1 = true ∧
      (hashmap_insert key_cmp true m (some p)).2.size = m.size + 1 ∧
      (hashmap_insert key_cmp true m (some p)).2.capacity = m.capacity) := by
  have hcpos := hashmap_inv_cap_pos m h
  obtain ⟨_, hwf⟩ := hashmap_inv_bucket_WF m h p.key
  obtain ⟨hbinv, hpow, hload, hcount⟩ := h
  have hv : get_pair_by_key key_cmp (bucket m.buckets (hash_index m p.key)) p.key = VACANT :=
    (get_pair_by_key_vacant key_cmp _ hwf p.key).2 hvac
  obtain ⟨hp1, _, _⟩ := buckets_push_step m hpow m.buckets hbinv p
  have hne : ¬ (vector_push_back (bucket m.buckets (hash_index m p.key)) p).1 = false := by
    rw [hp1]; simp
  have hlf : ∀ bs : List (vector (pair K V)),
      hashmap_get_load_factor (some
        ({ buckets := bs, size := m.size + 1, capacity := m.capacity,
           hash_func := m.hash_func } : hashmap K V)) > HASH_MAP_MAX_LOAD_FACTOR ↔
        3 * m.capacity < 4 * (m.size + 1) :=
    fun bs => hashmap_load_gt_iff _ hcpos
  unfold hashmap_insert
  simp only [if_pos hv, if_neg hne, hlf]
  by_cases hg : 3 * m.capacity < 4 * (m.size + 1)
  · rw [if_pos hg]
    simp only [assign_all_pairs, if_true]
    refine Or.inl ⟨hg, trivial, ?_, ?_⟩
    · show size_t_pred (m.size + 1) = m.size
      rw [size_t_pred_pos _ (by omega)]
      omega
    · show m.capacity * HASH_MAP_GROWTH_FACTOR / HASH_MAP_GROWTH_FACTOR = m.capacity
      simp [HASH_MAP_GROWTH_FACTOR]
  · rw [if_neg hg]
    exact Or.inr ⟨hg, rfl, rfl, rfl⟩

/-- Size and capacity after any call of `hashmap_insert` on a map satisfying the
invariant, whether or not the allocation of a rehash fails: unchanged, or one more entry
at the same capacity (load factor still at most 3/4), or one more entry at the doubled
capacity (load factor above 3/4 at the old capacity). -/
theorem hashmap_insert_fields {K V : Type} (key_cmp : K → K → Bool) (oom : Bool)
    (m : hashmap K V) (h : hashmap_inv m) (in_pair : Option (pair K V)) :
    ((hashmap_insert key_cmp oom m in_pair).2.size = m.size ∧
      (hashmap_insert key_cmp oom m in_pair).2.capacity = m.capacity) ∨
    ((hashmap_insert key_cmp oom m in_pair).2.size = m.size + 1 ∧
      (hashmap_insert key_cmp oom m in_pair).2.capacity = m.capacity ∧
      ¬ 3 * m.capacity < 4 * (m.size + 1)) ∨
    ((hashmap_insert key_cmp oom m in_pair).2.size = m.size + 1 ∧
      (hashmap_insert key_cmp oom m in_pair).2.capacity = m.capacity * 2 ∧
      3 * m.capacity < 4 * (m.size + 1)) := by
  cases in_pair with
  | none => exact Or.inl ⟨rfl, rfl⟩
  | some p =>
    by_cases hdup : ∃ q ∈ vector_live (bucket m.buckets (hash_index m p.key)),
        key_cmp q.key p.key = true
    · rw [hashmap_insert_dup key_cmp oom m h p hdup]
      exact Or.inl ⟨rfl, rfl⟩
    · have hvac : ∀ q ∈ vector_live (bucket m.buckets (hash_index m p.key)),
          key_cmp q.key p.key = false := by
        intro q hq
        cases hc : key_cmp q.key p.key with
        | false => rfl
        | true => exact absurd ⟨q, hq, hc⟩ hdup
      cases oom with
      | false =>
        obtain ⟨m1, hm1, hs, hc, _⟩ := hashmap_insert_fresh key_cmp m h p hvac
        rw [hm1]
        by_cases hg : 3 * m.capacity < 4 * (m.size + 1)
        · rw [if_pos hg] at hc
          exact Or.inr (Or.inr ⟨hs, hc, hg⟩)
        · rw [if_neg hg] at hc
          exact Or.inr (Or.inl ⟨hs, hc, hg⟩)
      | true =>
        rcases hashmap_insert_oom_fields key_cmp m h p hvac with
          ⟨_, _, hs, hc⟩ | ⟨hg, _, hs, hc⟩
        · exact Or.inl ⟨hs, hc⟩
        · exact Or.inr (Or.inl ⟨hs, hc, hg⟩)

/-- The call `hashmap_erase` of a key found in its bucket when the bucket array of the
rehash cannot be allocated: either no rehash is due and the erase succeeds, or the
rollback is reached and the call has no defined result. -/
theorem hashmap_erase_oom_fields {K V : Type} (key_cmp : K → K → Bool)
    (m : hashmap K V) (h : hashmap_inv m) (k : K)
    (hat : hashmap_at key_cmp (some m) (some k) ≠ none)
    (hhit : ∃ q ∈ vector_live (bucket m.buckets (hash_index m k)), key_cmp q.key k = true) :
    1 ≤ m.size ∧
    ((4 * (m.size - 1) < m.capacity ∧ hashmap_erase key_cmp true m (some k) = none) ∨
    (¬ 4 * (m.size - 1) < m.capacity ∧
      ∃ r, hashmap_erase key_cmp true m (some k) = some r ∧ r.1 = true ∧
        r.2.size = m.size - 1 ∧ r.2.capacity = m.capacity)) := by
  have hcpos := hashmap_inv_cap_pos m h
  obtain ⟨hlt, hwf⟩ := hashmap_inv_bucket_WF m h k
  obtain ⟨hbinv, hpow, hload, hcount⟩ := h
  obtain ⟨val, hval⟩ : ∃ val, hashmap_at key_cmp (some m) (some k) = some val := by
    cases hc : hashmap_at key_cmp (some m) (some k) with
    | none => exact absurd hc hat
    | some val => exact ⟨val, rfl⟩
  obtain ⟨j, hj, hjk, hscan⟩ := hashmap_erase_loop_hit key_cmp _ hwf k
    (bucket m.buckets (hash_index m k)).size 0 none (by omega) (by simpa using hhit)
  obtain ⟨he1, _, _⟩ := buckets_erase_step m m.buckets hbinv _ hlt j hj
  have hx : (vector_live (bucket m.buckets (hash_index m k))).get ⟨j, hj⟩ ∈ all_pairs m :=
    bucket_live_subset m _ hlt _ (List.get_mem _ _ _)
  have hsz : 1 ≤ m.size := by
    have := List.length_pos_of_mem hx
    omega
  have hlf : ∀ bs : List (vector (pair K V)),
      hashmap_get_load_factor (some
        ({ buckets := bs, size := size_t_pred m.size, capacity := m.capacity,
           hash_func := m.hash_func } : hashmap K V)) < HASH_MAP_MIN_LOAD_FACTOR ↔
        4 * (m.size - 1) < m.capacity := by
    intro bs
    have h1 := hashmap_load_lt_iff
      ({ buckets := bs, size := size_t_pred m.size, capacity := m.capacity,
         hash_func := m.hash_func } : hashmap K V) hcpos
    rw [h1]
    show 4 * size_t_pred m.size < m.capacity ↔ _
    rw [size_t_pred_pos _ hsz]
  have hne : ¬ (vector_erase (bucket m.buckets (hash_index m k)) j).1 = false := by
    rw [he1]; simp
  refine ⟨hsz, ?_⟩
  unfold hashmap_erase
  simp only [hval, hscan, if_neg hne, hlf]
  by_cases hg : 4 * (m.size - 1) < m.capacity
  · rw [if_pos hg]
    simp only [assign_all_pairs, if_true]
    exact Or.inl ⟨hg, trivial⟩
  · rw [if_neg hg]
    exact Or.inr ⟨hg, _, rfl, rfl, size_t_pred_pos _ hsz, rfl⟩

/-- Size and capacity in the state `r.2` returned by any call of `hashmap_erase` on a
map satisfying the invariant, whether or not the allocation of a rehash fails:
unchanged, or one entry less at the same capacity (load factor still at least 1/4), or
one entry less at the halved capacity (load factor below 1/4 at the old capacity). -/
theorem hashmap_erase_fields {K V : Type} (key_cmp : K → K → Bool) (oom : Bool)
    (m : hashmap K V) (h : hashmap_inv m) (key : Option K) (r : Bool × hashmap K V)
    (hres : hashmap_erase key_cmp oom m key = some r) :
    (r.2.size = m.size ∧ r.2.capacity = m.capacity) ∨
    (1 ≤ m.size ∧ r.2.size = m.size - 1 ∧ r.2.capacity = m.capacity ∧
      ¬ 4 * (m.size - 1) < m.capacity) ∨
    (1 ≤ m.size ∧ r.2.size = m.size - 1 ∧ r.2.capacity = m.capacity / 2 ∧
      4 * (m.size - 1) < m.capacity) := by
  cases key with
  | none =>
    have hnone : hashmap_erase key_cmp oom m none = some (false, m) := rfl
    rw [hnone] at hres
    cases hres
    exact Or.inl ⟨rfl, rfl⟩
  | some k =>
    by_cases hat : hashmap_at key_cmp (some m) (some k) = none
    · rw [hashmap_erase_absent key_cmp oom m k hat] at hres
      cases hres
      exact Or.inl ⟨rfl, rfl⟩
    · by_cases hhit : ∃ q ∈ vector_live (bucket m.buckets (hash_index m k)),
          key_cmp q.key k = true
      · cases oom with
        | false =>
          obtain ⟨m1, x, L1, hm1, h1, hs, hc, _⟩ := hashmap_erase_hit key_cmp m h k hat hhit
          rw [hm1] at hres
          cases hres
          by_cases hg : 4 * (m.size - 1) < m.capacity
          · rw [if_pos hg] at hc
            exact Or.inr (Or.inr ⟨h1, hs, hc, hg⟩)
          · rw [if_neg hg] at hc
            exact Or.inr (Or.inl ⟨h1, hs, hc, hg⟩)
        | true =>
          obtain ⟨h1, hcase⟩ := hashmap_erase_oom_fields key_cmp m h k hat hhit
          rcases hcase with ⟨_, hnone⟩ | ⟨hg, r1, hr1, _, hs, hc⟩
          · rw [hnone] at hres
            cases hres
          · rw [hr1] at hres
            cases hres
            exact Or.inr (Or.inl ⟨h1, hs, hc, hg⟩)
      · have hmiss : ∀ q ∈ vector_live (bucket m.buckets (hash_index m k)),
            key_cmp q.key k = false := by
          intro q hq
          cases hc : key_cmp q.key k with
          | false => rfl
          | true => exact absurd ⟨q, hq, hc⟩ hhit
        rw [hashmap_erase_miss key_cmp oom m h k hmiss] at hres
        cases hres
        exact Or.inl ⟨rfl, rfl⟩

theorem load_le_iff (s c : Nat) (hc : 0 < c) :
    ((s : ℚ) / (c : ℚ) ≤ 3 / 4) ↔ 4 * s ≤ 3 * c := by
  have h := load_gt_iff s c hc
  constructor
  · intro h1
    by_contra h2
    exact absurd (h.2 (by omega)) (not_lt.2 h1)
  · intro h1
    by_contra h2
    have := h.1 (not_le.1 h2)
    omega

theorem load_ge_iff (s c : Nat) (hc : 0 < c) :
    ((1 : ℚ) / 4 ≤ (s : ℚ) / (c : ℚ)) ↔ c ≤ 4 * s := by
  have h := load_lt_iff s c hc
  constructor
  · intro h1
    by_contra h2
    exact absurd (h.2 (by omega)) (not_lt.2 h1)
  · intro h1
    by_contra h2
    have := h.1 (not_le.1 h2)
    omega

/-- C11 (load-factor upper bound): in the state returned by any `hashmap_insert` call
on a reachable map, with or without allocation failure in the rehash, and in the state
`r.2` returned by any `hashmap_erase` call on it, `size / capacity` does not exceed
0.75.  Without allocation failure `hashmap_erase` returns such a state for every key;
when the allocation of its rehash fails, the call reaches the rollback that pushes the
freed pair and returns no state. -/
theorem load_factor_upper_bound {K V : Type} (key_cmp : K → K → Bool) (func : K → Nat)
    (m : hashmap K V) (hr : Reachable key_cmp func m) (oom : Bool) :
    (∀ in_pair : Option (pair K V),
      hashmap_get_load_factor (some (hashmap_insert key_cmp oom m in_pair).2) ≤
        HASH_MAP_MAX_LOAD_FACTOR) ∧
    (∀ (key : Option K) (r : Bool × hashmap K V),
      hashmap_erase key_cmp oom m key = some r →
      hashmap_get_load_factor (some r.2) ≤ HASH_MAP_MAX_LOAD_FACTOR) ∧
    (∀ key : Option K, ∃ r, hashmap_erase key_cmp false m key = some r ∧
      hashmap_get_load_factor (some r.2) ≤ HASH_MAP_MAX_LOAD_FACTOR) := by
  obtain ⟨hinv, _⟩ := reachable_inv key_cmp func m hr
  have hcpos := hashmap_inv_cap_pos m hinv
  have hload := hinv.2.2.1
  have herase : ∀ (oom1 : Bool) (key : Option K) (r : Bool × hashmap K V),
      hashmap_erase key_cmp oom1 m key = some r →
      hashmap_get_load_factor (some r.2) ≤ HASH_MAP_MAX_LOAD_FACTOR := by
    intro oom1 key r hres
    unfold hashmap_get_load_factor HASH_MAP_MAX_LOAD_FACTOR
    rcases hashmap_erase_fields key_cmp oom1 m hinv key r hres with
      ⟨hs, hc⟩ | ⟨h1, hs, hc, hg⟩ | ⟨h1, hs, hc, hg⟩
    all_goals
      simp only [hs, hc]
      rw [load_le_iff _ _ (by omega)]
      omega
  refine ⟨fun in_pair => ?_, herase oom, fun key => ?_⟩
  · unfold hashmap_get_load_factor HASH_MAP_MAX_LOAD_FACTOR
    rcases hashmap_insert_fields key_cmp oom m hinv in_pair with
      ⟨hs, hc⟩ | ⟨hs, hc, hg⟩ | ⟨hs, hc, hg⟩
    all_goals
      simp only [hs, hc]
      rw [load_le_iff _ _ (by omega)]
      omega
  · obtain ⟨r, hres⟩ := hashmap_erase_defined key_cmp m hinv key
    exact ⟨r, hres, herase false key r hres⟩

/-- Witness of C11 on the map at 12/16: the insert of key 13 rehashes to 13/32, and the
erase of key 3 returns a state at 11/16. -/
theorem load_factor_upper_bound_witness :
    Reachable char_key_cmp hash_identity map_12 ∧
    hashmap_get_load_factor (some map_12) = 3 / 4 ∧
    hashmap_get_load_factor
      (some (hashmap_insert char_key_cmp false map_12 (some (test_pair 13))).2) ≤
        HASH_MAP_MAX_LOAD_FACTOR ∧
    ∃ r, hashmap_erase char_key_cmp false map_12 (some 3) = some r ∧
      hashmap_get_load_factor (some r.2) ≤ HASH_MAP_MAX_LOAD_FACTOR :=
  have h := load_factor_upper_bound char_key_cmp hash_identity map_12 map_12_reachable false
  ⟨map_12_reachable, by decide!, h.1 (some (test_pair 13)), h.2.2 (some 3)⟩

/-- C12, as the code behaves: the first insert into a freshly allocated map succeeds and
returns a state with `size / capacity = 1/16`, below the lower threshold 1/4; and the
erase of the only entry of a map at 1/4 (one entry, capacity 4) returns the empty map at
capacity 2, load factor 0. -/
theorem load_factor_below_lower_after_insert :
    Reachable char_key_cmp hash_identity (hashmap_alloc hash_identity : hashmap Nat Nat) ∧
    (hashmap_insert char_key_cmp false (hashmap_alloc hash_identity)
      (some (test_pair 0))).1 = true ∧
    hashmap_get_load_factor (some (hashmap_insert char_key_cmp false
      (hashmap_alloc hash_identity) (some (test_pair 0))).2) = 1 / 16 ∧
    ¬ (HASH_MAP_MIN_LOAD_FACTOR ≤ hashmap_get_load_factor (some (hashmap_insert
      char_key_cmp false (hashmap_alloc hash_identity) (some (test_pair 0))).2)) ∧
    Reachable char_key_cmp hash_identity map_1_of_4 ∧
    hashmap_get_load_factor (some map_1_of_4) = 1 / 4 ∧
    ∃ r, hashmap_erase char_key_cmp false map_1_of_4 (some 0) = some r ∧
      r.1 = true ∧ r.2.size = 0 ∧ r.2.capacity = 2 ∧
      ¬ (HASH_MAP_MIN_LOAD_FACTOR ≤ hashmap_get_load_factor (some r.2)) := by
  have hdef : (hashmap_erase char_key_cmp false map_1_of_4 (some 0)).isSome = true := by
    decide!
  obtain ⟨r, hres⟩ := Option.isSome_iff_exists.1 hdef
  have e : (hashmap_erase char_key_cmp false map_1_of_4 (some 0)).map
      (fun r => (r.1, r.2.size, r.2.capacity)) = some (true, 0, 2) := by
    decide!
  rw [hres] at e
  simp only [Option.map_some', Option.some.injEq, Prod.mk.injEq] at e
  obtain ⟨e1, e2, e3⟩ := e
  refine ⟨Reachable.alloc, by decide!, by decide!, by decide!,
    Reachable.insert _ _ (reachable_erase_seq _ _ _ _ (Reachable.insert _ _
      (reachable_erase_seq _ _ _ _ (Reachable.insert _ _ Reachable.alloc)))),
    by decide!, r, hres, e1, e2, e3, ?_⟩
  show ¬ (HASH_MAP_MIN_LOAD_FACTOR ≤ (r.2.size : ℚ) / (r.2.capacity : ℚ))
  rw [e2, e3]
  unfold HASH_MAP_MIN_LOAD_FACTOR
  norm_num

/-- C12 as amended: on a reachable map whose `size / capacity` is at least 0.25, the
state returned by any `hashmap_insert` call (with or without allocation failure in the
rehash) has `size / capacity` at least 0.25, and so has the state `r.2` returned by any
`hashmap_erase` call unless it is empty.  Without allocation failure `hashmap_erase`
returns a state for every key; when the allocation of its rehash fails, the call reaches
the rollback that pushes the freed pair and returns no state. -/
theorem load_factor_lower_bound_kept {K V : Type} (key_cmp : K → K → Bool)
    (func : K → Nat) (m : hashmap K V) (hr : Reachable key_cmp func m) (oom : Bool)
    (hlow : HASH_MAP_MIN_LOAD_FACTOR ≤ hashmap_get_load_factor (some m)) :
    (∀ in_pair : Option (pair K V),
      HASH_MAP_MIN_LOAD_FACTOR ≤
        hashmap_get_load_factor (some (hashmap_insert key_cmp oom m in_pair).2)) ∧
    (∀ (key : Option K) (r : Bool × hashmap K V),
      hashmap_erase key_cmp oom m key = some r → r.2.size ≠ 0 →
      HASH_MAP_MIN_LOAD_FACTOR ≤ hashmap_get_load_factor (some r.2)) ∧
    (∀ key : Option K, ∃ r, hashmap_erase key_cmp false m key = some r) := by
  obtain ⟨hinv, _⟩ := reachable_inv key_cmp func m hr
  have hcpos := hashmap_inv_cap_pos m hinv
  have hload := hinv.2.2.1
  have hlow2 : m.capacity ≤ 4 * m.size := by
    unfold hashmap_get_load_factor HASH_MAP_MIN_LOAD_FACTOR at hlow
    exact (load_ge_iff _ _ hcpos).1 hlow
  refine ⟨fun in_pair => ?_, fun key r hres hne => ?_,
    fun key => hashmap_erase_defined key_cmp m hinv key⟩
  · unfold hashmap_get_load_factor HASH_MAP_MIN_LOAD_FACTOR
    rcases hashmap_insert_fields key_cmp oom m hinv in_pair with
      ⟨hs, hc⟩ | ⟨hs, hc, hg⟩ | ⟨hs, hc, hg⟩
    all_goals
      simp only [hs, hc]
      rw [load_ge_iff _ _ (by omega)]
      omega
  · unfold hashmap_get_load_factor HASH_MAP_MIN_LOAD_FACTOR
    rcases hashmap_erase_fields key_cmp oom m hinv key r hres with
      ⟨hs, hc⟩ | ⟨h1, hs, hc, hg⟩ | ⟨h1, hs, hc, hg⟩
    · simp only [hs, hc]
      rw [load_ge_iff _ _ (by omega)]
      omega
    · simp only [hs, hc]
      rw [load_ge_iff _ _ (by omega)]
      omega
    · rw [hs] at hne
      simp only [hs, hc]
      rw [load_ge_iff _ _ (by omega)]
      omega

/-- Witness of C12 as amended on the map at 8/32, load factor exactly 0.25: erasing
key 7 rehashes down to 7/16. -/
theorem load_factor_lower_bound_kept_witness :
    Reachable char_key_cmp hash_identity map_8 ∧
    HASH_MAP_MIN_LOAD_FACTOR ≤ hashmap_get_load_factor (some map_8) ∧
    ∃ r, hashmap_erase char_key_cmp false map_8 (some 7) = some r ∧ r.2.size = 7 ∧
      r.2.size ≠ 0 ∧ HASH_MAP_MIN_LOAD_FACTOR ≤ hashmap_get_load_factor (some r.2) := by
  have hlow : HASH_MAP_MIN_LOAD_FACTOR ≤ hashmap_get_load_factor (some map_8) := by decide!
  have h := load_factor_lower_bound_kept char_key_cmp hash_identity map_8 map_8_reachable
    false hlow
  obtain ⟨r, hres⟩ := h.2.2 (some 7)
  have hsz : r.2.size = 7 := by
    have e : (hashmap_erase char_key_cmp false map_8 (some 7)).map (fun r => r.2.size) =
        some 7 := by
      decide!
    rw [hres] at e
    simpa using e
  have hne : r.2.size ≠ 0 := by rw [hsz]; decide
  exact ⟨map_8_reachable, hlow, r, hres, hsz, hne, h.2.1 (some 7) r hres hne⟩

/-- C15, as the code behaves: key 13 is inserted into the map holding keys 0..11 at
12/16 and the allocation of the rehash fails.  The call reports failure and restores
size 12 and capacity 16, but its rollback `vector_erase(cur_vector, hash_map->size)`
asks for index 12 of a bucket holding one pair and removes nothing: key 13, absent
before the call, is found by `hashmap_at` after it, while the claim says the reachable
keys are the same and the pushed pair is the element removed. -/
theorem insert_rollback_keeps_pair :
    hashmap_at char_key_cmp (some map_12) (some 13) = none ∧
    (hashmap_insert char_key_cmp true map_12 (some (test_pair 13))).1 = false ∧
    (hashmap_insert char_key_cmp true map_12 (some (test_pair 13))).2.size = map_12.size ∧
    (hashmap_insert char_key_cmp true map_12 (some (test_pair 13))).2.capacity =
      map_12.capacity ∧
    (vector_erase (vector_push_back (bucket map_12.buckets 13) (test_pair 13)).2
      map_12.size).1 = false ∧
    ((all_pairs map_12).map pair.key) = [0, 1, 2, 3, 4, 5, 6, 7, 8, 9, 10, 11] ∧
    ((all_pairs (hashmap_insert char_key_cmp true map_12 (some (test_pair 13))).2).map
      pair.key) = [0, 1, 2, 3, 4, 5, 6, 7, 8, 9, 10, 11, 13] ∧
    hashmap_at char_key_cmp
      (some (hashmap_insert char_key_cmp true map_12 (some (test_pair 13))).2) (some 13) =
        some 13 := by
  decide!

/-- C16: `hashmap_get_load_factor` returns `size / capacity` for every non-`NULL` map, a
fraction with a power of two as denominator on every reachable map, and the sentinel -1
for a `NULL` map; it is 0 on a fresh map, 12/16 = 0.75 after 12 inserts, 13/32 after 13
inserts, 8/32 = 0.25 after erasing back to 8 entries, and 7/16 after one more erase. -/
theorem load_factor_values {K V : Type} (key_cmp : K → K → Bool) (func : K → Nat)
    (m : hashmap K V) :
    hashmap_get_load_factor (some m) = (m.size : ℚ) / (m.capacity : ℚ) ∧
    (Reachable key_cmp func m →
      ∃ e : Nat, hashmap_get_load_factor (some m) = (m.size : ℚ) / 2 ^ e) ∧
    hashmap_get_load_factor (none : Option (hashmap K V)) = -1 ∧
    hashmap_get_load_factor (some (hashmap_alloc func : hashmap K V)) = 0 ∧
    hashmap_get_load_factor (some map_12) = 12 / 16 ∧
    hashmap_get_load_factor (some map_12) = HASH_MAP_MAX_LOAD_FACTOR ∧
    hashmap_get_load_factor (some map_13) = 13 / 32 ∧
    hashmap_get_load_factor (some map_8) = 8 / 32 ∧
    hashmap_get_load_factor (some map_8) = HASH_MAP_MIN_LOAD_FACTOR ∧
    (hashmap_erase char_key_cmp false map_8 (some 7)).map
      (fun r => hashmap_get_load_factor (some r.2)) = some (7 / 16) := by
  refine ⟨rfl, fun hr => ?_, rfl, ?_, by decide!, by decide!, by decide!, by decide!,
    by decide!, by decide!⟩
  · obtain ⟨hinv, _⟩ := reachable_inv key_cmp func m hr
    obtain ⟨e, he⟩ := hinv.2.1
    refine ⟨e, ?_⟩
    unfold hashmap_get_load_factor
    simp only [he]
    push_cast
    rfl
  · unfold hashmap_get_load_factor hashmap_alloc
    simp

/-- Witness of C16 on the map of `check_load_factor_after_rehash_up`. -/
theorem load_factor_values_witness :
    Reachable char_key_cmp hash_identity map_13 ∧
    hashmap_get_load_factor (some map_13) = (map_13.size : ℚ) / (map_13.capacity : ℚ) ∧
    ∃ e : Nat, hashmap_get_load_factor (some map_13) = (map_13.size : ℚ) / 2 ^ e :=
  have h := load_factor_values char_key_cmp hash_identity map_13
  ⟨map_13_reachable, h.1, h.2.1 map_13_reachable⟩

theorem vector_at_alloc {α : Type} (i : Nat) : vector_at (vector_alloc : vector α) i = none := by
  have hs : slot (vector_alloc : vector α).data i = none := by
    unfold slot vector_alloc
    rw [List.getD_eq_getElem?_getD, List.getElem?_replicate]
    split <;> rfl
  unfold vector_at
  rw [hs]
  simp

theorem bucket_buckets_alloc {K V : Type} (hm : hashmap K V) (i : Nat) :
    bucket (buckets_alloc hm) i = vector_alloc := by
  by_cases hi : i < (buckets_alloc hm).length
  · exact List.eq_of_mem_replicate (bucket_mem (buckets_alloc hm) i hi)
  · unfold bucket
    exact List.getD_eq_default _ _ (by omega)

/-- C17: a freshly allocated map has size 0 and capacity `HASH_MAP_INITIAL_CAP` = 16,
its bucket array consists of 16 fresh vectors, each of size 0 with no element at any
index, and `hashmap_at` returns absence for every key, for a `NULL` key and for a
`NULL` map. -/
theorem fresh_map_empty {K V : Type} (key_cmp : K → K → Bool) (func : K → Nat)
    (key : Option K) (i : Nat) :
    (hashmap_alloc func : hashmap K V).size = 0 ∧
    (hashmap_alloc func : hashmap K V).capacity = HASH_MAP_INITIAL_CAP ∧
    HASH_MAP_INITIAL_CAP = 16 ∧
    (hashmap_alloc func : hashmap K V).buckets = List.replicate 16 vector_alloc ∧
    (vector_alloc : vector (pair K V)).size = 0 ∧
    vector_live (vector_alloc : vector (pair K V)) = [] ∧
    vector_at (vector_alloc : vector (pair K V)) i = none ∧
    all_pairs (hashmap_alloc func : hashmap K V) = [] ∧
    hashmap_at key_cmp (some (hashmap_alloc func : hashmap K V)) key = none ∧
    hashmap_at key_cmp (none : Option (hashmap K V)) key = none := by
  refine ⟨rfl, rfl, rfl, rfl, rfl, vector_alloc_live, vector_at_alloc i,
    (hashmap_alloc_inv func).2, ?_, ?_⟩
  · cases key with
    | none => rfl
    | some k =>
      unfold hashmap_at
      simp only
      have hb : bucket (hashmap_alloc func : hashmap K V).buckets
          (hash_index (hashmap_alloc func : hashmap K V) k) = vector_alloc :=
        bucket_buckets_alloc
          ({ buckets := [], size := 0, capacity := HASH_MAP_INITIAL_CAP,
             hash_func := func } : hashmap K V)
          (hash_index (hashmap_alloc func : hashmap K V) k)
      rw [hb]
      rfl
  · cases key <;> rfl

/-! ## The traversal `hashmap_apply_if` -/

/-- The inner loop of `hashmap_apply_if` on a block of live pairs: every remaining pair
is replaced by its mutated version and the selected ones are counted. -/
theorem apply_if_vector_spec {K V : Type} (keyT_func : K → Bool) (valT_func : V → V)
    (post : List (pair K V)) :
    ∀ (v : vector (pair K V)) (pre : List (pair K V)) (rest : List (Option (pair K V)))
      (c : Nat),
      v.data = pre.map some ++ (post.map some ++ rest) →
      v.size = pre.length + post.length →
      apply_if_vector keyT_func valT_func v post.length pre.length c =
        ({ v with data := pre.map some ++
            ((post.map (mutate_if keyT_func valT_func)).map some ++ rest) },
          c + (post.filter (fun q => keyT_func q.key)).length) := by
  induction post with
  | nil =>
    intro v pre rest c hd _
    show (v, c) = _
    simp only [List.map_nil, List.filter_nil, List.length_nil, Nat.add_zero] at hd ⊢
    rw [← hd]
  | cons q post ih =>
    intro v pre rest c hd hs
    have hslot : slot v.data pre.length = some q := by
      rw [hd]
      unfold slot
      rw [List.getD_eq_getElem?_getD, List.getElem?_append_right (by simp)]
      simp
    have hat : vector_at v pre.length = some q := by
      unfold vector_at
      rw [size_t_pred_pos _ (by rw [hs]; simp), hslot]
      have : ¬ pre.length > v.size - 1 := by rw [hs]; simp
      simp [this]
    have hset : ∀ y : pair K V, v.data.set pre.length (some y) =
        (pre ++ [y]).map some ++ (post.map some ++ rest) := by
      intro y
      rw [hd, List.set_append]
      simp
    show (match vector_at v pre.length with
      | some cur_pair =>
        if keyT_func cur_pair.key = true then
          apply_if_vector keyT_func valT_func
            { v with
              data := v.data.set pre.length
                (some { cur_pair with value := valT_func cur_pair.value }) }
            post.length (pre.length + 1) (c + 1)
        else apply_if_vector keyT_func valT_func v post.length (pre.length + 1) c
      | none => apply_if_vector keyT_func valT_func v post.length (pre.length + 1) c) = _
    rw [hat]
    simp only
    by_cases hp : keyT_func q.key = true
    · have hm : mutate_if keyT_func valT_func q = { q with value := valT_func q.value } := by
        unfold mutate_if; rw [if_pos hp]
      rw [if_pos hp]
      have h1 := ih
        { v with data := v.data.set pre.length (some { q with value := valT_func q.value }) }
        (pre ++ [{ q with value := valT_func q.value }]) rest (c + 1) (hset _)
        (by simp [hs]; omega)
      rw [List.length_append, List.length_singleton] at h1
      rw [h1]
      simp [hm, List.filter_cons, hp]
      omega
    · have hm : mutate_if keyT_func valT_func q = q := by
        unfold mutate_if; rw [if_neg hp]
      rw [if_neg hp]
      have h1 := ih v (pre ++ [q]) rest c (by rw [hd]; simp) (by simp [hs]; omega)
      rw [List.length_append, List.length_singleton] at h1
      rw [h1]
      simp [hm, List.filter_cons, hp]

/-- What the inner loop of `hashmap_apply_if` makes of one bucket. -/
theorem apply_if_vector_ok {K V : Type} (keyT_func : K → Bool) (valT_func : V → V)
    (v : vector (pair K V)) (hok : vector_ok v) (c : Nat) :
    (apply_if_vector keyT_func valT_func v v.size 0 c).2 =
      c + ((vector_live v).filter (fun q => keyT_func q.key)).length ∧
    (apply_if_vector keyT_func valT_func v v.size 0 c).1 =
      (apply_if_vector keyT_func valT_func v v.size 0 0).1 ∧
    (apply_if_vector keyT_func valT_func v v.size 0 0).1.size = v.size ∧
    (apply_if_vector keyT_func valT_func v v.size 0 0).1.capacity = v.capacity ∧
    vector_live (apply_if_vector keyT_func valT_func v v.size 0 0).1 =
      (vector_live v).map (mutate_if keyT_func valT_func) ∧
    vector_ok (apply_if_vector keyT_func valT_func v v.size 0 0).1 := by
  obtain ⟨rest, hd, hs⟩ := vector_ok_rep v hok
  have hspec := fun c => apply_if_vector_spec keyT_func valT_func (vector_live v) v [] rest c
    (by simpa using hd) (by simpa using hs)
  simp only [List.length_nil, List.map_nil, List.nil_append] at hspec
  rw [← hs] at hspec
  have hlen : (((vector_live v).map (mutate_if keyT_func valT_func)).map some ++ rest).length =
      v.capacity := by
    have h1 := congrArg List.length hd
    rw [hok.1] at h1
    simp only [List.length_append, List.length_map] at h1 ⊢
    omega
  obtain ⟨h1, h2⟩ := vector_ok_of_rep
    ({ v with data := ((vector_live v).map (mutate_if keyT_func valT_func)).map some ++ rest })
    ((vector_live v).map (mutate_if keyT_func valT_func)) rest rfl
    (by show v.size = _; rw [List.length_map]; exact hs) hlen
  rw [hspec c, hspec 0]
  exact ⟨rfl, rfl, rfl, rfl, h2, h1⟩

/-- The outer loop of `hashmap_apply_if` on a block of buckets: every remaining bucket
is replaced by its traversed version and the selected pairs are counted. -/
theorem apply_if_buckets_spec {K V : Type} (keyT_func : K → Bool) (valT_func : V → V)
    (post : List (vector (pair K V))) :
    ∀ (pre : List (vector (pair K V))) (c : Nat), (∀ v ∈ post, vector_ok v) →
      apply_if_buckets keyT_func valT_func (pre ++ post) post.length pre.length c =
        (pre ++ post.map (fun v => (apply_if_vector keyT_func valT_func v v.size 0 0).1),
          c + ((post.map vector_live).flatten.filter (fun q => keyT_func q.key)).length) := by
  induction post with
  | nil =>
    intro pre c _
    show (pre ++ [], c) = _
    simp
  | cons v post ih =>
    intro pre c hok
    have hb : bucket (pre ++ v :: post) pre.length = v := by
      unfold bucket
      rw [List.getD_eq_getElem?_getD, List.getElem?_append_right (by simp)]
      simp
    obtain ⟨h1, h2, _⟩ := apply_if_vector_ok keyT_func valT_func v
      (hok v (List.mem_cons_self _ _)) c
    have hset : ∀ w : vector (pair K V),
        (pre ++ v :: post).set pre.length w = (pre ++ [w]) ++ post := by
      intro w
      rw [List.set_append]
      simp
    show apply_if_buckets keyT_func valT_func
      ((pre ++ v :: post).set pre.length
        (apply_if_vector keyT_func valT_func (bucket (pre ++ v :: post) pre.length)
          (bucket (pre ++ v :: post) pre.length).size 0 c).1)
      post.length (pre.length + 1)
      (apply_if_vector keyT_func valT_func (bucket (pre ++ v :: post) pre.length)
          (bucket (pre ++ v :: post) pre.length).size 0 c).2 = _
    rw [hb, h1, h2, hset]
    have h3 := ih (pre ++ [(apply_if_vector keyT_func valT_func v v.size 0 0).1])
      (c + ((vector_live v).filter (fun q => keyT_func q.key)).length)
      (fun w hw => hok w (List.mem_cons_of_mem _ hw))
    rw [List.length_append, List.length_singleton] at h3
    rw [h3]
    simp [List.filter_append]
    omega

/-- On a map satisfying the invariant `hashmap_apply_if` counts the stored pairs whose
key is selected and replaces every bucket by its traversed version. -/
theorem hashmap_apply_if_spec {K V : Type} (keyT_func : K → Bool) (valT_func : V → V)
    (m : hashmap K V) (h : hashmap_inv m) :
    hashmap_apply_if m keyT_func valT_func =
      (((all_pairs m).filter (fun q => keyT_func q.key)).length,
        { m with
          buckets := m.buckets.map
            (fun v => (apply_if_vector keyT_func valT_func v v.size 0 0).1) }) := by
  obtain ⟨⟨hlen, hwf, _⟩, _, _, _⟩ := h
  have h1 := apply_if_buckets_spec keyT_func valT_func m.buckets [] 0
    (fun v hv => vector_WF_ok v (hwf v hv))
  simp only [List.nil_append, List.length_nil, Nat.zero_add] at h1
  unfold hashmap_apply_if
  rw [← hlen, h1]
  rfl

theorem bucket_map_apply_if {K V : Type} (keyT_func : K → Bool) (valT_func : V → V)
    (bs : List (vector (pair K V))) (i : Nat) :
    bucket (bs.map (fun v => (apply_if_vector keyT_func valT_func v v.size 0 0).1)) i =
      (apply_if_vector keyT_func valT_func (bucket bs i) (bucket bs i).size 0 0).1 := by
  by_cases hi : i < bs.length
  · rw [bucket_lt _ i (by simpa using hi), bucket_lt _ i hi]
    simp
  · unfold bucket
    rw [List.getD_eq_default _ _ (by simp; omega), List.getD_eq_default _ _ (by omega)]
    rfl

theorem mutate_if_key {K V : Type} (keyT_func : K → Bool) (valT_func : V → V)
    (q : pair K V) : (mutate_if keyT_func valT_func q).key = q.key := by
  unfold mutate_if
  split <;> rfl

theorem reachable_map_50 : Reachable char_key_cmp hash_identity map_50 :=
  reachable_insert_seq _ _ _ _ Reachable.alloc

/-- What `hashmap_apply_if` makes of bucket `i` of a map satisfying the invariant. -/
theorem apply_if_bucket {K V : Type} (keyT_func : K → Bool) (valT_func : V → V)
    (m : hashmap K V) (h : hashmap_inv m) (i : Nat) :
    (bucket (hashmap_apply_if m keyT_func valT_func).2.buckets i).size =
      (bucket m.buckets i).size ∧
    (bucket (hashmap_apply_if m keyT_func valT_func).2.buckets i).capacity =
      (bucket m.buckets i).capacity ∧
    vector_live (bucket (hashmap_apply_if m keyT_func valT_func).2.buckets i) =
      (vector_live (bucket m.buckets i)).map (mutate_if keyT_func valT_func) := by
  have hok : vector_ok (bucket m.buckets i) := by
    by_cases hi : i < m.buckets.length
    · exact vector_WF_ok _ (h.1.2.1 _ (bucket_mem _ i hi))
    · have hb : bucket m.buckets i = vector_alloc := by
        unfold bucket
        exact List.getD_eq_default _ _ (by omega)
      rw [hb]
      exact vector_WF_ok _ vector_alloc_WF
  rw [hashmap_apply_if_spec keyT_func valT_func m h]
  show (bucket (m.buckets.map _) i).size = _ ∧ (bucket (m.buckets.map _) i).capacity = _ ∧
    vector_live (bucket (m.buckets.map _) i) = _
  rw [bucket_map_apply_if]
  obtain ⟨_, _, h3, h4, h5, _⟩ := apply_if_vector_ok keyT_func valT_func _ hok 0
  exact ⟨h3, h4, h5⟩

/-- C13: on every reachable map and for every key predicate and value mutator,
`hashmap_apply_if` returns the number of stored pairs whose key satisfies the
predicate, and afterwards every stored pair, in every bucket and at its old position,
is the old pair with the mutator applied once to its value if its key satisfies the
predicate; for the 50 pairs with keys and values 0..49 (identity hash), the even-key
predicate and the doubling mutator it returns 25 and each even key `i` maps to
`2 * i`. -/
theorem apply_if_counts_and_mutates {K V : Type} (key_cmp : K → K → Bool) (func : K → Nat)
    (m : hashmap K V) (hr : Reachable key_cmp func m) (keyT_func : K → Bool)
    (valT_func : V → V) :
    (hashmap_apply_if m keyT_func valT_func).1 =
      ((all_pairs m).filter (fun q => keyT_func q.key)).length ∧
    all_pairs (hashmap_apply_if m keyT_func valT_func).2 =
      (all_pairs m).map (mutate_if keyT_func valT_func) ∧
    (∀ i, vector_live (bucket (hashmap_apply_if m keyT_func valT_func).2.buckets i) =
      (vector_live (bucket m.buckets i)).map (mutate_if keyT_func valT_func)) ∧
    (∀ q : pair K V, keyT_func q.key = true →
      mutate_if keyT_func valT_func q = { key := q.key, value := valT_func q.value }) ∧
    (hashmap_apply_if map_50 is_key_even mult_int).1 = 25 ∧
    (∀ i, i < 50 → is_key_even i = true →
      hashmap_at char_key_cmp (some (hashmap_apply_if map_50 is_key_even mult_int).2)
        (some i) = some (2 * i)) := by
  obtain ⟨hinv, _⟩ := reachable_inv key_cmp func m hr
  refine ⟨?_, ?_, fun i => (apply_if_bucket keyT_func valT_func m hinv i).2.2, ?_,
    by decide!, by decide!⟩
  · rw [hashmap_apply_if_spec keyT_func valT_func m hinv]
  · rw [hashmap_apply_if_spec keyT_func valT_func m hinv]
    unfold all_pairs
    show ((m.buckets.map _).map vector_live).flatten = _
    rw [List.map_flatten, List.map_map, List.map_map]
    congr 1
    refine List.map_congr_left (fun v hv => ?_)
    exact (apply_if_vector_ok keyT_func valT_func v (vector_WF_ok v (hinv.1.2.1 v hv)) 0).2.2.2.2.1
  · intro q hq
    unfold mutate_if
    rw [if_pos hq]

/-- Witness of C13 on the map of `test_hash_map_apply_if`. -/
theorem apply_if_counts_and_mutates_witness :
    Reachable char_key_cmp hash_identity map_50 ∧
    ((all_pairs map_50).filter (fun q => is_key_even q.key)).length = 25 ∧
    (hashmap_apply_if map_50 is_key_even mult_int).1 =
      ((all_pairs map_50).filter (fun q => is_key_even q.key)).length ∧
    all_pairs (hashmap_apply_if map_50 is_key_even mult_int).2 =
      (all_pairs map_50).map (mutate_if is_key_even mult_int) :=
  have h := apply_if_counts_and_mutates char_key_cmp hash_identity map_50 reachable_map_50
    is_key_even mult_int
  ⟨reachable_map_50, by decide!, h.1, h.2.1⟩

/-- C14: on every reachable map `hashmap_apply_if` changes nothing but the values of
the selected pairs: size, capacity, hash function and number of buckets stay, and in
every bucket the vector's size and capacity, the keys and their order, and every pair
whose key does not satisfy the predicate are the same after the call as before. -/
theorem apply_if_frame {K V : Type} (key_cmp : K → K → Bool) (func : K → Nat)
    (m : hashmap K V) (hr : Reachable key_cmp func m) (keyT_func : K → Bool)
    (valT_func : V → V) :
    (hashmap_apply_if m keyT_func valT_func).2.size = m.size ∧
    (hashmap_apply_if m keyT_func valT_func).2.capacity = m.capacity ∧
    (hashmap_apply_if m keyT_func valT_func).2.hash_func = m.hash_func ∧
    (hashmap_apply_if m keyT_func valT_func).2.buckets.length = m.buckets.length ∧
    ∀ i,
      (bucket (hashmap_apply_if m keyT_func valT_func).2.buckets i).size =
        (bucket m.buckets i).size ∧
      (bucket (hashmap_apply_if m keyT_func valT_func).2.buckets i).capacity =
        (bucket m.buckets i).capacity ∧
      (vector_live (bucket (hashmap_apply_if m keyT_func valT_func).2.buckets i)).map
        pair.key = (vector_live (bucket m.buckets i)).map pair.key ∧
      ∀ (j : Nat) (q : pair K V), (vector_live (bucket m.buckets i))[j]? = some q →
        keyT_func q.key = false →
        (vector_live (bucket (hashmap_apply_if m keyT_func valT_func).2.buckets i))[j]? =
          some q := by
  obtain ⟨hinv, _⟩ := reachable_inv key_cmp func m hr
  have hspec := hashmap_apply_if_spec keyT_func valT_func m hinv
  refine ⟨by rw [hspec], by rw [hspec], by rw [hspec], by rw [hspec]; simp, fun i => ?_⟩
  obtain ⟨h1, h2, h3⟩ := apply_if_bucket keyT_func valT_func m hinv i
  refine ⟨h1, h2, ?_, ?_⟩
  · rw [h3, List.map_map]
    refine List.map_congr_left (fun q _ => ?_)
    exact mutate_if_key keyT_func valT_func q
  · intro j q hq hp
    rw [h3, List.getElem?_map, hq]
    unfold mutate_if
    simp [hp]

/-- Witness of C14 on the map of `test_hash_map_apply_if`: the pair with the odd key 7
still sits at index 0 of bucket 7. -/
theorem apply_if_frame_witness :
    Reachable char_key_cmp hash_identity map_50 ∧
    (hashmap_apply_if map_50 is_key_even mult_int).2.size = map_50.size ∧
    (hashmap_apply_if map_50 is_key_even mult_int).2.capacity = map_50.capacity ∧
    (vector_live (bucket map_50.buckets 7))[0]? = some (test_pair 7) ∧
    (vector_live (bucket (hashmap_apply_if map_50 is_key_even mult_int).2.buckets 7))[0]? =
      some (test_pair 7) :=
  have h := apply_if_frame char_key_cmp hash_identity map_50 reachable_map_50
    is_key_even mult_int
  have hq : (vector_live (bucket map_50.buckets 7))[0]? = some (test_pair 7) := by
    have hk : ((vector_live (bucket map_50.buckets 7)).map
        (fun q => (q.key, q.value)))[0]? = some (7, 7) := by decide!
    rw [List.getElem?_map] at hk
    cases hc : (vector_live (bucket map_50.buckets 7))[0]? with
    | none => rw [hc] at hk; simp at hk
    | some q =>
      rw [hc] at hk
      simp only [Option.map_some', Option.some.injEq, Prod.mk.injEq] at hk
      cases q
      simp only [test_pair] at hk ⊢
      rw [hk.1, hk.2]
  ⟨reachable_map_50, h.1, h.2.1, hq, (h.2.2.2.2 7).2.2.2 0 (test_pair 7) hq rfl⟩

/-! ## The remaining vector operations -/

/-- C21, as the code behaves: on the vector that has held 10 and 20 and lost both by two
erases of index 0 (size 0, capacity 4), `vector_erase` at index 1 passes the guard of
`vector_at`, returns 1, clears the stale slot and decrements the size past zero to
`SIZE_MAX`, while the claim says it returns 0 and changes nothing. -/
theorem vector_erase_on_empty_succeeds :
    vector_emptied.size = 0 ∧ 1 ≥ vector_emptied.size ∧
    (vector_erase vector_emptied 1).1 = true ∧
    (vector_erase vector_emptied 1).2.size = SIZE_MAX ∧
    (vector_erase vector_emptied 1).2.size ≠ vector_emptied.size ∧
    slot vector_emptied.data 1 = some 20 ∧
    slot (vector_erase vector_emptied 1).2.data 1 = none := by
  decide!

/-- C22, as the code behaves: `vector_clear` on the vector holding 10 and 20 erases
index 0, then finds `i = 1` not below the new size 1 and stops: the vector still holds
20 at index 0 with size 1, while the claim says it is left empty. -/
theorem vector_clear_leaves_element :
    vector_two.size = 2 ∧
    (vector_clear vector_two).map (fun w => (w.size, vector_at w 0)) = some (1, some 20) ∧
    (vector_clear vector_12).map (fun w => (w.size, vector_live w)) =
      some (6, [1, 3, 5, 7, 9, 11]) := by
  decide!

theorem vector_at_lt {α : Type} (v : vector α) (i : Nat) (hi : i < v.size) :
    vector_at v i = slot v.data i := by
  unfold vector_at
  rw [size_t_pred_pos _ (by omega)]
  have h1 : ¬ i > v.size - 1 := by omega
  cases hs : slot v.data i with
  | none => simp
  | some e => simp [h1]

/-- The loop of `vector_find` returns the first remaining index whose element compares
equal, and `NOT_FOUND` when there is none. -/
theorem vector_find_loop_spec {α : Type} (elem_cmp_func : α → α → Bool) (v : vector α)
    (x : α) :
    ∀ n i, i + n = v.size →
      ((∀ j, i ≤ j → j < v.size → ∀ e, vector_at v j = some e → elem_cmp_func e x = false) →
        vector_find_loop elem_cmp_func v x n i = NOT_FOUND) ∧
      (∀ k, i ≤ k → k < v.size →
        (∃ e, vector_at v k = some e ∧ elem_cmp_func e x = true) →
        (∀ j, i ≤ j → j < k → ∀ e, vector_at v j = some e → elem_cmp_func e x = false) →
        vector_find_loop elem_cmp_func v x n i = (k : Int)) := by
  intro n
  induction n with
  | zero =>
    intro i hi
    exact ⟨fun _ => rfl, fun k hk1 hk2 _ _ => absurd hk2 (by omega)⟩
  | succ n ih =>
    intro i hi
    obtain ⟨ih1, ih2⟩ := ih (i + 1) (by omega)
    refine ⟨fun hall => ?_, fun k hk1 hk2 hex hmin => ?_⟩
    · unfold vector_find_loop
      cases hat : vector_at v i with
      | none => exact ih1 (fun j hj1 hj2 => hall j (by omega) hj2)
      | some e =>
        have he := hall i (le_refl _) (by omega) e hat
        simp only [he, Bool.false_eq_true, if_false]
        exact ih1 (fun j hj1 hj2 => hall j (by omega) hj2)
    · unfold vector_find_loop
      rcases Nat.eq_or_lt_of_le hk1 with heq | hlt
      · subst heq
        obtain ⟨e, hat, he⟩ := hex
        rw [hat]
        simp only [he, if_true]
      · cases hat : vector_at v i with
        | none => exact ih2 k (by omega) hk2 hex (fun j hj1 hj2 => hmin j (by omega) hj2)
        | some e =>
          have he := hmin i (le_refl _) hlt e hat
          simp only [he, Bool.false_eq_true, if_false]
          exact ih2 k (by omega) hk2 hex (fun j hj1 hj2 => hmin j (by omega) hj2)

/-- C23: for every vector, compare capability and value `x`, `vector_find` returns the
least index `i < size` whose element compares equal to `x`, and it returns -1 exactly
when no element at an index below `size` compares equal to `x`. -/
theorem vector_find_spec {α : Type} (elem_cmp_func : α → α → Bool) (v : vector α) (x : α) :
    (∀ k, k < v.size → (∃ e, vector_at v k = some e ∧ elem_cmp_func e x = true) →
      (∀ j, j < k → ∀ e, vector_at v j = some e → elem_cmp_func e x = false) →
      vector_find elem_cmp_func v x = (k : Int)) ∧
    (vector_find elem_cmp_func v x = -1 ↔
      ∀ j, j < v.size → ∀ e, vector_at v j = some e → elem_cmp_func e x = false) ∧
    (vector_find elem_cmp_func v x = -1 ∨
      ∃ k, k < v.size ∧ vector_find elem_cmp_func v x = (k : Int)) := by
  obtain ⟨h1, h2⟩ := vector_find_loop_spec elem_cmp_func v x v.size 0 (by omega)
  have hfound : ∀ k, k < v.size → (∃ e, vector_at v k = some e ∧ elem_cmp_func e x = true) →
      (∀ j, j < k → ∀ e, vector_at v j = some e → elem_cmp_func e x = false) →
      vector_find elem_cmp_func v x = (k : Int) :=
    fun k hk hex hmin => h2 k (Nat.zero_le _) hk hex (fun j _ hj => hmin j hj)
  have hnone : (∀ j, j < v.size → ∀ e, vector_at v j = some e → elem_cmp_func e x = false) →
      vector_find elem_cmp_func v x = -1 :=
    fun hall => h1 (fun j _ hj => hall j hj)
  have hcases : (∀ j, j < v.size → ∀ e, vector_at v j = some e → elem_cmp_func e x = false) ∨
      ∃ k, k < v.size ∧ (∃ e, vector_at v k = some e ∧ elem_cmp_func e x = true) ∧
        ∀ j, j < k → ∀ e, vector_at v j = some e → elem_cmp_func e x = false := by
    by_cases hex : ∃ k, k < v.size ∧ ∃ e, vector_at v k = some e ∧ elem_cmp_func e x = true
    · refine Or.inr ⟨Nat.find hex, (Nat.find_spec hex).1, (Nat.find_spec hex).2, ?_⟩
      intro j hj e hat
      have hnot := Nat.find_min hex hj
      cases hc : elem_cmp_func e x with
      | false => rfl
      | true =>
        exact absurd ⟨lt_trans hj (Nat.find_spec hex).1, e, hat, hc⟩ hnot
    · refine Or.inl (fun j hj e hat => ?_)
      cases hc : elem_cmp_func e x with
      | false => rfl
      | true => exact absurd ⟨j, hj, e, hat, hc⟩ hex
  refine ⟨hfound, ⟨fun hm => ?_, hnone⟩, ?_⟩
  · rcases hcases with hall | ⟨k, hk, hex, hmin⟩
    · exact hall
    · rw [hfound k hk hex hmin] at hm
      omega
  · rcases hcases with hall | ⟨k, hk, hex, hmin⟩
    · exact Or.inl (hnone hall)
    · exact Or.inr ⟨k, hk, hfound k hk hex hmin⟩

/-- Witness of C23 on the vector holding 0..11: the value 5 is found at index 5 and the
value 99 is not found. -/
theorem vector_find_spec_witness :
    5 < vector_12.size ∧
    (∃ e, vector_at vector_12 5 = some e ∧ int_value_cmp e 5 = true) ∧
    (∀ j, j < 5 → ∀ e, vector_at vector_12 j = some e → int_value_cmp e 5 = false) ∧
    vector_find int_value_cmp vector_12 5 = ((5 : Nat) : Int) ∧
    vector_find int_value_cmp vector_12 99 = -1 :=
  have hlt : 5 < vector_12.size := by decide!
  have hex : ∃ e, vector_at vector_12 5 = some e ∧ int_value_cmp e 5 = true :=
    ⟨5, by decide!, by decide!⟩
  have hmin : ∀ j, j < 5 → ∀ e, vector_at vector_12 j = some e → int_value_cmp e 5 = false := by
    have hall : ∀ j, j < 5 → vector_at vector_12 j = some j := by decide!
    intro j hj e hat
    rw [hall j hj] at hat
    cases hat
    have : ∀ j, j < 5 → int_value_cmp j 5 = false := by decide
    exact this j hj
  ⟨hlt, hex, hmin, (vector_find_spec int_value_cmp vector_12 5).1 5 hlt hex hmin, by decide!⟩

/-- Every vector reachable by pushes and erases on valid indices is well formed. -/
theorem vector_reachable_WF {α : Type} (v : vector α) (hr : vector_reachable v) :
    vector_WF v := by
  induction hr with
  | alloc => exact vector_alloc_WF
  | push_back v x _ ih => exact (vector_push_back_WF v x ih).2.1
  | erase v ind _ hind ih =>
    exact (vector_erase_WF v ind ih (by rw [← size_eq_live_length v ih]; exact hind)).2.1

/-- C24 (vector invariant): in every vector reachable from `vector_alloc` by
`vector_push_back` calls and `vector_erase` calls on valid indices, the backing array
has `capacity` slots, `size < capacity` (so `size ≤ capacity` and `vector_push_back`
never refuses for lack of room), and every index below `size` holds a non-`NULL`
element, which `vector_at` returns. -/
theorem vector_invariant {α : Type} (v : vector α) (hr : vector_reachable v) :
    v.data.length = v.capacity ∧ v.size < v.capacity ∧ v.size ≤ v.capacity ∧
    (∀ x, (vector_push_back v x).1 = true) ∧
    (∀ i, i < v.size → slot v.data i ≠ none) ∧
    (∀ i, i < v.size → ∃ e, vector_at v i = some e) ∧
    (vector_live v).length = v.size := by
  have hwf := vector_reachable_WF v hr
  have hs := size_eq_live_length v hwf
  obtain ⟨hlen, hsz, hslot⟩ := vector_WF_ok v hwf
  obtain ⟨_, hcap, hload, _, _⟩ := hwf
  refine ⟨hlen, by omega, hsz, fun x => (vector_push_back_WF v x (vector_reachable_WF v hr)).1,
    hslot, fun i hi => ?_, hs.symm⟩
  exact ⟨_, vector_at_WF v (vector_reachable_WF v hr) i (by omega)⟩

/-- Witness of C24 on the vector that has held 10 and 20 and lost the 10: it holds 20 at
index 0, with size 1 and capacity 8. -/
theorem vector_invariant_witness :
    vector_reachable (vector_erase vector_two 0).2 ∧
    (vector_erase vector_two 0).2.size = 1 ∧ (vector_erase vector_two 0).2.capacity = 8 ∧
    (vector_erase vector_two 0).2.size < (vector_erase vector_two 0).2.capacity ∧
    (vector_erase vector_two 0).2.data.length = (vector_erase vector_two 0).2.capacity ∧
    slot (vector_erase vector_two 0).2.data 0 ≠ none ∧
    (vector_push_back (vector_erase vector_two 0).2 30).1 = true :=
  have hr : vector_reachable (vector_erase vector_two 0).2 :=
    vector_reachable.erase _ 0
      (vector_reachable.push_back _ 20 (vector_reachable.push_back _ 10 vector_reachable.alloc))
      (by decide!)
  have h := vector_invariant (vector_erase vector_two 0).2 hr
  ⟨hr, by decide!, by decide!, h.2.1, h.1, h.2.2.2.2.1 0 (by decide!), h.2.2.2.1 30⟩

/-! ## The calls written out -/

/-- The result of `hashmap_insert` of a pair with a fresh key, written out: without a
rehash the pair is pushed into its bucket, whether or not an allocation would fail; with
a rehash the result is that of `assign_all_pairs` on the state the call has built. -/
theorem hashmap_insert_fresh_eq {K V : Type} (key_cmp : K → K → Bool)
    (m : hashmap K V) (h : hashmap_inv m) (p : pair K V)
    (hvac : ∀ q ∈ vector_live (bucket m.buckets (hash_index m p.key)),
      key_cmp q.key p.key = false) :
    (¬ 3 * m.capacity < 4 * (m.size + 1) → ∀ oom,
      hashmap_insert key_cmp oom m (some p) =
        (true, { buckets := m.buckets.set (hash_index m p.key)
                   (vector_push_back (bucket m.buckets (hash_index m p.key)) p).2,
                 size := m.size + 1, capacity := m.capacity, hash_func := m.hash_func })) ∧
    (3 * m.capacity < 4 * (m.size + 1) →
      hashmap_insert key_cmp false m (some p) =
        (true, (assign_all_pairs (insert_rehash_state m p) INSERT false).2)) := by
  have hcpos := hashmap_inv_cap_pos m h
  obtain ⟨_, hwf⟩ := hashmap_inv_bucket_WF m h p.key
  obtain ⟨hbinv, hpow, hload, hcount⟩ := h
  have hv : get_pair_by_key key_cmp (bucket m.buckets (hash_index m p.key)) p.key = VACANT :=
    (get_pair_by_key_vacant key_cmp _ hwf p.key).2 hvac
  obtain ⟨hp1, hp2, hp3⟩ := buckets_push_step m hpow m.buckets hbinv p
  have hne : ¬ (vector_push_back (bucket m.buckets (hash_index m p.key)) p).1 = false := by
    rw [hp1]; simp
  have hlf : ∀ bs : List (vector (pair K V)),
      hashmap_get_load_factor (some
        ({ buckets := bs, size := m.size + 1, capacity := m.capacity,
           hash_func := m.hash_func } : hashmap K V)) > HASH_MAP_MAX_LOAD_FACTOR ↔
        3 * m.capacity < 4 * (m.size + 1) :=
    fun bs => hashmap_load_gt_iff _ hcpos
  constructor
  · intro hg oom
    unfold hashmap_insert
    simp only [if_pos hv, if_neg hne, hlf, if_neg hg]
  · intro hg
    obtain ⟨k, hk⟩ := hpow
    obtain ⟨temp, hta, _, _⟩ := assign_all_pairs_spec (insert_rehash_state m p) INSERT
      ⟨k + 1, by show m.capacity * 2 = 2 ^ (k + 1); rw [hk, pow_succ]⟩ hp2.2.1
    have hta1 : (assign_all_pairs (insert_rehash_state m p) INSERT false).1 = true := by
      rw [hta]
    unfold insert_rehash_state at hta1 ⊢
    unfold hashmap_insert
    simp only [if_pos hv, if_neg hne, hlf, if_pos hg, hta1, Bool.true_eq_false, if_false]

/-- The result of a `hashmap_erase` that finds its key, written out: the pair at some
index `j` of the bucket, with a key comparing equal, is erased; without a rehash the
bucket is replaced and `size` decremented, whether or not an allocation would fail; with
a rehash the result is that of `assign_all_pairs` on the state the call has built. -/
theorem hashmap_erase_hit_eq {K V : Type} (key_cmp : K → K → Bool)
    (m : hashmap K V) (h : hashmap_inv m) (k : K)
    (hat : hashmap_at key_cmp (some m) (some k) ≠ none)
    (hhit : ∃ q ∈ vector_live (bucket m.buckets (hash_index m k)), key_cmp q.key k = true) :
    ∃ (j : Nat) (hj : j < (vector_live (bucket m.buckets (hash_index m k))).length),
      key_cmp ((vector_live (bucket m.buckets (hash_index m k))).get ⟨j, hj⟩).key k = true ∧
      1 ≤ m.size ∧
      (¬ 4 * (m.size - 1) < m.capacity → ∀ oom,
        hashmap_erase key_cmp oom m (some k) =
          some (true, { buckets := m.buckets.set (hash_index m k)
                          (vector_erase (bucket m.buckets (hash_index m k)) j).2,
                        size := size_t_pred m.size, capacity := m.capacity,
                        hash_func := m.hash_func })) ∧
      (4 * (m.size - 1) < m.capacity →
        hashmap_erase key_cmp false m (some k) =
          some (true, (assign_all_pairs (erase_rehash_state m k j) DELETE false).2)) := by
  have hcpos := hashmap_inv_cap_pos m h
  obtain ⟨hlt, hwf⟩ := hashmap_inv_bucket_WF m h k
  obtain ⟨hbinv, hpow, hload, hcount⟩ := h
  obtain ⟨val, hval⟩ : ∃ val, hashmap_at key_cmp (some m) (some k) = some val := by
    cases hc : hashmap_at key_cmp (some m) (some k) with
    | none => exact absurd hc hat
    | some val => exact ⟨val, rfl⟩
  obtain ⟨j, hj, hjk, hscan⟩ := hashmap_erase_loop_hit key_cmp _ hwf k
    (bucket m.buckets (hash_index m k)).size 0 none (by omega) (by simpa using hhit)
  obtain ⟨he1, he2, he3⟩ := buckets_erase_step m m.buckets hbinv _ hlt j hj
  have hx : (vector_live (bucket m.buckets (hash_index m k))).get ⟨j, hj⟩ ∈ all_pairs m :=
    bucket_live_subset m _ hlt _ (List.get_mem _ _ _)
  have hsz : 1 ≤ m.size := by
    have := List.length_pos_of_mem hx
    omega
  have hlf : ∀ bs : List (vector (pair K V)),
      hashmap_get_load_factor (some
        ({ buckets := bs, size := size_t_pred m.size, capacity := m.capacity,
           hash_func := m.hash_func } : hashmap K V)) < HASH_MAP_MIN_LOAD_FACTOR ↔
        4 * (m.size - 1) < m.capacity := by
    intro bs
    have h1 := hashmap_load_lt_iff
      ({ buckets := bs, size := size_t_pred m.size, capacity := m.capacity,
         hash_func := m.hash_func } : hashmap K V) hcpos
    rw [h1]
    show 4 * size_t_pred m.size < m.capacity ↔ _
    rw [size_t_pred_pos _ hsz]
  have hne : ¬ (vector_erase (bucket m.buckets (hash_index m k)) j).1 = false := by
    rw [he1]; simp
  refine ⟨j, hj, hjk, hsz, fun hg oom => ?_, fun hg => ?_⟩
  · unfold hashmap_erase
    simp only [hval, hscan, if_neg hne, hlf, if_neg hg]
  · obtain ⟨e, hk⟩ := hpow
    have hhalf : m.capacity / 2 = 2 ^ (e - 1) := by
      obtain ⟨e1, rfl⟩ : ∃ e1, e = e1 + 1 := by
        rcases Nat.eq_zero_or_pos e with h0 | h0
        · rw [h0] at hk; simp at hk; omega
        · exact ⟨e - 1, by omega⟩
      rw [hk, pow_succ]
      simp
    obtain ⟨temp, hta, _, _⟩ := assign_all_pairs_spec (erase_rehash_state m k j) DELETE
      ⟨e - 1, hhalf⟩ he2.2.1
    have hta1 : (assign_all_pairs (erase_rehash_state m k j) DELETE false).1 = true := by
      rw [hta]
    unfold erase_rehash_state at hta1 ⊢
    unfold hashmap_erase
    simp only [hval, hscan, if_neg hne, hlf, if_pos hg, hta1, Bool.true_eq_false, if_false]

theorem find_eraseIdx {β : Type} (f : β → Bool) :
    ∀ (l : List β) (j : Nat) (hj : j < l.length), f (l.get ⟨j, hj⟩) = false →
      (l.eraseIdx j).find? f = l.find? f := by
  intro l
  induction l with
  | nil => intro j hj; simp at hj
  | cons a l ih =>
    intro j hj hf
    cases j with
    | zero =>
      simp only [List.get_eq_getElem, List.getElem_cons_zero] at hf
      simp only [List.eraseIdx_cons_zero, List.find?_cons, hf]
    | succ j =>
      simp only [List.get_eq_getElem, List.getElem_cons_succ] at hf
      have hj2 : j < l.length := by simpa using hj
      have := ih j hj2 (by rw [List.get_eq_getElem]; exact hf)
      simp only [List.eraseIdx_cons_succ, List.find?_cons, this]

/-- The bucket index depends on the hash function and the capacity only. -/
theorem hash_index_congr {K V : Type} (m1 m2 : hashmap K V)
    (hc : m1.capacity = m2.capacity) (hf : m1.hash_func = m2.hash_func) (key : K) :
    hash_index m1 key = hash_index m2 key := by
  unfold hash_index
  rw [hc, hf]

/-! ## Rehash, routing and bounds -/

/-- C25, as the code behaves: keys 0..11 are inserted into a fresh map under the
identity hash and then key 13; the last insert pushes the pair into bucket 13, raises
`size` to 13, doubles the capacity to 32 and runs `assign_all_pairs`, whose outer loop
visits the old buckets 0..12 only.  The old bucket array holds the keys 0..11 and 13,
the new one the keys 0..11: the pair of key 13 is lost, while the claim says every pair
of the old array appears in the new one. -/
theorem rehash_drops_pair :
    Reachable char_key_cmp hash_identity map_12 ∧
    hashmap_insert char_key_cmp false map_12 (some (test_pair 13)) =
      (true, (assign_all_pairs (insert_rehash_state map_12 (test_pair 13)) INSERT false).2) ∧
    (insert_rehash_state map_12 (test_pair 13)).size = 13 ∧
    (insert_rehash_state map_12 (test_pair 13)).capacity = 32 ∧
    (insert_rehash_state map_12 (test_pair 13)).buckets.length = 16 ∧
    (all_pairs (insert_rehash_state map_12 (test_pair 13))).map pair.key =
      [0, 1, 2, 3, 4, 5, 6, 7, 8, 9, 10, 11, 13] ∧
    (assign_all_pairs (insert_rehash_state map_12 (test_pair 13)) INSERT false).1 = true ∧
    (all_pairs (assign_all_pairs (insert_rehash_state map_12 (test_pair 13))
      INSERT false).2).map pair.key = [0, 1, 2, 3, 4, 5, 6, 7, 8, 9, 10, 11] ∧
    (all_pairs map_12_then_13).map pair.key = [0, 1, 2, 3, 4, 5, 6, 7, 8, 9, 10, 11] :=
  ⟨map_12_reachable,
    (hashmap_insert_fresh_eq char_key_cmp map_12
      (reachable_inv char_key_cmp hash_identity map_12 map_12_reachable).1 (test_pair 13)
      (by decide!)).2 (by decide!),
    by decide!, by decide!, by decide!, by decide!, by decide!, by decide!, by decide!⟩

/-- C27 (routing invariant): in every map reachable from `hashmap_alloc` by insert and
erase calls there is one bucket per unit of capacity, every pair stored in bucket number
`b` satisfies `b = hash_func(key) & (capacity - 1) = hash_func(key) mod capacity`, and
for every key this index is below the capacity and the number of buckets, so the bucket
lookups of `hashmap_insert`, `hashmap_at` and `hashmap_erase` are in bounds. -/
theorem routing_invariant {K V : Type} (key_cmp : K → K → Bool) (func : K → Nat)
    (m : hashmap K V) (hr : Reachable key_cmp func m) :
    m.buckets.length = m.capacity ∧
    (∀ b, b < m.buckets.length → ∀ p ∈ vector_live (bucket m.buckets b),
      b = hash_index m p.key ∧ b = m.hash_func p.key &&& (m.capacity - 1) ∧
      b = m.hash_func p.key % m.capacity) ∧
    (∀ key, hash_index m key = m.hash_func key &&& (m.capacity - 1) ∧
      hash_index m key = m.hash_func key % m.capacity ∧
      hash_index m key < m.capacity ∧ hash_index m key < m.buckets.length) := by
  obtain ⟨hinv, _⟩ := reachable_inv key_cmp func m hr
  have hcpos := hashmap_inv_cap_pos m hinv
  obtain ⟨⟨hlen, _, hroute⟩, hpow, _, _⟩ := hinv
  have hand : ∀ key, hash_index m key = m.hash_func key &&& (m.capacity - 1) := by
    intro key
    unfold hash_index
    rw [size_t_pred_pos _ hcpos]
  have hmod : ∀ key, hash_index m key = m.hash_func key % m.capacity := by
    intro key
    obtain ⟨e, he⟩ := hpow
    rw [hand, he, Nat.and_pow_two_sub_one_eq_mod]
  refine ⟨hlen, fun b hb p hp => ?_, fun key => ?_⟩
  · have hb2 := hroute b hb p hp
    exact ⟨hb2.symm, by rw [← hand]; exact hb2.symm, by rw [← hmod]; exact hb2.symm⟩
  · have hlt := hash_index_lt m hpow key
    exact ⟨hand key, hmod key, hlt, by rw [hlen]; exact hlt⟩

/-- Witness of C27 on the map of `test_removal_rehash` after its erases. -/
theorem routing_invariant_witness :
    Reachable char_key_cmp hash_identity map_8 ∧ map_8.buckets.length = map_8.capacity ∧
    ∀ key, hash_index map_8 key < map_8.buckets.length :=
  have h := routing_invariant char_key_cmp hash_identity map_8 map_8_reachable
  ⟨map_8_reachable, h.1, fun key => (h.2.2 key).2.2.2⟩

/-- C28: in a reachable map the number of stored pairs is at most `size`; whenever a
call of `hashmap_insert` or `hashmap_erase` on it runs `assign_all_pairs`, it does so on
a state whose `size`, the bound of the outer loop, is at most the number of buckets of
the bucket array the loop reads, which is the old capacity; and a successful
`hashmap_erase` (result `r`) finds `size` at least 1, so the decrement does not wrap.
Without allocation failure every call of `hashmap_erase` returns. -/
theorem rehash_loop_in_bounds {K V : Type} (key_cmp : K → K → Bool) (func : K → Nat)
    (m : hashmap K V) (hr : Reachable key_cmp func m) :
    (all_pairs m).length ≤ m.size ∧ m.buckets.length = m.capacity ∧
    (∀ p, (hashmap_insert key_cmp false m (some p)).1 = true →
      (hashmap_insert key_cmp false m (some p)).2.capacity ≠ m.capacity →
      hashmap_insert key_cmp false m (some p) =
        (true, (assign_all_pairs (insert_rehash_state m p) INSERT false).2) ∧
      (insert_rehash_state m p).size ≤ (insert_rehash_state m p).buckets.length ∧
      (insert_rehash_state m p).buckets.length = m.capacity) ∧
    (∀ k r, hashmap_erase key_cmp false m (some k) = some r → r.1 = true →
      1 ≤ m.size ∧ r.2.size = m.size - 1 ∧
      (r.2.capacity ≠ m.capacity →
        ∃ j, hashmap_erase key_cmp false m (some k) =
            some (true, (assign_all_pairs (erase_rehash_state m k j) DELETE false).2) ∧
          (erase_rehash_state m k j).size ≤ (erase_rehash_state m k j).buckets.length ∧
          (erase_rehash_state m k j).buckets.length = m.capacity)) ∧
    (∀ key, ∃ r, hashmap_erase key_cmp false m key = some r) := by
  obtain ⟨hinv, _⟩ := reachable_inv key_cmp func m hr
  have hcpos := hashmap_inv_cap_pos m hinv
  have hlen : m.buckets.length = m.capacity := hinv.1.1
  have hload : 4 * m.size ≤ 3 * m.capacity := hinv.2.2.1
  refine ⟨hinv.2.2.2, hlen, fun p hs hc => ?_, fun k r hres hs => ?_,
    fun key => hashmap_erase_defined key_cmp m hinv key⟩
  · by_cases hdup : ∃ q ∈ vector_live (bucket m.buckets (hash_index m p.key)),
        key_cmp q.key p.key = true
    · rw [hashmap_insert_dup key_cmp false m hinv p hdup] at hs
      exact absurd hs (by simp)
    · have hvac : ∀ q ∈ vector_live (bucket m.buckets (hash_index m p.key)),
          key_cmp q.key p.key = false := by
        intro q hq
        cases hcq : key_cmp q.key p.key with
        | false => rfl
        | true => exact absurd ⟨q, hq, hcq⟩ hdup
      obtain ⟨h1, h2⟩ := hashmap_insert_fresh_eq key_cmp m hinv p hvac
      by_cases hg : 3 * m.capacity < 4 * (m.size + 1)
      · refine ⟨h2 hg, ?_, ?_⟩
        · show m.size + 1 ≤ (m.buckets.set _ _).length
          rw [List.length_set]
          omega
        · show (m.buckets.set _ _).length = m.capacity
          rw [List.length_set]
          exact hlen
      · rw [h1 hg false] at hc
        exact absurd rfl hc
  · by_cases hat : hashmap_at key_cmp (some m) (some k) = none
    · rw [hashmap_erase_absent key_cmp false m k hat] at hres
      cases hres
      exact absurd hs (by simp)
    · by_cases hhit : ∃ q ∈ vector_live (bucket m.buckets (hash_index m k)),
          key_cmp q.key k = true
      · obtain ⟨j, hj, _, hsz, h1, h2⟩ := hashmap_erase_hit_eq key_cmp m hinv k hat hhit
        obtain ⟨m1, _, _, hm1, _, hsize, _⟩ := hashmap_erase_hit key_cmp m hinv k hat hhit
        have hr1 : r = (true, m1) := by
          rw [hm1] at hres
          cases hres
          rfl
        refine ⟨hsz, by rw [hr1]; exact hsize, fun hc => ?_⟩
        by_cases hg : 4 * (m.size - 1) < m.capacity
        · refine ⟨j, h2 hg, ?_, ?_⟩
          · show size_t_pred m.size ≤ (m.buckets.set _ _).length
            rw [List.length_set, size_t_pred_pos _ hsz]
            omega
          · show (m.buckets.set _ _).length = m.capacity
            rw [List.length_set]
            exact hlen
        · rw [h1 hg false] at hres
          cases hres
          exact absurd rfl hc
      · have hmiss : ∀ q ∈ vector_live (bucket m.buckets (hash_index m k)),
            key_cmp q.key k = false := by
          intro q hq
          cases hcq : key_cmp q.key k with
          | false => rfl
          | true => exact absurd ⟨q, hq, hcq⟩ hhit
        rw [hashmap_erase_miss key_cmp false m hinv k hmiss] at hres
        cases hres
        exact absurd hs (by simp)

/-- Witness of C28 on the map of `test_removal_rehash` after its erases (8 entries at
capacity 32): erasing key 7 succeeds with `size` 8, leaves 7 entries and halves the
capacity through a run of `assign_all_pairs` whose loop bound 7 is below the 32 old
buckets. -/
theorem rehash_loop_in_bounds_witness :
    Reachable char_key_cmp hash_identity map_8 ∧
    (all_pairs map_8).length ≤ map_8.size ∧
    ∃ r, hashmap_erase char_key_cmp false map_8 (some 7) = some r ∧ r.1 = true ∧
      r.2.capacity ≠ map_8.capacity ∧ 1 ≤ map_8.size ∧ r.2.size = map_8.size - 1 ∧
      ∃ j, hashmap_erase char_key_cmp false map_8 (some 7) =
          some (true, (assign_all_pairs (erase_rehash_state map_8 7 j) DELETE false).2) ∧
        (erase_rehash_state map_8 7 j).size ≤ (erase_rehash_state map_8 7 j).buckets.length ∧
        (erase_rehash_state map_8 7 j).buckets.length = map_8.capacity := by
  have h := rehash_loop_in_bounds char_key_cmp hash_identity map_8 map_8_reachable
  obtain ⟨r, hres⟩ := h.2.2.2.2 (some 7)
  have e : (hashmap_erase char_key_cmp false map_8 (some 7)).map
      (fun r => (r.1, r.2.capacity)) = some (true, 16) := by
    decide!
  rw [hres] at e
  simp only [Option.map_some', Option.some.injEq, Prod.mk.injEq] at e
  have hs : r.1 = true := e.1
  have hc : r.2.capacity ≠ map_8.capacity := by
    rw [e.2]
    decide!
  have h7 := h.2.2.2.1 7 r hres hs
  exact ⟨map_8_reachable, h.1, r, hres, hs, hc, h7.1, h7.2.1, h7.2.2 hc⟩

/-! ## Lookups around a call without rehash -/

/-- Lookup in a map that differs from `m` in one bucket only. -/
theorem hashmap_at_set {K V : Type} (key_cmp : K → K → Bool) (m m1 : hashmap K V)
    (h1 : hashmap_inv m1) (hc : m1.capacity = m.capacity) (hf : m1.hash_func = m.hash_func)
    (i : Nat) (hi : i < m.buckets.length) (v : vector (pair K V))
    (hb : m1.buckets = m.buckets.set i v) (k : K) :
    hashmap_at key_cmp (some m1) (some k) =
      ((vector_live (if hash_index m k = i then v else bucket m.buckets (hash_index m k))).find?
        (fun p => key_cmp k p.key)).map pair.value := by
  rw [hashmap_at_eq_find key_cmp m1 h1 k, hash_index_congr m1 m hc hf k, hb,
    bucket_set m.buckets i _ v hi]

/-- C26: on a reachable map with a lawful key comparison, when `hashmap_insert` of
`(k, v)` succeeds and leaves the capacity unchanged, `hashmap_at(k)` is `v` afterwards
and `hashmap_at(k')` is as before the call for every key `k'` that does not compare
equal to `k`; and when `hashmap_erase(k)` succeeds (result `r`) and leaves the capacity
unchanged, `hashmap_at(k')` is as before the call for every such `k'`.  This holds
whether or not an allocation would fail. -/
theorem at_frame_without_rehash {K V : Type} (key_cmp : K → K → Bool) (func : K → Nat)
    (hok : key_cmp_ok key_cmp func) (oom : Bool) (m : hashmap K V)
    (hr : Reachable key_cmp func m) :
    (∀ p, (hashmap_insert key_cmp oom m (some p)).1 = true →
      (hashmap_insert key_cmp oom m (some p)).2.capacity = m.capacity →
      hashmap_at key_cmp (some (hashmap_insert key_cmp oom m (some p)).2) (some p.key) =
        some p.value ∧
      ∀ k1, key_cmp k1 p.key = false →
        hashmap_at key_cmp (some (hashmap_insert key_cmp oom m (some p)).2) (some k1) =
          hashmap_at key_cmp (some m) (some k1)) ∧
    (∀ k r, hashmap_erase key_cmp oom m (some k) = some r → r.1 = true →
      r.2.capacity = m.capacity →
      ∀ k1, key_cmp k1 k = false →
        hashmap_at key_cmp (some r.2) (some k1) =
          hashmap_at key_cmp (some m) (some k1)) := by
  obtain ⟨hinv, _⟩ := reachable_inv key_cmp func m hr
  have hcpos := hashmap_inv_cap_pos m hinv
  refine ⟨fun p hs hc => ?_, fun k r hres hs hc k1 hk1 => ?_⟩
  · obtain ⟨hlt, hwf⟩ := hashmap_inv_bucket_WF m hinv p.key
    by_cases hdup : ∃ q ∈ vector_live (bucket m.buckets (hash_index m p.key)),
        key_cmp q.key p.key = true
    · rw [hashmap_insert_dup key_cmp oom m hinv p hdup] at hs
      exact absurd hs (by simp)
    · have hvac : ∀ q ∈ vector_live (bucket m.buckets (hash_index m p.key)),
          key_cmp q.key p.key = false := by
        intro q hq
        cases hcq : key_cmp q.key p.key with
        | false => rfl
        | true => exact absurd ⟨q, hq, hcq⟩ hdup
      obtain ⟨m1, hm1, _, hcap, _, hinv1, _, _⟩ := hashmap_insert_fresh key_cmp m hinv p hvac
      have hg : ¬ 3 * m.capacity < 4 * (m.size + 1) := by
        intro hg
        cases oom with
        | false =>
          rw [hm1] at hc
          rw [if_pos hg] at hcap
          simp only at hc
          omega
        | true =>
          rcases hashmap_insert_oom_fields key_cmp m hinv p hvac with ⟨_, hf, _, _⟩ | ⟨hng, _⟩
          · rw [hf] at hs
            exact absurd hs (by simp)
          · exact hng hg
      obtain ⟨heq, _⟩ := hashmap_insert_fresh_eq key_cmp m hinv p hvac
      have hm1eq := (heq hg false).symm.trans hm1
      rw [heq hg oom]
      simp only [Prod.mk.injEq, true_and] at hm1eq
      rw [← hm1eq] at hinv1
      have hlive := (vector_push_back_WF _ p hwf).2.2
      have hat : ∀ k1, hashmap_at key_cmp (some
          ({ buckets := m.buckets.set (hash_index m p.key)
               (vector_push_back (bucket m.buckets (hash_index m p.key)) p).2,
             size := m.size + 1, capacity := m.capacity, hash_func := m.hash_func } :
            hashmap K V)) (some k1) = _ :=
        fun k1 => hashmap_at_set key_cmp m _ hinv1 rfl rfl _ hlt _ rfl k1
      refine ⟨?_, fun k1 hk1 => ?_⟩
      · rw [hat, if_pos rfl, hlive, List.find?_append]
        have hnone : (vector_live (bucket m.buckets (hash_index m p.key))).find?
            (fun q => key_cmp p.key q.key) = none := by
          rw [List.find?_eq_none]
          intro q hq hcq
          have := hok.symm _ _ hcq
          rw [hvac q hq] at this
          exact absurd this (by simp)
        rw [hnone]
        simp [hok.refl]
      · rw [hat, hashmap_at_eq_find key_cmp m hinv k1]
        by_cases hi : hash_index m k1 = hash_index m p.key
        · rw [if_pos hi, hlive, List.find?_append, hi]
          simp [hk1]
        · rw [if_neg hi]
  · by_cases hat : hashmap_at key_cmp (some m) (some k) = none
    · rw [hashmap_erase_absent key_cmp oom m k hat] at hres
      cases hres
      exact absurd hs (by simp)
    · by_cases hhit : ∃ q ∈ vector_live (bucket m.buckets (hash_index m k)),
          key_cmp q.key k = true
      · obtain ⟨hlt, hwf⟩ := hashmap_inv_bucket_WF m hinv k
        obtain ⟨m1, _, _, hm1, _, _, hcap, _, hinv1, _⟩ :=
          hashmap_erase_hit key_cmp m hinv k hat hhit
        have hg : ¬ 4 * (m.size - 1) < m.capacity := by
          intro hg
          cases oom with
          | false =>
            rw [hm1] at hres
            cases hres
            rw [if_pos hg] at hcap
            simp only at hc
            omega
          | true =>
            rcases (hashmap_erase_oom_fields key_cmp m hinv k hat hhit).2 with
              ⟨_, hf⟩ | ⟨hng, _⟩
            · rw [hf] at hres
              cases hres
            · exact hng hg
        obtain ⟨j, hj, hjk, _, heq, _⟩ := hashmap_erase_hit_eq key_cmp m hinv k hat hhit
        have hm1eq := (heq hg false).symm.trans hm1
        rw [heq hg oom] at hres
        cases hres
        simp only [Option.some.injEq, Prod.mk.injEq, true_and] at hm1eq
        rw [← hm1eq] at hinv1
        have hlive := (vector_erase_WF _ j hwf hj).2.2
        have hset : hashmap_at key_cmp (some
            ({ buckets := m.buckets.set (hash_index m k)
                 (vector_erase (bucket m.buckets (hash_index m k)) j).2,
               size := size_t_pred m.size, capacity := m.capacity,
               hash_func := m.hash_func } : hashmap K V)) (some k1) = _ :=
          hashmap_at_set key_cmp m _ hinv1 rfl rfl _ hlt _ rfl k1
        show hashmap_at key_cmp (some
            ({ buckets := m.buckets.set (hash_index m k)
                 (vector_erase (bucket m.buckets (hash_index m k)) j).2,
               size := size_t_pred m.size, capacity := m.capacity,
               hash_func := m.hash_func } : hashmap K V)) (some k1) = _
        rw [hset, hashmap_at_eq_find key_cmp m hinv k1]
        by_cases hi : hash_index m k1 = hash_index m k
        · rw [if_pos hi, hlive, hi]
          have hfj : key_cmp k1
              ((vector_live (bucket m.buckets (hash_index m k))).get ⟨j, hj⟩).key = false := by
            cases hcq : key_cmp k1
                ((vector_live (bucket m.buckets (hash_index m k))).get ⟨j, hj⟩).key with
            | false => rfl
            | true =>
              have := hok.trans _ _ _ hcq hjk
              rw [hk1] at this
              exact absurd this (by simp)
          rw [find_eraseIdx (fun q => key_cmp k1 q.key) _ j hj hfj]
        · rw [if_neg hi]
      · have hmiss : ∀ q ∈ vector_live (bucket m.buckets (hash_index m k)),
            key_cmp q.key k = false := by
          intro q hq
          cases hcq : key_cmp q.key k with
          | false => rfl
          | true => exact absurd ⟨q, hq, hcq⟩ hhit
        rw [hashmap_erase_miss key_cmp oom m hinv k hmiss] at hres
        cases hres
        exact absurd hs (by simp)

/-- Witness of C26 on the map of `test_removal_rehash` after its inserts (keys 0..12 at
capacity 32): inserting `(20, 20)` succeeds without rehash, key 20 is then found with
value 20 and key 3 as before; erasing key 8 succeeds without rehash and key 3 is found
as before. -/
theorem at_frame_without_rehash_witness :
    key_cmp_ok char_key_cmp hash_identity ∧ Reachable char_key_cmp hash_identity map_13 ∧
    map_13.capacity = 32 ∧
    (hashmap_insert char_key_cmp false map_13 (some (test_pair 20))).1 = true ∧
    (hashmap_insert char_key_cmp false map_13 (some (test_pair 20))).2.capacity =
      map_13.capacity ∧
    hashmap_at char_key_cmp
      (some (hashmap_insert char_key_cmp false map_13 (some (test_pair 20))).2) (some 20) =
        some 20 ∧
    hashmap_at char_key_cmp
      (some (hashmap_insert char_key_cmp false map_13 (some (test_pair 20))).2) (some 3) =
        hashmap_at char_key_cmp (some map_13) (some 3) ∧
    ∃ r, hashmap_erase char_key_cmp false map_13 (some 8) = some r ∧ r.1 = true ∧
      r.2.capacity = map_13.capacity ∧
      hashmap_at char_key_cmp (some r.2) (some 3) =
        hashmap_at char_key_cmp (some map_13) (some 3) := by
  have hs : (hashmap_insert char_key_cmp false map_13 (some (test_pair 20))).1 = true := by
    decide!
  have hc : (hashmap_insert char_key_cmp false map_13 (some (test_pair 20))).2.capacity =
      map_13.capacity := by
    decide!
  have hdef : (hashmap_erase char_key_cmp false map_13 (some 8)).isSome = true := by decide!
  obtain ⟨r, hres⟩ := Option.isSome_iff_exists.1 hdef
  have e : (hashmap_erase char_key_cmp false map_13 (some 8)).map
      (fun r => (r.1, r.2.capacity)) = some (true, 32) := by
    decide!
  rw [hres] at e
  simp only [Option.map_some', Option.some.injEq, Prod.mk.injEq] at e
  have hs2 : r.1 = true := e.1
  have hc2 : r.2.capacity = map_13.capacity := by
    rw [e.2]
    decide!
  have h := at_frame_without_rehash char_key_cmp hash_identity char_key_cmp_ok false map_13
    map_13_reachable
  have h1 := h.1 (test_pair 20) hs hc
  exact ⟨char_key_cmp_ok, map_13_reachable, by decide!, hs, hc, h1.1, h1.2 3 (by decide),
    r, hres, hs2, hc2, h.2 8 r hres hs2 hc2 3 (by decide)⟩

end HashmapImpl
